import Mathlib

/-!
Verification of the itrie package (Merkle-Patricia trie) against its
natural-language specification.

The Go source is embedded shallowly: nodes become an inductive type,
`Txn.insert` / `Txn.lookup` / `Txn.delete` become fuel-metered functions
(the fuel models non-termination of resolution chains; a Go `panic`
becomes the explicit result `Res.err`), and the backing store becomes an
oracle `Storage`.  A second, heap-indexed model is developed further down
for the aliasing/mutation claims.
-/

namespace ITrie

/-- Outcome of a fuel-metered run of one of the Go functions: `oom` means
the fuel ran out (model artifact), `err` is a Go `panic`, `ok` a normal
return. -/
inductive Res (α : Type) where
  | oom
  | err
  | ok (a : α)
deriving DecidableEq

/-- Sequencing that propagates `oom` and `err`, mirroring how a Go panic
aborts the whole call chain. -/
def Res.bind {α β : Type} : Res α → (α → Res β) → Res β
  | .oom, _ => .oom
  | .err, _ => .err
  | .ok a, f => f a

@[simp] theorem Res.bind_oom {α β : Type} (f : α → Res β) : Res.bind .oom f = .oom := rfl

@[simp] theorem Res.bind_err {α β : Type} (f : α → Res β) : Res.bind .err f = .err := rfl

@[simp] theorem Res.bind_ok {α β : Type} (a : α) (f : α → Res β) :
    Res.bind (.ok a) f = f a := rfl

/-- The node model of the source: `ValueNode` (with its `hash` flag marking a
stored hash reference), `ShortNode` (cached hash, nibble key, child) and
`FullNode` (cached hash, epoch, value slot, 16 child slots).  The Go `Node`
interface value `nil` is represented by `Option Node`'s `none` at use sites.
Bytes are `Nat`s; a cached hash is a byte list, `[]` meaning "not computed". -/
inductive Node where
  | value (hash : Bool) (buf : List Nat)
  | short (hash : List Nat) (key : List Nat) (child : Option Node)
  | full (hash : List Nat) (epoch : Nat) (val : Option Node) (children : List (Option Node))

/-- `FullNode.getEdge`: slot 16 is the value slot, slots 0..15 the children. -/
def fullGetEdge (v : Option Node) (ch : List (Option Node)) (i : Nat) : Option Node :=
  if i = 16 then v else ch.getD i none

/-- `FullNode.setEdge` acting on the two slot fields. -/
def fullSetEdge (v : Option Node) (ch : List (Option Node)) (i : Nat) (e : Option Node) :
    Option Node × List (Option Node) :=
  if i = 16 then (e, ch) else (v, ch.set i e)

/-- `FullNode.replaceEdge`; its body in the source is identical to `setEdge`. -/
def fullReplaceEdge (v : Option Node) (ch : List (Option Node)) (i : Nat) (e : Option Node) :
    Option Node × List (Option Node) :=
  if i = 16 then (e, ch) else (v, ch.set i e)

/-- `prefixLen`: length of the longest common prefix of two byte slices. -/
def prefixLen : List Nat → List Nat → Nat
  | a :: as, b :: bs => if a = b then prefixLen as bs + 1 else 0
  | _, _ => 0

/-- `concat`: fresh slice holding `a` followed by `b`. -/
def concat (a b : List Nat) : List Nat := a ++ b

/-- Expansion of a byte sequence into its hex nibbles, high nibble first. -/
def bytesToNibbles : List Nat → List Nat
  | [] => []
  | b :: bs => b / 16 :: b % 16 :: bytesToNibbles bs

/-- Modelled from the spec: `keybytesToHex` is called by `Txn.Lookup`,
`Txn.Insert` and `Txn.Delete` but defined outside the given sources.  Per
§3.1 of the spec a byte key expands to its nibble sequence and, because the
key terminates at a stored value, the terminator nibble 16 is appended. -/
def keybytesToHex (k : List Nat) : List Nat := bytesToNibbles k ++ [16]

/-- What the backing store (composed with node decoding) can answer for one
hash: a decoded node, "no such hash", or a lower-level I/O fault. -/
inductive StoreRes where
  | found (n : Node)
  | absent
  | ioErr

/-- Modelled from the spec: `GetNode(buf, storage)` (defined outside the
given sources) performs `storage.get(buf)` and decodes the result into a
node, returning `(node, ok, err)`.  We model the store/decoder composite as
an oracle from hashes to `StoreRes`. -/
def Storage : Type := List Nat → StoreRes

/-- All sixteen child slots empty, as in a freshly allocated `FullNode`. -/
def empty16 : List (Option Node) := List.replicate 16 none

/-- `Txn.writeNode`: reuse a full node created by this transaction
(equal epoch), otherwise return a shallow clone carrying the transaction
epoch, the same slots, and an empty hash cache. -/
def writeNode (tEpoch : Nat) : Node → Node
  | .full h ep v ch => if tEpoch = ep then .full h ep v ch else .full [] tEpoch v ch
  | n => n

/-- `Txn.lookup`.  The first `Nat` is fuel; each recursive call consumes one
unit.  A nibble ≥ 17 at a full node would be an out-of-range slice index in
Go, hence `.err`. -/
def lookup (st : Storage) : Nat → Option Node → List Nat → Res (Option (List Nat))
  | 0, _, _ => .oom
  | _ + 1, none, _ => .ok none
  | f + 1, some (.value h buf), key =>
    if h then
      match st buf with
      | .ioErr => .err
      | .absent => .ok none
      | .found nc => lookup st f (some nc) key
    else if key = [] then .ok (some buf) else .ok none
  | f + 1, some (.short _ skey child), key =>
    if skey.length > key.length ∨ ¬ key.take skey.length = skey then .ok none
    else lookup st f child (key.drop skey.length)
  | f + 1, some (.full _ _ v ch), key =>
    match key with
    | [] => lookup st f v []
    | k :: rest =>
      if 16 < k then .err else lookup st f (fullGetEdge v ch k) rest

/-- `Txn.insert` on a node.  `ep` is the transaction epoch.  The result
`Option Node` is the Go return value, `none` being Go's `nil` (reached when
resolution reports an absent hash). -/
def insert (st : Storage) (ep : Nat) :
    Nat → Option Node → List Nat → List Nat → Res (Option Node)
  | 0, _, _, _ => .oom
  | f + 1, none, search, value =>
    match search with
    | [] => .ok (some (.value false value))
    | _ :: _ =>
      (insert st ep f none [] value).bind fun c =>
      .ok (some (.short [] search c))
  | f + 1, some (.value h buf), search, value =>
    if h then
      match st buf with
      | .ioErr => .err
      | .absent => .ok none
      | .found nc => insert st ep f (some nc) search value
    else
      match search with
      | [] => .ok (some (.value false value))
      | _ :: _ =>
        insert st ep f (some (.full [] ep (some (.value false buf)) empty16)) search value
  | f + 1, some (.short _ key child), search, value =>
    let plen := prefixLen search key
    if plen = key.length then
      (insert st ep f child (search.drop plen) value).bind fun c =>
      .ok (some (.short [] key c))
    else
      let e : Option Node :=
        if key.length > plen + 1 then some (.short [] (key.drop (plen + 1)) child) else child
      let b := fullSetEdge none empty16 (key.getD plen 0) e
      (insert st ep f (some (.full [] ep b.1 b.2)) (search.drop plen) value).bind fun c =>
      if plen = 0 then .ok c
      else .ok (some (.short [] (search.take plen) c))
  | f + 1, some (.full h nep v ch), search, value =>
    let b := writeNode ep (.full h nep v ch)
    match b with
    | .full bh bep bv bch =>
      match search with
      | [] =>
        (insert st ep f bv [] value).bind fun nv =>
        .ok (some (.full bh bep nv bch))
      | k :: rest =>
        if 16 < k then .err else
        let child := fullGetEdge v ch k
        (insert st ep f child rest value).bind fun newChild =>
        if child.isNone then
          let s := fullSetEdge bv bch k newChild
          .ok (some (.full bh bep s.1 s.2))
        else
          let s := fullReplaceEdge bv bch k newChild
          .ok (some (.full bh bep s.1 s.2))
    | _ => .err

/-- `Txn.delete` on a node: returns the replacement node and the `changed`
flag.  The full-node case reads `search[0]` unconditionally, so an empty
remainder there is a Go slice-index panic (`.err`). -/
def del (st : Storage) : Nat → Option Node → List Nat → Res (Option Node × Bool)
  | 0, _, _ => .oom
  | _ + 1, none, _ => .ok (none, false)
  | f + 1, some (.short _ key child), search =>
    let plen := prefixLen search key
    if plen = search.length then .ok (none, true)
    else if plen = 0 then .ok (none, false)
    else
      (del st f child (search.drop plen)).bind fun co =>
      if co.2 then
        match co.1 with
        | none => .ok (none, true)
        | some (.short _ skey schild) => .ok (some (.short [] (concat key skey) schild), true)
        | some c => .ok (some (.short [] key (some c)), true)
      else .ok (none, false)
  | f + 1, some (.value h buf), search =>
    if h then
      match st buf with
      | .ioErr => .err
      | .absent => .ok (none, false)
      | .found nc => del st f (some nc) search
    else if search = [] then .ok (none, true) else .ok (none, false)
  | f + 1, some (.full _ nep v ch), search =>
    match search with
    | [] => .err
    | k :: rest =>
      if 16 < k then .err else
      (del st f (fullGetEdge v ch k) rest).bind fun co =>
      if co.2 then
        let s := fullSetEdge v ch k co.1
        let v' := s.1
        let ch' := s.2
        let indx := ch'.findIdx? (·.isSome)
        let notEmpty :=
          2 ≤ ch'.countP (·.isSome) ∨ (indx.isSome ∧ v'.isSome)
        if notEmpty then .ok (some (.full [] nep v' ch'), true)
        else
          match indx with
          | none =>
            match v' with
            | none => .ok (none, true)
            | some nv => .ok (some (.short [] [16] (some nv)), true)
          | some i =>
            let nc := ch'.getD i none
            match nc with
            | some (.value true hbuf) =>
              match st hbuf with
              | .ioErr => .err
              | .absent => .ok (none, false)
              | .found aux =>
                match aux with
                | .short _ skey schild =>
                  .ok (some (.short [] (concat [i] skey) schild), true)
                | aux' => .ok (some (.short [] [i] (some aux')), true)
            | some (.short _ skey schild) =>
              .ok (some (.short [] (concat [i] skey) schild), true)
            | _ => .ok (some (.short [] [i] nc), true)
      else .ok (none, false)

/-- The transaction state that the node-level functions thread: current root
and epoch (the storage handle is passed separately). -/
structure Txn where
  root : Option Node
  epoch : Nat

/-- The trie record: committed root and epoch. -/
structure Trie where
  root : Option Node
  epoch : Nat

/-- Epochs are Go `uint32` values. -/
def U32 : Nat := 2 ^ 32

/-- `Trie.Txn`: open a transaction with epoch `trie.epoch + 1` (uint32). -/
def Trie.txn (t : Trie) : Txn :=
  { root := t.root, epoch := (t.epoch + 1) % U32 }

/-- `Txn.Commit`: install the transaction root as a new trie. -/
def Txn.commit (t : Txn) : Trie :=
  { root := t.root, epoch := t.epoch }

/-- `Txn.Lookup`. -/
def Txn.lookupK (st : Storage) (f : Nat) (t : Txn) (k : List Nat) : Res (Option (List Nat)) :=
  lookup st f t.root (keybytesToHex k)

/-- `Txn.Insert`: run the node-level insert and install the new root unless
it is `nil`. -/
def Txn.insertK (st : Storage) (f : Nat) (t : Txn) (k v : List Nat) : Res Txn :=
  (insert st t.epoch f t.root (keybytesToHex k) v).bind fun root =>
  .ok (if root.isSome then { t with root := root } else t)

/-- `Txn.Delete`: run the node-level delete and install the new root when
the `changed` flag is set. -/
def Txn.deleteK (st : Storage) (f : Nat) (t : Txn) (k : List Nat) : Res Txn :=
  (del st f t.root (keybytesToHex k)).bind fun co =>
  .ok (if co.2 then { t with root := co.1 } else t)

/-- `Trie.Get`: look the key up in a fresh transaction and report presence
as `res != nil`. -/
def Trie.get (st : Storage) (f : Nat) (t : Trie) (k : List Nat) :
    Res (Option (List Nat) × Bool) :=
  ((t.txn).lookupK st f k).bind fun res =>
  .ok (res, res.isSome)

/-- `NewTrie()`: zero-valued trie (nil root, epoch 0). -/
def newTrie : Trie := { root := none, epoch := 0 }

/-- A storage oracle with nothing in it; tries built in memory from scratch
never consult it. -/
def emptyStore : Storage := fun _ => .absent

end ITrie

namespace ITrie

/-! ## Well-formedness of in-memory tries

`isTerm s` characterises the nibble strings `keybytesToHex` produces:
nonempty, terminator 16 last and nowhere else.  `wfc` is the structural
invariant the spec states (§3.3): no empty Short key, Full with ≥ 2
non-empty slots, no Short chained to a Short; additionally it records how
leaf/extension Shorts and the slot kinds fit together, and it excludes
hash references (tries built in memory from scratch contain none). -/

def isTerm : List Nat → Bool
  | [] => false
  | [a] => a = 16
  | a :: s => decide (a < 16) && isTerm s

/-- Valid content of a Full node's value slot: empty or a payload Value. -/
def wfv : Option Node → Bool
  | none => true
  | some (.value false _) => true
  | _ => false

mutual

/-- Well-formed content of a child slot (or of a root). -/
def wfc : Option Node → Bool
  | none => true
  | some (.value _ _) => false
  | some (.short _ key child) =>
    match child with
    | some (.value false _) => isTerm key
    | some (.full h ep v ch) => (decide (key ≠ []) && key.all (· < 16)) && wff (.full h ep v ch)
    | _ => false
  | some (.full h ep v ch) => wff (.full h ep v ch)

/-- Well-formed Full node. -/
def wff : Node → Bool
  | .full _ _ v ch =>
    (decide (ch.length = 16) && wfl ch && wfv v) &&
      decide (2 ≤ ch.countP (·.isSome) + (if v.isSome then 1 else 0))
  | _ => false

/-- All slots of a list well-formed. -/
def wfl : List (Option Node) → Bool
  | [] => true
  | c :: cs => wfc c && wfl cs

end

end ITrie

namespace ITrie

/-- Size bound for slot access, used for termination of `den`. -/
theorem sizeOf_getD_le (ch : List (Option Node)) (i : Nat) :
    sizeOf (ch.getD i none) ≤ sizeOf ch + 1 := by
  induction ch generalizing i with
  | nil => simp [List.getD]
  | cons c cs ih =>
    cases i with
    | zero => simp [List.getD]; omega
    | succ j =>
      have := ih j
      simp [List.getD] at this ⊢
      omega

/-- Variant of `sizeOf_getD_le` in `getElem?` form. -/
theorem sizeOf_getElem?_le (ch : List (Option Node)) (i : Nat) :
    sizeOf (ch[i]?.getD none) ≤ sizeOf ch + 1 := by
  have := sizeOf_getD_le ch i
  simpa [List.getD] using this

/-- Denotation of a hash-free in-memory trie: `lookup` with the resolution
branch cut (it answers `none` on a hash reference, which hash-free trees
never contain).  Total, used as the specification-side map. -/
def den : Option Node → List Nat → Option (List Nat)
  | none, _ => none
  | some (.value h buf), key => if h then none else if key = [] then some buf else none
  | some (.short _ skey child), key =>
    if skey.length > key.length ∨ ¬ key.take skey.length = skey then none
    else den child (key.drop skey.length)
  | some (.full _ _ v ch), key =>
    match key with
    | [] => den v []
    | k :: rest => if 16 < k then none else den (fullGetEdge v ch k) rest
termination_by n _ => sizeOf n
decreasing_by
  · simp; omega
  · simp; omega
  · have h1 := sizeOf_getElem?_le ch k
    simp [fullGetEdge]
    split
    · omega
    · omega

mutual

/-- No hash-reference Value anywhere in the tree. -/
def hashFree : Option Node → Bool
  | none => true
  | some (.value h _) => !h
  | some (.short _ _ c) => hashFree c
  | some (.full _ _ v ch) => hashFree v && hfl ch

/-- `hashFree` on every slot of a list. -/
def hfl : List (Option Node) → Bool
  | [] => true
  | c :: cs => hashFree c && hfl cs

end

end ITrie

namespace ITrie

@[simp] theorem isTerm_nil : isTerm [] = false := rfl

@[simp] theorem isTerm_single (a : Nat) : isTerm [a] = decide (a = 16) := rfl

@[simp] theorem isTerm_cons_cons (a b : Nat) (s : List Nat) :
    isTerm (a :: b :: s) = (decide (a < 16) && isTerm (b :: s)) := rfl

theorem isTerm_ne_nil {s : List Nat} (h : isTerm s) : s ≠ [] := by
  cases s <;> simp_all

/-- Head analysis of a terminated string. -/
theorem isTerm_cons_elim {a : Nat} {s : List Nat} (h : isTerm (a :: s)) :
    (a = 16 ∧ s = []) ∨ (a < 16 ∧ isTerm s) := by
  cases s with
  | nil => simp at h; exact Or.inl ⟨h, rfl⟩
  | cons b t => simp at h; exact Or.inr ⟨h.1, h.2⟩

theorem isTerm_append {a b : List Nat} (ha : ∀ x ∈ a, x < 16) (hb : isTerm b) :
    isTerm (a ++ b) := by
  induction a with
  | nil => simpa
  | cons x xs ih =>
    have hx : x < 16 := ha x (by simp)
    have h' : isTerm (xs ++ b) := ih (fun y hy => ha y (by simp [hy]))
    have hne : xs ++ b ≠ [] := isTerm_ne_nil h'
    cases hxs : xs ++ b with
    | nil => exact absurd hxs hne
    | cons c cs => simp [hxs] at h' ⊢; exact ⟨hx, h'⟩

theorem isTerm_drop {s : List Nat} (h : isTerm s) {p : Nat} (hp : p < s.length) :
    isTerm (s.drop p) := by
  induction s generalizing p with
  | nil => simp at hp
  | cons a t ih =>
    cases p with
    | zero => simpa using h
    | succ q =>
      rcases isTerm_cons_elim h with ⟨_, rfl⟩ | ⟨_, ht⟩
      · simp at hp
      · simp only [List.drop_succ_cons]
        exact ih ht (by simpa using hp)

theorem isTerm_take_lt {s : List Nat} (h : isTerm s) {p : Nat} (hp : p < s.length) :
    ∀ x ∈ s.take p, x < 16 := by
  induction s generalizing p with
  | nil => simp at hp
  | cons a t ih =>
    cases p with
    | zero => simp
    | succ q =>
      rcases isTerm_cons_elim h with ⟨_, rfl⟩ | ⟨ha, ht⟩
      · simp at hp
      · intro x hx
        simp only [List.take_succ_cons, List.mem_cons] at hx
        rcases hx with rfl | hx
        · exact ha
        · exact ih ht (by simpa using hp) x hx

theorem prefixLen_le_left (a b : List Nat) : prefixLen a b ≤ a.length := by
  induction a generalizing b with
  | nil => simp [prefixLen]
  | cons x xs ih =>
    cases b with
    | nil => simp [prefixLen]
    | cons y ys =>
      simp only [prefixLen]
      split
      · simpa using ih ys
      · simp

theorem prefixLen_le_right (a b : List Nat) : prefixLen a b ≤ b.length := by
  induction a generalizing b with
  | nil => simp [prefixLen]
  | cons x xs ih =>
    cases b with
    | nil => simp [prefixLen]
    | cons y ys =>
      simp only [prefixLen]
      split
      · simpa using ih ys
      · simp

/-- `prefixLen a b = b.length` means `b` is a prefix of `a`. -/
theorem prefixLen_eq_right_iff (a b : List Nat) :
    prefixLen a b = b.length ↔ a.take b.length = b := by
  induction b generalizing a with
  | nil => cases a <;> simp [prefixLen]
  | cons y ys ih =>
    cases a with
    | nil => simp [prefixLen]
    | cons x xs =>
      simp only [prefixLen, List.length_cons, List.take_succ_cons]
      split
      · subst x; rw [List.cons_inj_right]
        constructor
        · intro h; exact (ih xs).mp (by omega)
        · intro h; have := (ih xs).mpr h; omega
      · constructor
        · intro h; have := prefixLen_le_left xs ys; omega
        · intro h
          exfalso
          have : x = y := by
            have := congrArg (fun l => l.head?) h
            simpa using this
          simp_all

/-- Symmetric version: `prefixLen a b = a.length` means `a` is a prefix of `b`. -/
theorem prefixLen_comm (a b : List Nat) : prefixLen a b = prefixLen b a := by
  induction a generalizing b with
  | nil => cases b <;> simp [prefixLen]
  | cons x xs ih =>
    cases b with
    | nil => simp [prefixLen]
    | cons y ys =>
      simp only [prefixLen]
      rcases eq_or_ne x y with rfl | hxy
      · simp [ih ys]
      · simp [hxy, Ne.symm hxy]

theorem prefixLen_eq_left_iff (a b : List Nat) :
    prefixLen a b = a.length ↔ b.take a.length = a := by
  rw [prefixLen_comm]; exact prefixLen_eq_right_iff b a

/-- The two strings agree on the common prefix. -/
theorem take_prefixLen_eq (a b : List Nat) :
    a.take (prefixLen a b) = b.take (prefixLen a b) := by
  induction a generalizing b with
  | nil => simp [prefixLen]
  | cons x xs ih =>
    cases b with
    | nil => simp [prefixLen]
    | cons y ys =>
      simp only [prefixLen]
      split
      · subst x; simp [List.take_succ_cons, ih ys]
      · simp

/-- At a true divergence both strings continue and disagree. -/
theorem prefixLen_lt_ne {a b : List Nat} (ha : prefixLen a b < a.length)
    (hb : prefixLen a b < b.length) :
    a.getD (prefixLen a b) 0 ≠ b.getD (prefixLen a b) 0 := by
  induction a generalizing b with
  | nil => simp at ha
  | cons x xs ih =>
    cases b with
    | nil => simp at hb
    | cons y ys =>
      simp only [prefixLen] at ha hb ⊢
      split
      · next hxy =>
        simp only [hxy] at *
        have := ih (b := ys) (by simpa using ha) (by simpa using hb)
        simpa [List.getD] using this
      · next hxy => simpa [List.getD] using hxy

/-- Terminated strings are exactly `u ++ [16]` with `u` pure nibbles. -/
theorem isTerm_iff (s : List Nat) :
    isTerm s = true ↔ ∃ u, s = u ++ [16] ∧ ∀ x ∈ u, x < 16 := by
  induction s with
  | nil => simp
  | cons a t ih =>
    cases t with
    | nil =>
      simp only [isTerm_single, decide_eq_true_eq]
      constructor
      · rintro rfl; exact ⟨[], rfl, by simp⟩
      · rintro ⟨u, hu, _⟩
        cases u with
        | nil => simpa using hu
        | cons x xs => simp at hu
    | cons b r =>
      rw [isTerm_cons_cons]
      simp only [Bool.and_eq_true, decide_eq_true_eq, ih]
      constructor
      · rintro ⟨ha, u, hu, hall⟩
        exact ⟨a :: u, by simp [hu], by
          intro x hx
          rcases List.mem_cons.mp hx with rfl | hx
          · exact ha
          · exact hall x hx⟩
      · rintro ⟨u, hu, hall⟩
        cases u with
        | nil => simp at hu
        | cons x xs =>
          simp only [List.cons_append, List.cons.injEq] at hu
          rcases hu with ⟨rfl, hu⟩
          exact ⟨hall a (by simp), xs, hu, fun y hy => hall y (by simp [hy])⟩

theorem isTerm_mem_16 {s : List Nat} (hs : isTerm s) : (16 : Nat) ∈ s := by
  rcases (isTerm_iff s).mp hs with ⟨u, rfl, _⟩
  simp

/-- A terminated string that is a prefix of another terminated string equals it. -/
theorem isTerm_prefix_eq {s k : List Nat} (hs : isTerm s) (hk : isTerm k)
    (h : prefixLen s k = s.length) : s = k := by
  have hpre : k.take s.length = s := (prefixLen_eq_left_iff s k).mp h
  rcases (isTerm_iff s).mp hs with ⟨u, hu, hua⟩
  rcases (isTerm_iff k).mp hk with ⟨w, hw, hwa⟩
  have hsk : s.length ≤ k.length := by
    have := prefixLen_le_right s k; omega
  rcases Nat.lt_or_ge s.length k.length with hlt | hge
  · exfalso
    have hle : s.length ≤ w.length := by
      have : k.length = w.length + 1 := by simp [hw]
      omega
    have h16 : (16 : Nat) ∈ k.take s.length := by
      rw [hpre]; exact isTerm_mem_16 hs
    have : (16 : Nat) ∈ w := by
      have : k.take s.length = w.take s.length := by
        rw [hw, List.take_append_of_le_length hle]
      rw [this] at h16
      exact List.mem_of_mem_take h16
    exact absurd (hwa 16 this) (by omega)
  · have : s.length = k.length := le_antisymm hsk hge
    rw [← hpre, this, List.take_length]

/-- A terminated string never fully matches within an extension key
(all nibbles below 16). -/
theorem isTerm_prefixLen_lt {s k : List Nat} (hs : isTerm s)
    (hk : ∀ x ∈ k, x < 16) : prefixLen s k < s.length := by
  rcases Nat.lt_or_ge (prefixLen s k) s.length with h | h
  · exact h
  · exfalso
    have heq : prefixLen s k = s.length :=
      le_antisymm (prefixLen_le_left s k) h
    have hpre : k.take s.length = s := (prefixLen_eq_left_iff s k).mp heq
    have h16s : (16 : Nat) ∈ s := isTerm_mem_16 hs
    have : (16 : Nat) ∈ k := by
      have : (16 : Nat) ∈ k.take s.length := by rw [hpre]; exact h16s
      exact List.mem_of_mem_take this
    exact absurd (hk 16 this) (by omega)

end ITrie

namespace ITrie

theorem wfl_getD {ch : List (Option Node)} (h : wfl ch = true) (i : Nat) :
    wfc (ch.getD i none) = true := by
  induction ch generalizing i with
  | nil => simp [List.getD, wfc]
  | cons c cs ih =>
    simp only [wfl, Bool.and_eq_true] at h
    cases i with
    | zero => simpa [List.getD] using h.1
    | succ j => simpa [List.getD] using ih h.2 j

theorem hfl_getD {ch : List (Option Node)} (h : hfl ch = true) (i : Nat) :
    hashFree (ch.getD i none) = true := by
  induction ch generalizing i with
  | nil => simp [List.getD, hashFree]
  | cons c cs ih =>
    simp only [hfl, Bool.and_eq_true] at h
    cases i with
    | zero => simpa [List.getD] using h.1
    | succ j => simpa [List.getD] using ih h.2 j

theorem wfv_hashFree {v : Option Node} (h : wfv v = true) : hashFree v = true := by
  match v with
  | none => simp [hashFree]
  | some (.value false _) => simp [hashFree]
  | some (.value true _) => simp [wfv] at h
  | some (.short _ _ _) => simp [wfv] at h
  | some (.full _ _ _ _) => simp [wfv] at h

/-- Well-formed tries contain no hash references. -/
theorem wfc_hashFree (n : Option Node) (hw : wfc n = true) : hashFree n = true := by
  refine wfc.induct (fun n => wfc n = true → hashFree n = true)
    (fun nd => wff nd = true → hashFree (some nd) = true)
    (fun ch => wfl ch = true → hfl ch = true) ?_ ?_ ?_ ?_ ?_ ?_ ?_ ?_ ?_ ?_ n hw
  · intro h ep v ch ih hw
    simp only [wff, Bool.and_eq_true, decide_eq_true_eq] at hw
    simp only [hashFree, Bool.and_eq_true]
    exact ⟨wfv_hashFree hw.1.2, ih hw.1.1.2⟩
  · intro nd hnot hw
    match nd, hw with
    | .full h ep v ch, hw => exact absurd rfl (hnot h ep v ch)
    | .value _ _, hw => simp [wff] at hw
    | .short _ _ _, hw => simp [wff] at hw
  · intro _; simp [hashFree]
  · intro hsh buf hw; simp [wfc] at hw
  · intro hash key buf _; simp [hashFree]
  · intro hash key h ep v ch ih hw
    simp only [wfc, Bool.and_eq_true] at hw
    simpa [hashFree] using ih hw.2
  · intro hash key child h1 h2 hw
    match child, hw with
    | none, hw => simp [wfc] at hw
    | some (.value false b), hw => exact absurd rfl (h1 b)
    | some (.value true b), hw => simp [wfc] at hw
    | some (.short a b c), hw => simp [wfc] at hw
    | some (.full a b c d), hw => exact absurd rfl (h2 a b c d)
  · intro h ep v ch ih hw
    simp only [wfc] at hw
    exact ih hw
  · intro _; simp [hfl]
  · intro c cs ih1 ih2 hw
    simp only [wfl, Bool.and_eq_true] at hw
    simp only [hfl, Bool.and_eq_true]
    exact ⟨ih1 hw.1, ih2 hw.2⟩

/-- Any completed `lookup` on a hash-free tree returns the denotation. -/
theorem lookup_den (st : Storage) :
    ∀ f n key r, hashFree n = true → lookup st f n key = .ok r → r = den n key := by
  intro f
  induction f with
  | zero => intro n key r _ h; simp [lookup] at h
  | succ f ih =>
    intro n key r hf h
    match n with
    | none =>
      simp [lookup] at h
      simp [den, ← h]
    | some (.value hb buf) =>
      match hb with
      | true => simp [hashFree] at hf
      | false =>
        simp only [lookup] at h
        by_cases hk : key = []
        · subst hk; simp at h; simp [den, ← h]
        · simp [hk] at h; simp [den, hk, ← h]
    | some (.short sh skey child) =>
      simp only [lookup] at h
      by_cases hc : skey.length > key.length ∨ ¬ key.take skey.length = skey
      · simp only [if_pos hc] at h
        simp only [Res.ok.injEq] at h
        simp [den, if_pos hc, ← h]
      · simp only [if_neg hc] at h
        have hfc : hashFree child = true := by simpa [hashFree] using hf
        simp only [den, if_neg hc]
        exact ih child (key.drop skey.length) r hfc h
    | some (.full fh fep v ch) =>
      simp only [hashFree, Bool.and_eq_true] at hf
      match key with
      | [] =>
        simp only [lookup] at h
        simpa [den] using ih v [] r hf.1 h
      | k :: rest =>
        simp only [lookup] at h
        by_cases hk : 16 < k
        · simp [hk] at h
        · simp only [if_neg hk] at h
          have he : hashFree (fullGetEdge v ch k) = true := by
            unfold fullGetEdge
            split
            · exact hf.1
            · exact hfl_getD hf.2 k
          simp only [den, if_neg hk]
          exact ih _ rest r he h

/-- On a hash-free tree, `lookup` of a key whose nibbles are in range
completes for some fuel, with the denoted result. -/
theorem lookup_total (st : Storage) :
    ∀ n key, hashFree n = true → (∀ x ∈ key, x ≤ 16) →
      ∃ f, lookup st f n key = .ok (den n key) := by
  intro n key
  induction n, key using den.induct with
  | case1 key => intro _ _; exact ⟨1, by simp [lookup, den]⟩
  | case2 buf key => intro hf _; simp [hashFree] at hf
  | case3 hb buf hh =>
    intro _ _
    match hb, hh with
    | false, _ => exact ⟨1, by simp [lookup, den]⟩
  | case4 hb buf key hh hk =>
    intro _ _
    match hb, hh with
    | false, _ => exact ⟨1, by simp [lookup, den, hk]⟩
  | case5 hash skey child key hc =>
    intro _ _
    exact ⟨1, by simp [lookup, den, if_pos hc]⟩
  | case6 hash skey child key hc ih =>
    intro hf hk
    have hfc : hashFree child = true := by simpa [hashFree] using hf
    obtain ⟨f, hfl⟩ :=
      ih hfc (fun x hx => hk x (List.mem_of_mem_drop hx))
    exact ⟨f + 1, by simp [lookup, den, if_neg hc]; exact hfl⟩
  | case7 hash ep v ch ih =>
    intro hf _
    simp only [hashFree, Bool.and_eq_true] at hf
    obtain ⟨f, hfl⟩ := ih hf.1 (by simp)
    exact ⟨f + 1, by simp [lookup, den]; exact hfl⟩
  | case8 hash ep v ch b bs hb =>
    intro _ hk
    exact absurd (hk b (by simp)) (by omega)
  | case9 hash ep v ch b bs hb ih =>
    intro hf hk
    simp only [hashFree, Bool.and_eq_true] at hf
    have he : hashFree (fullGetEdge v ch b) = true := by
      unfold fullGetEdge
      split
      · exact hf.1
      · exact hfl_getD hf.2 b
    obtain ⟨f, hfl⟩ := ih he (fun x hx => hk x (by simp [hx]))
    exact ⟨f + 1, by simp [lookup, den, hb]; exact hfl⟩

end ITrie

namespace ITrie

theorem isTerm_le16 {s : List Nat} (h : isTerm s) : ∀ x ∈ s, x ≤ 16 := by
  rcases (isTerm_iff s).mp h with ⟨u, rfl, hu⟩
  intro x hx
  rcases List.mem_append.mp hx with hx | hx
  · exact le_of_lt (lt_of_lt_of_le (hu x hx) (by omega))
  · simp at hx; omega

theorem drop_eq_getD_cons {s : List Nat} {p : Nat} (hp : p < s.length) :
    s.drop p = s.getD p 0 :: s.drop (p + 1) := by
  induction s generalizing p with
  | nil => simp at hp
  | cons a t ih =>
    cases p with
    | zero => simp [List.getD]
    | succ q =>
      simp only [List.drop_succ_cons, List.getD]
      have := ih (p := q) (by simpa using hp)
      simpa [List.getD] using this

theorem getD_set_self {α : Type} (l : List (Option α)) (i : Nat) (x : Option α)
    (h : i < l.length) : (l.set i x).getD i none = x := by
  induction l generalizing i with
  | nil => simp at h
  | cons c cs ih =>
    cases i with
    | zero => simp [List.getD]
    | succ j => simpa [List.getD] using ih j (by simpa using h)

theorem getD_set_ne {α : Type} (l : List (Option α)) (i j : Nat) (x : Option α)
    (h : i ≠ j) : (l.set i x).getD j none = l.getD j none := by
  induction l generalizing i j with
  | nil => simp
  | cons c cs ih =>
    cases i with
    | zero =>
      cases j with
      | zero => exact absurd rfl h
      | succ j' => simp [List.getD]
    | succ i' =>
      cases j with
      | zero => simp [List.getD]
      | succ j' => simpa [List.getD] using ih i' j' (by omega)

theorem getD_replicate_none {α : Type} :
    ∀ (n i : Nat), (List.replicate n (none : Option α)).getD i none = none := by
  intro n
  induction n with
  | zero => intro i; simp [List.getD]
  | succ m ih =>
    intro i
    cases i with
    | zero => simp [List.replicate, List.getD]
    | succ j => simp [List.replicate, List.getD, ih j]

@[simp] theorem getD_empty16 (i : Nat) : empty16.getD i none = none :=
  getD_replicate_none 16 i

@[simp] theorem length_empty16 : empty16.length = 16 := by simp [empty16]

theorem wfl_replicate_none : ∀ n, wfl (List.replicate n none) = true := by
  intro n
  induction n with
  | zero => simp [wfl]
  | succ m ih => simp [List.replicate, wfl, wfc, ih]

@[simp] theorem wfl_empty16 : wfl empty16 = true := wfl_replicate_none 16

@[simp] theorem countP_empty16 : empty16.countP (·.isSome) = 0 := by
  simp [empty16]

theorem wfl_set {l : List (Option Node)} (hl : wfl l = true) {c : Option Node}
    (hc : wfc c = true) (i : Nat) : wfl (l.set i c) = true := by
  induction l generalizing i with
  | nil => simpa
  | cons a as ih =>
    simp only [wfl, Bool.and_eq_true] at hl
    cases i with
    | zero => simp [List.set, wfl, hc, hl.2]
    | succ j => simp [List.set, wfl, hl.1, ih hl.2 j]

theorem countP_set_some_ge (l : List (Option Node)) (i : Nat) (x : Node) :
    l.countP (·.isSome) ≤ (l.set i (some x)).countP (·.isSome) := by
  induction l generalizing i with
  | nil => simp
  | cons a as ih =>
    cases i with
    | zero =>
      simp only [List.set, List.countP_cons]
      have : (·.isSome : Option Node → Bool) a = true ∨
          (·.isSome : Option Node → Bool) a = false := by
        cases a <;> simp
      rcases this with h | h <;> simp [h]
    | succ j =>
      simp only [List.set, List.countP_cons]
      have := ih j
      omega

theorem countP_set_some_plus (l : List (Option Node)) (i : Nat) (x : Node)
    (hi : i < l.length) (h : l.getD i none = none) :
    (l.set i (some x)).countP (·.isSome) = l.countP (·.isSome) + 1 := by
  induction l generalizing i with
  | nil => simp at hi
  | cons a as ih =>
    cases i with
    | zero =>
      have ha : a = none := by simpa [List.getD] using h
      subst ha
      simp [List.set, List.countP_cons]
    | succ j =>
      simp only [List.set, List.countP_cons]
      have := ih j (by simpa using hi) (by simpa [List.getD] using h)
      omega

/-- Splitting the key of a Short node into two segments. -/
theorem den_short_append (h h' : List Nat) (pre k' : List Nat) (c : Option Node)
    (s' : List Nat) :
    den (some (.short h (pre ++ k') c)) s' =
      if pre.length ≤ s'.length ∧ s'.take pre.length = pre then
        den (some (.short h' k' c)) (s'.drop pre.length) else none := by
  by_cases hp : pre.length ≤ s'.length ∧ s'.take pre.length = pre
  · rw [if_pos hp]
    simp only [den]
    by_cases hk : k'.length > (s'.drop pre.length).length ∨
        ¬ (s'.drop pre.length).take k'.length = k'
    · rw [if_pos hk]
      rw [if_pos]
      rcases hk with hk | hk
      · left; simp at hk ⊢; omega
      · by_cases hlen : pre.length + k'.length ≤ s'.length
        · right
          intro hcon
          apply hk
          have hsplit : s'.take (pre.length + k'.length) =
              s'.take pre.length ++ (s'.drop pre.length).take k'.length :=
            List.take_add s' pre.length k'.length
          rw [List.length_append] at hcon
          rw [hcon, hp.2] at hsplit
          exact ((List.append_right_inj _).mp hsplit.symm)
        · left; simp; omega
    · rw [if_neg hk]
      push_neg at hk
      have hsplit : s'.take (pre.length + k'.length) =
          s'.take pre.length ++ (s'.drop pre.length).take k'.length :=
        List.take_add s' pre.length k'.length
      rw [hp.2, hk.2] at hsplit
      have hlen2 : pre.length + k'.length ≤ s'.length := by
        have := hk.1; simp at this; omega
      rw [if_neg]
      · have hd : (s'.drop pre.length).drop k'.length = s'.drop (pre.length + k'.length) := by
          rw [List.drop_drop]
        rw [hd]
        have hl2 : (pre ++ k').length = pre.length + k'.length := List.length_append _ _
        rw [hl2]
      · push_neg
        refine ⟨by simp; omega, ?_⟩
        rw [List.length_append]
        exact hsplit
  · rw [if_neg hp]
    simp only [den]
    rw [if_pos]
    push_neg at hp
    by_cases hl : pre.length ≤ s'.length
    · right
      intro hcon
      apply hp hl
      have htk : (pre ++ k').take pre.length = pre := by
        simp
      rw [← hcon] at htk
      rwa [List.take_take, min_eq_left (by simp [List.length_append])] at htk
    · left; simp; omega

end ITrie

namespace ITrie

theorem getD_append_left {α : Type} (u w : List α) (d : α) :
    ∀ i, i < u.length → (u ++ w).getD i d = u.getD i d := by
  induction u with
  | nil => intro i hi; simp at hi
  | cons a t ih =>
    intro i hi
    cases i with
    | zero => simp [List.getD]
    | succ j => simpa [List.getD] using ih j (by simpa using hi)

theorem getD_append_sing (u : List Nat) (x : Nat) :
    (u ++ [x]).getD u.length 0 = x := by
  induction u with
  | nil => simp [List.getD]
  | cons a t ih => simp [List.getD]

theorem getD_lt_of_all {u : List Nat} (hu : ∀ x ∈ u, x < 16) :
    ∀ i, i < u.length → u.getD i 0 < 16 := by
  induction u with
  | nil => intro i hi; simp at hi
  | cons a t ih =>
    intro i hi
    cases i with
    | zero => simpa [List.getD] using hu a (by simp)
    | succ j =>
      simp only [List.getD]
      have := ih (fun x hx => hu x (by simp [hx])) j (by simpa using hi)
      simpa [List.getD] using this

theorem isTerm_getD_lt {k : List Nat} (hk : isTerm k) {i : Nat} (hi : i + 1 < k.length) :
    k.getD i 0 < 16 := by
  rcases (isTerm_iff k).mp hk with ⟨u, rfl, hu⟩
  have hiu : i < u.length := by simp at hi; omega
  rw [getD_append_left u [16] 0 i hiu]
  exact getD_lt_of_all hu i hiu

theorem isTerm_getD_last {k : List Nat} (hk : isTerm k) :
    k.getD (k.length - 1) 0 = 16 := by
  rcases (isTerm_iff k).mp hk with ⟨u, rfl, hu⟩
  have h1 : (u ++ [16]).length - 1 = u.length := by simp
  rw [h1, getD_append_sing]

theorem term_take_eq {s s' : List Nat} (hs : isTerm s) (hs' : isTerm s')
    (h : s'.take s.length = s) : s' = s :=
  (isTerm_prefix_eq hs hs'
    (by rw [prefixLen_comm]; exact (prefixLen_eq_right_iff s' s).mpr h)).symm

/-- Denotation of a leaf Short: exactly its own key. -/
theorem den_leaf (h : List Nat) {s : List Nat} (hs : isTerm s) (w : List Nat)
    {s' : List Nat} (hs' : isTerm s') :
    den (some (.short h s (some (.value false w)))) s' =
      if s' = s then some w else none := by
  by_cases hc : s.length > s'.length ∨ ¬ s'.take s.length = s
  · rw [den, if_pos hc]
    rw [if_neg]
    rintro rfl
    rcases hc with hc | hc
    · omega
    · exact hc (List.take_length s')
  · push_neg at hc
    have heq : s' = s := term_take_eq hs hs' hc.2
    subst heq
    rw [den, if_neg (by push_neg; exact ⟨le_refl _, List.take_length s'⟩)]
    simp [den, List.drop_length]

theorem den_short_head_ne {a b : Nat} (hab : a ≠ b) (h : List Nat) (kk : List Nat)
    (c : Option Node) (rem : List Nat) :
    den (some (.short h (a :: kk) c)) (b :: rem) = none := by
  rw [den, if_pos]
  right
  intro hcon
  rw [List.length_cons, List.take_succ_cons] at hcon
  exact hab (by injection hcon with h1 _; exact h1.symm)

theorem den_short_cons (h h' : List Nat) (a : Nat) (kk : List Nat) (c : Option Node)
    (rem : List Nat) :
    den (some (.short h (a :: kk) c)) (a :: rem) =
      den (some (.short h' kk c)) rem := by
  rw [den, den]
  by_cases hc : kk.length > rem.length ∨ ¬ rem.take kk.length = kk
  · rw [if_pos hc, if_pos]
    rcases hc with hc | hc
    · left; simp; omega
    · right
      intro hcon
      rw [List.length_cons, List.take_succ_cons] at hcon
      exact hc (by injection hcon)
  · push_neg at hc
    have h1 : ¬((a :: kk).length > (a :: rem).length ∨
        ¬ (a :: rem).take (a :: kk).length = a :: kk) := by
      push_neg
      refine ⟨by simp; omega, ?_⟩
      rw [List.length_cons, List.take_succ_cons, hc.2]
    rw [if_neg h1, if_neg (by push_neg; exact hc)]
    rw [List.length_cons, List.drop_succ_cons]

/-- What the nil-node case of `insert` produces, given it completed. -/
theorem insert_none_det (st : Storage) (ep : Nat) (v : List Nat) :
    ∀ f s c, insert st ep f none s v = .ok c →
      c = some (if s = [] then Node.value false v
                else .short [] s (some (.value false v))) := by
  intro f s c h
  match f, s with
  | 0, _ => simp [insert] at h
  | f + 1, [] => simp [insert] at h; simp [← h]
  | f + 1, a :: as =>
    match f, h with
    | 0, h => simp [insert] at h
    | g + 1, h =>
      simp [insert] at h
      simp [← h]

/-- Overwriting a payload Value with an empty remainder. -/
theorem insert_value_nil_det (st : Storage) (ep : Nat) (v w : List Nat) :
    ∀ f c, insert st ep f (some (.value false w)) [] v = .ok c →
      c = some (.value false v) := by
  intro f c h
  match f with
  | 0 => simp [insert] at h
  | f + 1 => simp [insert] at h; simp [← h]

theorem writeNode_full_eq (ep : Nat) (fh : List Nat) (fep : Nat) (v0 : Option Node)
    (ch0 : List (Option Node)) :
    ∃ bh bep, writeNode ep (.full fh fep v0 ch0) = .full bh bep v0 ch0 := by
  by_cases hep : ep = fep
  · exact ⟨fh, fep, by simp [writeNode, hep]⟩
  · exact ⟨[], ep, by simp [writeNode, hep]⟩

/-- Recomposition: agreeing on `take p` and `drop p` is agreeing. -/
theorem eq_iff_take_drop (p : Nat) (s s' : List Nat) :
    s' = s ↔ (s'.take p = s.take p ∧ s'.drop p = s.drop p) := by
  constructor
  · rintro rfl; exact ⟨rfl, rfl⟩
  · rintro ⟨h1, h2⟩
    rw [← List.take_append_drop p s', h1, h2, List.take_append_drop]

end ITrie

namespace ITrie

theorem getD_mem {α : Type} (l : List α) (d : α) :
    ∀ i, i < l.length → l.getD i d ∈ l := by
  induction l with
  | nil => intro i hi; simp at hi
  | cons a t ih =>
    intro i hi
    cases i with
    | zero => simp [List.getD]
    | succ j =>
      simp only [List.getD] at *
      right
      have := ih j (by simpa using hi)
      simpa [List.getD] using this

theorem prefixLen_self (a : List Nat) : prefixLen a a = a.length := by
  induction a with
  | nil => simp [prefixLen]
  | cons x xs ih => simp [prefixLen, ih]

theorem den_short_nil_key (h : List Nat) (c : Option Node) (rem : List Nat) :
    den (some (.short h [] c)) rem = den c rem := by
  simp [den]

/-- The node hung under the diverging nibble of the old Short key
(`insert`, ShortNode case, split branch). -/
def splitE (k : List Nat) (p : Nat) (child : Option Node) : Option Node :=
  if k.length > p + 1 then some (.short [] (k.drop (p + 1)) child) else child

/-- What inserting into an empty node yields (cf. `insert_none_det`). -/
def leafNode (s v : List Nat) : Node :=
  if s = [] then .value false v else .short [] s (some (.value false v))

/-- The slot pair of the branch node built by the split: old remainder under
`k[p]`, new leaf under `s[p]`. -/
def splitB1 (k s : List Nat) (p : Nat) (child : Option Node) (v : List Nat) :
    Option Node × List (Option Node) :=
  fullSetEdge (fullSetEdge none empty16 (k.getD p 0) (splitE k p child)).1
    (fullSetEdge none empty16 (k.getD p 0) (splitE k p child)).2
    (s.getD p 0) (some (leafNode (s.drop (p + 1)) v))

theorem insert_none_det' (st : Storage) (ep : Nat) (v : List Nat)
    (f : Nat) (s : List Nat) (c : Option Node) (h : insert st ep f none s v = .ok c) :
    c = some (leafNode s v) := insert_none_det st ep v f s c h

end ITrie

namespace ITrie

theorem den_full_cons (h : List Nat) (ep : Nat) (v : Option Node)
    (ch : List (Option Node)) (j : Nat) (rrest : List Nat) (hj : j ≤ 16) :
    den (some (.full h ep v ch)) (j :: rrest) = den (fullGetEdge v ch j) rrest := by
  simp only [den]
  rw [if_neg (by omega)]

theorem den_value_nil (w : List Nat) : den (some (.value false w)) [] = some w := by
  simp [den]

theorem wff_intro (h : List Nat) (ep : Nat) (v : Option Node) (ch : List (Option Node))
    (h1 : ch.length = 16) (h2 : wfl ch = true) (h3 : wfv v = true)
    (h4 : 2 ≤ ch.countP (·.isSome) + (if v.isSome then 1 else 0)) :
    wff (.full h ep v ch) = true := by
  simp [wff, h1, h2, h3, h4]

theorem den_short_hash (h1 h2 kk : List Nat) (c : Option Node) (rem : List Nat) :
    den (some (.short h1 kk c)) rem = den (some (.short h2 kk c)) rem := by
  simp [den]

/-- Structure and denotation of the branch node built by the split case of
`insert` on a Short node, at a true divergence. -/
theorem splitB1_props (k s : List Nat) (child : Option Node) (v : List Nat)
    (sh sh2 : List Nat) (ep : Nat)
    (hw : wfc (some (.short sh k child)) = true) (hs : isTerm s = true)
    (hpk : prefixLen s k < k.length) (hps : prefixLen s k < s.length) :
    wff (.full [] ep (splitB1 k s (prefixLen s k) child v).1
        (splitB1 k s (prefixLen s k) child v).2) = true ∧
    ∀ rem, isTerm rem = true →
      den (some (.full [] ep (splitB1 k s (prefixLen s k) child v).1
          (splitB1 k s (prefixLen s k) child v).2)) rem =
        if rem = s.drop (prefixLen s k) then some v
        else den (some (.short sh2 (k.drop (prefixLen s k)) child)) rem := by
  have hdiv : s.getD (prefixLen s k) 0 ≠ k.getD (prefixLen s k) 0 :=
    prefixLen_lt_ne hps hpk
  have hsp_le : s.getD (prefixLen s k) 0 ≤ 16 :=
    isTerm_le16 hs _ (getD_mem s 0 _ hps)
  have hsdrop : s.drop (prefixLen s k) =
      s.getD (prefixLen s k) 0 :: s.drop (prefixLen s k + 1) := drop_eq_getD_cons hps
  have hkdrop : k.drop (prefixLen s k) =
      k.getD (prefixLen s k) 0 :: k.drop (prefixLen s k + 1) := drop_eq_getD_cons hpk
  have hsd_term : isTerm (s.drop (prefixLen s k)) = true := isTerm_drop hs hps
  have hsplit2 : (s.getD (prefixLen s k) 0 = 16 ∧ s.drop (prefixLen s k + 1) = []) ∨
      (s.getD (prefixLen s k) 0 < 16 ∧ isTerm (s.drop (prefixLen s k + 1)) = true) := by
    rw [hsdrop] at hsd_term; exact isTerm_cons_elim hsd_term
  -- shape of the old Short
  have hshape : (∃ w, child = some (.value false w) ∧ isTerm k = true) ∨
      (∃ a b c d, child = some (.full a b c d) ∧ k ≠ [] ∧ (∀ x ∈ k, x < 16) ∧
        wff (.full a b c d) = true) := by
    match child, hw with
    | some (.value false w), hw => exact Or.inl ⟨w, rfl, by simpa [wfc] using hw⟩
    | some (.full a b c d), hw =>
      right
      refine ⟨a, b, c, d, rfl, ?_⟩
      simp [wfc] at hw
      exact ⟨hw.1.1, hw.1.2, hw.2⟩
    | none, hw => simp [wfc] at hw
    | some (.value true w), hw => simp [wfc] at hw
    | some (.short x y z), hw => simp [wfc] at hw
  -- fact A: the diverted old edge
  have hA : (k.getD (prefixLen s k) 0 = 16 ∧ splitE k (prefixLen s k) child = child ∧
        k.drop (prefixLen s k + 1) = [] ∧ (∃ w, child = some (.value false w))) ∨
      (k.getD (prefixLen s k) 0 < 16 ∧ wfc (splitE k (prefixLen s k) child) = true ∧
        (∃ en, splitE k (prefixLen s k) child = some en)) := by
    rcases hshape with ⟨w, rfl, hkt⟩ | ⟨a, b, c, d, rfl, hk1, hk2, hwf⟩
    · by_cases hklen : k.length > prefixLen s k + 1
      · right
        refine ⟨isTerm_getD_lt hkt hklen, ?_, ?_⟩
        · simp only [splitE, if_pos hklen]
          simp [wfc, isTerm_drop hkt hklen]
        · simp [splitE, if_pos hklen]
      · left
        have hkl : k.length = prefixLen s k + 1 := by omega
        refine ⟨?_, by simp [splitE, hklen], by rw [List.drop_eq_nil_iff]; omega, ⟨w, rfl⟩⟩
        have : prefixLen s k = k.length - 1 := by omega
        rw [this]
        exact isTerm_getD_last hkt
    · have hkp : k.getD (prefixLen s k) 0 < 16 :=
        getD_lt_of_all hk2 _ hpk
      right
      refine ⟨hkp, ?_, ?_⟩
      · by_cases hklen : k.length > prefixLen s k + 1
        · simp only [splitE, if_pos hklen]
          have hne : k.drop (prefixLen s k + 1) ≠ [] := by
            rw [Ne, List.drop_eq_nil_iff]; omega
          have hall : ∀ x ∈ k.drop (prefixLen s k + 1), x < 16 :=
            fun x hx => hk2 x (List.mem_of_mem_drop hx)
          simp [wfc, hne, hwf]
          exact hall
        · simp [splitE, hklen, wfc, hwf]
      · by_cases hklen : k.length > prefixLen s k + 1 <;>
          simp [splitE, hklen]
  -- fact B: the new leaf edge
  have hB : (s.getD (prefixLen s k) 0 = 16 ∧
        leafNode (s.drop (prefixLen s k + 1)) v = .value false v) ∨
      (s.getD (prefixLen s k) 0 < 16 ∧
        leafNode (s.drop (prefixLen s k + 1)) v =
          .short [] (s.drop (prefixLen s k + 1)) (some (.value false v)) ∧
        isTerm (s.drop (prefixLen s k + 1)) = true) := by
    rcases hsplit2 with ⟨h1, h2⟩ | ⟨h1, h2⟩
    · exact Or.inl ⟨h1, by simp [leafNode, h2]⟩
    · exact Or.inr ⟨h1, by simp [leafNode, isTerm_ne_nil h2], h2⟩
  -- fact C: denotation of the diverted edge
  have hC : ∀ rr, den (splitE k (prefixLen s k) child) rr =
      den (some (.short [] (k.drop (prefixLen s k + 1)) child)) rr := by
    intro rr
    by_cases hklen : k.length > prefixLen s k + 1
    · simp [splitE, hklen]
    · have : k.drop (prefixLen s k + 1) = [] := by
        rw [List.drop_eq_nil_iff]; omega
      rw [this, den_short_nil_key]
      simp [splitE, hklen]
  rcases hA with ⟨hkp16, hEchild, hkd1nil, w, hcw⟩ | ⟨hkplt, hEwf, en, hEsome⟩
  · -- configuration 1: old edge is the terminator (leaf key exactly consumed)
    rcases hB with ⟨hsp16, hleaf⟩ | ⟨hsplt, hleaf, hrest_term⟩
    · exact absurd (hsp16.trans hkp16.symm) hdiv
    subst hcw
    have hsp_ne : ¬ s.getD (prefixLen s k) 0 = 16 := by omega
    have hB1 : splitB1 k s (prefixLen s k) (some (.value false w)) v =
        (some (.value false w),
          empty16.set (s.getD (prefixLen s k) 0)
            (some (.short [] (s.drop (prefixLen s k + 1)) (some (.value false v))))) := by
      rw [splitB1, hEchild, hleaf]
      simp only [fullSetEdge, if_pos hkp16, if_neg hsp_ne]
    rw [hB1]
    constructor
    · -- well-formedness
      refine wff_intro _ _ _ _ ?_ ?_ ?_ ?_
      · rw [List.length_set, length_empty16]
      · exact wfl_set wfl_empty16 (by simp [wfc, hrest_term]) _
      · rfl
      · rw [countP_set_some_plus _ _ _ (by rw [length_empty16]; exact hsplt)
          (getD_empty16 _), countP_empty16]
        simp
    · intro rem hrem
      obtain ⟨j, rrest, rfl⟩ : ∃ j rrest, rem = j :: rrest := by
        cases rem
        · exact absurd hrem (by simp)
        · exact ⟨_, _, rfl⟩
      have hj_le : j ≤ 16 := isTerm_le16 hrem j (by simp)
      rw [hsdrop, hkdrop, hkp16, hkd1nil, den_full_cons _ _ _ _ _ _ hj_le]
      by_cases hjsp : j = s.getD (prefixLen s k) 0
      · subst hjsp
        have hrr : isTerm rrest = true := by
          rcases isTerm_cons_elim hrem with ⟨h1, _⟩ | ⟨_, h2⟩
          · exact absurd h1 hsp_ne
          · exact h2
        simp only [fullGetEdge]
        rw [if_neg hsp_ne,
          getD_set_self _ _ _ (by rw [length_empty16]; exact hsplt),
          den_leaf [] hrest_term v hrr]
        by_cases hr : rrest = s.drop (prefixLen s k + 1)
        · simp [hr]
        · rw [if_neg hr,
            if_neg (by intro hcon; injection hcon with h1 h2; exact hr h2),
            den_short_head_ne (by omega) sh2 _ _ rrest]
      · by_cases hjkp : j = 16
        · subst hjkp
          have hrr : rrest = [] := by
            rcases isTerm_cons_elim hrem with ⟨_, h2⟩ | ⟨h1, _⟩
            · exact h2
            · omega
          subst hrr
          simp only [fullGetEdge]
          rw [if_pos (by trivial), den_value_nil,
            if_neg (by intro hcon; injection hcon with h1 h2; exact hsp_ne h1.symm),
            den_short_cons sh2 [] 16 [] (some (.value false w)) [],
            den_short_nil_key, den_value_nil]
        · have hj_lt : j < 16 := by omega
          simp only [fullGetEdge]
          rw [if_neg hjkp,
            getD_set_ne _ _ _ _ (fun he => hjsp he.symm), getD_empty16,
            if_neg (by intro hcon; injection hcon with h1 h2; exact hjsp h1),
            den_short_head_ne (by omega) sh2 _ _ rrest]
          simp [den]
  · -- configurations 2 and 3: old edge is a proper slot
    have hkp_ne : ¬ k.getD (prefixLen s k) 0 = 16 := by omega
    rcases hB with ⟨hsp16, hleaf⟩ | ⟨hsplt, hleaf, hrest_term⟩
    · -- configuration 2: new edge is the terminator
      have hrest_nil : s.drop (prefixLen s k + 1) = [] := by
        rcases hsplit2 with ⟨_, h2⟩ | ⟨h1, _⟩
        · exact h2
        · omega
      have hB1 : splitB1 k s (prefixLen s k) child v =
          (some (.value false v),
            empty16.set (k.getD (prefixLen s k) 0) (splitE k (prefixLen s k) child)) := by
        rw [splitB1, hleaf]
        simp only [fullSetEdge, if_neg hkp_ne, if_pos hsp16]
      rw [hB1]
      constructor
      · refine wff_intro _ _ _ _ ?_ ?_ ?_ ?_
        · rw [List.length_set, length_empty16]
        · exact wfl_set wfl_empty16 hEwf _
        · rfl
        · rw [hEsome, countP_set_some_plus _ _ _ (by rw [length_empty16]; omega)
            (getD_empty16 _), countP_empty16]
          simp
      · intro rem hrem
        obtain ⟨j, rrest, rfl⟩ : ∃ j rrest, rem = j :: rrest := by
          cases rem
          · exact absurd hrem (by simp)
          · exact ⟨_, _, rfl⟩
        have hj_le : j ≤ 16 := isTerm_le16 hrem j (by simp)
        rw [hsdrop, hkdrop, hsp16, hrest_nil, den_full_cons _ _ _ _ _ _ hj_le]
        by_cases hjsp : j = 16
        · subst hjsp
          have hrr : rrest = [] := by
            rcases isTerm_cons_elim hrem with ⟨_, h2⟩ | ⟨h1, _⟩
            · exact h2
            · omega
          subst hrr
          simp only [fullGetEdge]
          rw [if_pos (by trivial), den_value_nil, if_pos (by trivial)]
        · by_cases hjkp : j = k.getD (prefixLen s k) 0
          · subst hjkp
            simp only [fullGetEdge]
            rw [if_neg hkp_ne,
              getD_set_self _ _ _ (by rw [length_empty16]; omega), hC rrest,
              if_neg (by intro hcon; injection hcon with h1 h2; exact hkp_ne h1),
              den_short_cons sh2 [] _ _ child rrest]
          · simp only [fullGetEdge]
            rw [if_neg hjsp,
              getD_set_ne _ _ _ _ (fun he => hjkp he.symm), getD_empty16,
              if_neg (by intro hcon; injection hcon with h1 h2; exact hjsp h1),
              den_short_head_ne (fun he => hjkp he.symm) sh2 _ _ rrest]
            simp [den]
    · -- configuration 3: two proper slots
      have hsp_ne : ¬ s.getD (prefixLen s k) 0 = 16 := by omega
      have hB1 : splitB1 k s (prefixLen s k) child v =
          (none,
            (empty16.set (k.getD (prefixLen s k) 0) (splitE k (prefixLen s k) child)).set
              (s.getD (prefixLen s k) 0)
              (some (.short [] (s.drop (prefixLen s k + 1)) (some (.value false v))))) := by
        rw [splitB1, hleaf]
        simp only [fullSetEdge, if_neg hkp_ne, if_neg hsp_ne]
      rw [hB1]
      have hlen1 : (empty16.set (k.getD (prefixLen s k) 0)
          (splitE k (prefixLen s k) child)).length = 16 := by
        rw [List.length_set, length_empty16]
      constructor
      · refine wff_intro _ _ _ _ ?_ ?_ ?_ ?_
        · rw [List.length_set, hlen1]
        · exact wfl_set (wfl_set wfl_empty16 hEwf _) (by simp [wfc, hrest_term]) _
        · rfl
        · rw [countP_set_some_plus _ _ _ (by rw [hlen1]; exact hsplt)
            (by rw [getD_set_ne _ _ _ _ (Ne.symm hdiv)]; exact getD_empty16 _)]
          rw [hEsome, countP_set_some_plus _ _ _ (by rw [length_empty16]; omega)
            (getD_empty16 _), countP_empty16]
          simp
      · intro rem hrem
        obtain ⟨j, rrest, rfl⟩ : ∃ j rrest, rem = j :: rrest := by
          cases rem
          · exact absurd hrem (by simp)
          · exact ⟨_, _, rfl⟩
        have hj_le : j ≤ 16 := isTerm_le16 hrem j (by simp)
        rw [hsdrop, hkdrop, den_full_cons _ _ _ _ _ _ hj_le]
        by_cases hjsp : j = s.getD (prefixLen s k) 0
        · subst hjsp
          have hrr : isTerm rrest = true := by
            rcases isTerm_cons_elim hrem with ⟨h1, _⟩ | ⟨_, h2⟩
            · exact absurd h1 hsp_ne
            · exact h2
          simp only [fullGetEdge]
          rw [if_neg hsp_ne,
            getD_set_self _ _ _ (by rw [hlen1]; exact hsplt),
            den_leaf [] hrest_term v hrr]
          by_cases hr : rrest = s.drop (prefixLen s k + 1)
          · simp [hr]
          · rw [if_neg hr,
              if_neg (by intro hcon; injection hcon with h1 h2; exact hr h2),
              den_short_head_ne (Ne.symm hdiv) sh2 _ _ rrest]
        · by_cases hjkp : j = k.getD (prefixLen s k) 0
          · subst hjkp
            simp only [fullGetEdge]
            rw [if_neg hkp_ne,
              getD_set_ne _ _ _ _ hdiv,
              getD_set_self _ _ _ (by rw [length_empty16]; omega), hC rrest,
              if_neg (by intro hcon; injection hcon with h1 h2; exact hjsp h1),
              den_short_cons sh2 [] _ _ child rrest]
          · by_cases hj16 : j = 16
            · subst hj16
              simp only [fullGetEdge]
              rw [if_pos (by trivial),
                if_neg (by intro hcon; injection hcon with h1 h2; exact hjsp h1),
                den_short_head_ne (fun he => hjkp he.symm) sh2 _ _ rrest]
              simp [den]
            · simp only [fullGetEdge]
              rw [if_neg hj16,
                getD_set_ne _ _ _ _ (fun he => hjsp he.symm),
                getD_set_ne _ _ _ _ (fun he => hjkp he.symm), getD_empty16,
                if_neg (by intro hcon; injection hcon with h1 h2; exact hjsp h1),
                den_short_head_ne (fun he => hjkp he.symm) sh2 _ _ rrest]
              simp [den]

end ITrie

namespace ITrie

theorem Res.bind_eq_ok {α β : Type} {x : Res α} {g : α → Res β} {b : β}
    (h : x.bind g = .ok b) : ∃ a, x = .ok a ∧ g a = .ok b := by
  match x with
  | .oom => simp [Res.bind] at h
  | .err => simp [Res.bind] at h
  | .ok a => exact ⟨a, rfl, h⟩

/-- General form of a Short node's denotation. -/
theorem den_short_key (h : List Nat) (pre : List Nat) (c : Option Node) (s' : List Nat) :
    den (some (.short h pre c)) s' =
      if pre.length ≤ s'.length ∧ s'.take pre.length = pre then
        den c (s'.drop pre.length) else none := by
  have haux := den_short_append h h pre [] c s'
  rw [List.append_nil] at haux
  rw [haux]
  by_cases hp : pre.length ≤ s'.length ∧ s'.take pre.length = pre <;>
    simp [hp, den_short_nil_key]

theorem wfc_short_shape (sh k : List Nat) (child : Option Node)
    (hw : wfc (some (.short sh k child)) = true) :
    (∃ w, child = some (.value false w) ∧ isTerm k = true) ∨
    (∃ a b c d, child = some (.full a b c d) ∧ k ≠ [] ∧ (∀ x ∈ k, x < 16) ∧
      wff (.full a b c d) = true) := by
  match child, hw with
  | some (.value false w), hw => exact Or.inl ⟨w, rfl, by simpa [wfc] using hw⟩
  | some (.full a b c d), hw =>
    right
    refine ⟨a, b, c, d, rfl, ?_⟩
    simp [wfc] at hw
    exact ⟨hw.1.1, hw.1.2, hw.2⟩
  | none, hw => simp [wfc] at hw
  | some (.value true w), hw => simp [wfc] at hw
  | some (.short x y z), hw => simp [wfc] at hw

/-- The divergence branch of `insert` on a Short node: result shape,
well-formedness and denotation. -/
theorem split_core (st : Storage) (ep : Nat) (f : Nat) (sh k : List Nat)
    (child : Option Node) (s v : List Nat) (r : Option Node)
    (hw : wfc (some (.short sh k child)) = true) (hs : isTerm s = true)
    (hpl : ¬ prefixLen s k = k.length)
    (h : insert st ep (f + 1) (some (.short sh k child)) s v = .ok r) :
    ∃ n, r = some n ∧ wfc (some n) = true ∧
      ∀ s', isTerm s' = true → den (some n) s' =
        if s' = s then some v else den (some (.short sh k child)) s' := by
  have hpk : prefixLen s k < k.length :=
    lt_of_le_of_ne (prefixLen_le_right s k) hpl
  have hps : prefixLen s k < s.length := by
    rcases wfc_short_shape sh k child hw with ⟨w, hcw, hkt⟩ | ⟨a, b, c, d, hcw, hk1, hk2, hwf⟩
    · by_contra hcon
      push_neg at hcon
      have h1 : prefixLen s k = s.length :=
        le_antisymm (prefixLen_le_left s k) hcon
      have h2 : s = k := isTerm_prefix_eq hs hkt h1
      apply hpl
      rw [h2, prefixLen_self]
    · exact isTerm_prefixLen_lt hs hk2
  have hdiv : s.getD (prefixLen s k) 0 ≠ k.getD (prefixLen s k) 0 :=
    prefixLen_lt_ne hps hpk
  have hsp_le : s.getD (prefixLen s k) 0 ≤ 16 :=
    isTerm_le16 hs _ (getD_mem s 0 _ hps)
  simp only [insert] at h
  rw [if_neg hpl] at h
  rw [show (if k.length > prefixLen s k + 1 then
      some (Node.short [] (List.drop (prefixLen s k + 1) k) child) else child) =
      splitE k (prefixLen s k) child from rfl] at h
  obtain ⟨c1, hc1, hk1⟩ := Res.bind_eq_ok h
  have hch0 : fullGetEdge
      (fullSetEdge none empty16 (k.getD (prefixLen s k) 0) (splitE k (prefixLen s k) child)).1
      (fullSetEdge none empty16 (k.getD (prefixLen s k) 0) (splitE k (prefixLen s k) child)).2
      (s.getD (prefixLen s k) 0) = none := by
    by_cases hkp : k.getD (prefixLen s k) 0 = 16
    · have hsp_ne : ¬ s.getD (prefixLen s k) 0 = 16 := by
        rw [hkp] at hdiv; exact hdiv
      simp only [fullSetEdge, if_pos hkp, fullGetEdge, if_neg hsp_ne, getD_empty16]
    · simp only [fullSetEdge, if_neg hkp, fullGetEdge]
      by_cases hsp : s.getD (prefixLen s k) 0 = 16
      · rw [if_pos hsp]
      · rw [if_neg hsp, getD_set_ne _ _ _ _ (Ne.symm hdiv), getD_empty16]
  have hc1' : c1 = some (.full [] ep (splitB1 k s (prefixLen s k) child v).1
      (splitB1 k s (prefixLen s k) child v).2) := by
    match f, hc1 with
    | 0, hc1 => simp [insert] at hc1
    | f2 + 1, hc1 =>
      rw [drop_eq_getD_cons hps] at hc1
      simp only [insert, writeNode, ite_self] at hc1
      rw [if_neg (by omega)] at hc1
      rw [hch0] at hc1
      obtain ⟨nc, hnc, hk2⟩ := Res.bind_eq_ok hc1
      have hncv := insert_none_det' st ep v f2 _ nc hnc
      subst hncv
      simp only [Option.isNone_none, if_true] at hk2
      simp only [Res.ok.injEq] at hk2
      rw [← hk2]
      rfl
  subst hc1'
  by_cases hp0 : prefixLen s k = 0
  · rw [if_pos hp0] at hk1
    simp only [Res.ok.injEq] at hk1
    subst hk1
    obtain ⟨hwff, hden⟩ :=
      splitB1_props k s child v sh sh ep hw hs hpk hps
    refine ⟨_, rfl, by simpa [wfc] using hwff, ?_⟩
    have hds : List.drop (prefixLen s k) s = s := by rw [hp0]; exact List.drop_zero s
    have hdk : List.drop (prefixLen s k) k = k := by rw [hp0]; exact List.drop_zero k
    intro s' hs'
    have hthis := hden s' hs'
    rw [hds, hdk] at hthis
    exact hthis
  · rw [if_neg hp0] at hk1
    simp only [Res.ok.injEq] at hk1
    subst hk1
    obtain ⟨hwff, hden⟩ :=
      splitB1_props k s child v sh [] ep hw hs hpk hps
    have htk_all : ∀ x ∈ s.take (prefixLen s k), x < 16 := isTerm_take_lt hs hps
    have htk_len : (s.take (prefixLen s k)).length = prefixLen s k := by
      rw [List.length_take, min_eq_left (le_of_lt hps)]
    have htk_ne : s.take (prefixLen s k) ≠ [] := by
      intro hcon
      have := congrArg List.length hcon
      rw [htk_len] at this
      simp at this
      exact hp0 this
    refine ⟨_, rfl, ?_, ?_⟩
    · simp only [wfc, Bool.and_eq_true, decide_eq_true_eq]
      refine ⟨⟨htk_ne, ?_⟩, hwff⟩
      simpa using htk_all
    · intro s' hs'
      have hk_split : k = s.take (prefixLen s k) ++ k.drop (prefixLen s k) := by
        rw [take_prefixLen_eq]
        exact (List.take_append_drop _ k).symm
      have hRHS : den (some (.short sh k child)) s' =
          if prefixLen s k ≤ s'.length ∧
              s'.take (prefixLen s k) = s.take (prefixLen s k) then
            den (some (.short [] (k.drop (prefixLen s k)) child))
              (s'.drop (prefixLen s k)) else none := by
        conv_lhs => rw [hk_split]
        rw [den_short_append sh [] (s.take (prefixLen s k)) (k.drop (prefixLen s k))
          child s', htk_len]
      rw [den_short_key, htk_len, hRHS]
      by_cases hmatch : prefixLen s k ≤ s'.length ∧
          s'.take (prefixLen s k) = s.take (prefixLen s k)
      · rw [if_pos hmatch]
        have hplt' : prefixLen s k < s'.length := by
          rcases lt_or_eq_of_le hmatch.1 with hlt | heq
          · exact hlt
          · exfalso
            have h1 : s'.take (prefixLen s k) = s' := by
              rw [heq]; exact List.take_length s'
            have h2 : (16 : Nat) ∈ s' := isTerm_mem_16 hs'
            rw [← h1, hmatch.2] at h2
            exact absurd (htk_all 16 h2) (by omega)
        have hterm' : isTerm (s'.drop (prefixLen s k)) = true := isTerm_drop hs' hplt'
        rw [hden _ hterm']
        by_cases hd : s'.drop (prefixLen s k) = s.drop (prefixLen s k)
        · have hss : s' = s := by
            rw [eq_iff_take_drop (prefixLen s k) s s']
            exact ⟨hmatch.2, hd⟩
          simp [hss, hd]
        · have hss : s' ≠ s := by
            intro hcon
            exact hd (by rw [hcon])
          rw [if_neg hss, if_neg hd, if_pos hmatch]
      · rw [if_neg hmatch]
        have hss : s' ≠ s := by
          intro hcon
          subst hcon
          exact hmatch ⟨le_of_lt hps, rfl⟩
        rw [if_neg hss, if_neg hmatch]

end ITrie

namespace ITrie

theorem wff_elim {h : List Nat} {ep : Nat} {v : Option Node} {ch : List (Option Node)}
    (hw : wff (.full h ep v ch) = true) :
    ch.length = 16 ∧ wfl ch = true ∧ wfv v = true ∧
      2 ≤ ch.countP (·.isSome) + (if v.isSome then 1 else 0) := by
  simp only [wff, Bool.and_eq_true, decide_eq_true_eq] at hw
  exact ⟨hw.1.1.1, hw.1.1.2, hw.1.2, hw.2⟩

/-- Main correctness of `insert` on well-formed tries and terminated keys:
it completes to a well-formed node (never `nil`), preserves Full-rootedness,
and updates the denotation pointwise. -/
theorem insert_den (st : Storage) (ep : Nat) :
    ∀ f t s v r, wfc t = true → isTerm s = true →
      insert st ep f t s v = .ok r →
      ∃ n, r = some n ∧ wfc (some n) = true ∧
        (∀ a b c d, t = some (.full a b c d) → ∃ a2 b2 c2 d2, n = .full a2 b2 c2 d2) ∧
        (∀ s', isTerm s' = true →
          den (some n) s' = if s' = s then some v else den t s') := by
  intro f
  induction f with
  | zero => intro t s v r _ _ h; simp [insert] at h
  | succ f ih =>
    intro t s v r hw hs h
    match t with
    | none =>
      obtain ⟨a, as, rfl⟩ : ∃ a as, s = a :: as := by
        cases s
        · exact absurd hs (by simp)
        · exact ⟨_, _, rfl⟩
      simp only [insert] at h
      obtain ⟨c, hc, hk1⟩ := Res.bind_eq_ok h
      have hcv := insert_none_det' st ep v f [] c hc
      subst hcv
      simp only [Res.ok.injEq] at hk1
      subst hk1
      refine ⟨_, rfl, ?_, by simp, ?_⟩
      · simp [leafNode, wfc, hs]
      · intro s' hs'
        rw [show leafNode [] v = Node.value false v from rfl, den_leaf [] hs v hs']
        simp [den]
    | some (.value hb buf) => exact absurd hw (by simp [wfc])
    | some (.short sh k child) =>
      by_cases hpl : prefixLen s k = k.length
      · rcases wfc_short_shape sh k child hw with ⟨w, rfl, hkt⟩ | ⟨a, b, c, d, rfl, hk1, hk2, hwf⟩
        · -- leaf with full key match: overwrite
          have hsk : k = s := isTerm_prefix_eq hkt hs (by rw [prefixLen_comm]; exact hpl)
          subst hsk
          simp only [insert] at h
          rw [if_pos hpl, prefixLen_self, List.drop_length] at h
          obtain ⟨c, hc, hk1⟩ := Res.bind_eq_ok h
          have hcv := insert_value_nil_det st ep v w f c hc
          subst hcv
          simp only [Res.ok.injEq] at hk1
          subst hk1
          refine ⟨_, rfl, by simp [wfc, hkt], by simp, ?_⟩
          intro s' hs'
          rw [den_leaf [] hkt v hs', den_leaf sh hkt w hs']
          by_cases hq : s' = k <;> simp [hq]
        · -- extension with full key match: descend into the Full child
          simp only [insert] at h
          rw [if_pos hpl] at h
          obtain ⟨c0, hc, hk1⟩ := Res.bind_eq_ok h
          have hdlt : prefixLen s k < s.length := isTerm_prefixLen_lt hs hk2
          have hdterm : isTerm (s.drop (prefixLen s k)) = true := isTerm_drop hs hdlt
          obtain ⟨n', rfl, hwn', hshape', hden'⟩ :=
            ih (some (.full a b c d)) _ v c0 (by simpa [wfc] using hwf) hdterm hc
          obtain ⟨a2, b2, c2, d2, rfl⟩ := hshape' a b c d rfl
          simp only [Res.ok.injEq] at hk1
          subst hk1
          have hst : s.take k.length = k := (prefixLen_eq_right_iff s k).mp hpl
          refine ⟨_, rfl, ?_, by simp, ?_⟩
          · simp only [wfc, Bool.and_eq_true, decide_eq_true_eq]
            refine ⟨⟨hk1, by simpa using hk2⟩, by simpa [wfc] using hwn'⟩
          · intro s' hs'
            rw [den_short_key [] k _ s', den_short_key sh k _ s']
            by_cases hcnd : k.length ≤ s'.length ∧ s'.take k.length = k
            · rw [if_pos hcnd, if_pos hcnd]
              have hlt' : k.length < s'.length := by
                rcases lt_or_eq_of_le hcnd.1 with hlt | heq
                · exact hlt
                · exfalso
                  have h1 : s'.take k.length = s' := by
                    rw [heq]; exact List.take_length s'
                  have h2 : (16 : Nat) ∈ s' := isTerm_mem_16 hs'
                  rw [← h1, hcnd.2] at h2
                  exact absurd (hk2 16 h2) (by omega)
              have ht' : isTerm (s'.drop k.length) = true := isTerm_drop hs' hlt'
              have hden2 := hden' _ ht'
              rw [hpl] at hden2
              rw [hden2]
              by_cases hd : s'.drop k.length = s.drop k.length
              · have hss : s' = s := by
                  rw [eq_iff_take_drop k.length s s']
                  exact ⟨by rw [hcnd.2, hst], hd⟩
                rw [if_pos hd, if_pos hss]
              · have hss : ¬ s' = s := fun he => hd (by rw [he])
                rw [if_neg hd, if_neg hss]
            · rw [if_neg hcnd, if_neg hcnd]
              have hss : ¬ s' = s := by
                intro hcon
                subst hcon
                refine hcnd ⟨?_, hst⟩
                rw [← hpl]
                exact prefixLen_le_left s' k
              rw [if_neg hss]
      · -- divergence: delegate to the split lemma
        obtain ⟨n, hn, hwn, hden⟩ := split_core st ep f sh k child s v r hw hs hpl h
        exact ⟨n, hn, hwn, by simp, hden⟩
    | some (.full fh fep v0 ch0) =>
      have hwf : wff (.full fh fep v0 ch0) = true := by simpa [wfc] using hw
      obtain ⟨hlen, hwl, hwv, hcnt⟩ := wff_elim hwf
      obtain ⟨a, rest, rfl⟩ : ∃ a rest, s = a :: rest := by
        cases s
        · exact absurd hs (by simp)
        · exact ⟨_, _, rfl⟩
      have ha_le : a ≤ 16 := isTerm_le16 hs a (by simp)
      obtain ⟨bh, bep, hwn⟩ := writeNode_full_eq ep fh fep v0 ch0
      simp only [insert] at h
      rw [hwn] at h
      simp only [] at h
      rw [if_neg (by omega : ¬ 16 < a)] at h
      by_cases ha16 : a = 16
      · -- terminator: overwrite the value slot
        subst ha16
        have hrest : rest = [] := by
          rcases isTerm_cons_elim hs with ⟨_, h2⟩ | ⟨h1, _⟩
          · exact h2
          · omega
        subst hrest
        rw [show fullGetEdge v0 ch0 16 = v0 from by
          simp only [fullGetEdge]; rw [if_pos (by trivial)]] at h
        obtain ⟨nc, hnc, hk2⟩ := Res.bind_eq_ok h
        have hncv : nc = some (.value false v) := by
          match v0, hwv, hnc with
          | none, _, hnc =>
            have := insert_none_det' st ep v f [] nc hnc
            simpa [leafNode] using this
          | some (.value false w), _, hnc => exact insert_value_nil_det st ep v w f nc hnc
          | some (.value true w), hwv, _ => simp [wfv] at hwv
          | some (.short x y z), hwv, _ => simp [wfv] at hwv
          | some (.full x y z u), hwv, _ => simp [wfv] at hwv
        subst hncv
        have hset : ∀ e : Option Node, fullSetEdge v0 ch0 16 e = (e, ch0) := by
          intro e; simp only [fullSetEdge]; rw [if_pos (by trivial)]
        have hrep : ∀ e : Option Node, fullReplaceEdge v0 ch0 16 e = (e, ch0) := by
          intro e; simp only [fullReplaceEdge]; rw [if_pos (by trivial)]
        rw [hset, hrep] at hk2
        simp only [ite_self, Res.ok.injEq] at hk2
        subst hk2
        refine ⟨_, rfl, ?_, fun a1 b1 c1 d1 _ => ⟨bh, bep, _, _, rfl⟩, ?_⟩
        · show wfc (some (.full bh bep (some (.value false v)) ch0)) = true
          simp only [wfc]
          refine wff_intro _ _ _ _ hlen hwl rfl ?_
          have hb : (if v0.isSome then 1 else 0) ≤ 1 := by split <;> omega
          have h1 : (if (some (Node.value false v) : Option Node).isSome then 1 else 0) = 1 := by
            simp
          rw [h1]
          omega
        · intro s' hs'
          obtain ⟨j, rr, rfl⟩ : ∃ j rr, s' = j :: rr := by
            cases s'
            · exact absurd hs' (by simp)
            · exact ⟨_, _, rfl⟩
          have hj_le : j ≤ 16 := isTerm_le16 hs' j (by simp)
          rw [den_full_cons _ _ _ _ _ _ hj_le, den_full_cons _ _ _ _ _ _ hj_le]
          by_cases hj16 : j = 16
          · subst hj16
            have hrr : rr = [] := by
              rcases isTerm_cons_elim hs' with ⟨_, h2⟩ | ⟨h1, _⟩
              · exact h2
              · omega
            subst hrr
            rw [show fullGetEdge (some (.value false v)) ch0 16 = some (.value false v) from by
                simp only [fullGetEdge]; rw [if_pos (by trivial)],
              den_value_nil, if_pos rfl]
          · have hj_lt : j < 16 := by omega
            rw [show fullGetEdge (some (.value false v)) ch0 j = ch0.getD j none from by
                simp only [fullGetEdge]; rw [if_neg hj16],
              show fullGetEdge v0 ch0 j = ch0.getD j none from by
                simp only [fullGetEdge]; rw [if_neg hj16],
              if_neg (by intro hcon; injection hcon with h1 h2; exact hj16 h1)]
      · -- a proper child slot is updated
        have ha_lt : a < 16 := by omega
        have hrterm : isTerm rest = true := by
          rcases isTerm_cons_elim hs with ⟨h1, _⟩ | ⟨_, h2⟩
          · omega
          · exact h2
        rw [show fullGetEdge v0 ch0 a = ch0.getD a none from by
          simp only [fullGetEdge]; rw [if_neg ha16]] at h
        obtain ⟨nc, hnc, hk2⟩ := Res.bind_eq_ok h
        obtain ⟨n', rfl, hwn', hshape', hden'⟩ :=
          ih (ch0.getD a none) rest v nc (wfl_getD hwl a) hrterm hnc
        have hset : fullSetEdge v0 ch0 a (some n') = (v0, ch0.set a (some n')) := by
          simp only [fullSetEdge]; rw [if_neg ha16]
        have hrep : fullReplaceEdge v0 ch0 a (some n') = (v0, ch0.set a (some n')) := by
          simp only [fullReplaceEdge]; rw [if_neg ha16]
        rw [hset, hrep] at hk2
        simp only [ite_self, Res.ok.injEq] at hk2
        subst hk2
        refine ⟨_, rfl, ?_, fun a1 b1 c1 d1 _ => ⟨bh, bep, _, _, rfl⟩, ?_⟩
        · show wfc (some (.full bh bep v0 (ch0.set a (some n')))) = true
          simp only [wfc]
          refine wff_intro _ _ _ _ (by rw [List.length_set, hlen]) (wfl_set hwl hwn' a)
            hwv ?_
          have hgrow := countP_set_some_ge ch0 a n'
          omega
        · intro s' hs'
          obtain ⟨j, rr, rfl⟩ : ∃ j rr, s' = j :: rr := by
            cases s'
            · exact absurd hs' (by simp)
            · exact ⟨_, _, rfl⟩
          have hj_le : j ≤ 16 := isTerm_le16 hs' j (by simp)
          rw [den_full_cons _ _ _ _ _ _ hj_le, den_full_cons _ _ _ _ _ _ hj_le]
          by_cases hj16 : j = 16
          · subst hj16
            rw [show fullGetEdge v0 (ch0.set a (some n')) 16 = v0 from by
                simp only [fullGetEdge]; rw [if_pos (by trivial)],
              show fullGetEdge v0 ch0 16 = v0 from by
                simp only [fullGetEdge]; rw [if_pos (by trivial)],
              if_neg (by intro hcon; injection hcon with h1 h2; omega)]
          · by_cases hja : j = a
            · rw [hja]
              rw [show fullGetEdge v0 (ch0.set a (some n')) a = some n' from by
                  simp only [fullGetEdge]
                  rw [if_neg ha16]
                  exact getD_set_self _ _ _ (by rw [hlen]; omega),
                show fullGetEdge v0 ch0 a = ch0.getD a none from by
                  simp only [fullGetEdge]; rw [if_neg ha16]]
              have hrrt : isTerm rr = true := by
                rcases isTerm_cons_elim hs' with ⟨h1, _⟩ | ⟨_, h2⟩
                · omega
                · exact h2
              rw [hden' rr hrrt]
              by_cases hd : rr = rest
              · rw [if_pos hd, if_pos (by rw [hd])]
              · rw [if_neg hd,
                  if_neg (by intro hcon; injection hcon with h1 h2; exact hd h2)]
            · rw [show fullGetEdge v0 (ch0.set a (some n')) j = ch0.getD j none from by
                  simp only [fullGetEdge]
                  rw [if_neg hj16]
                  exact getD_set_ne _ _ _ _ (fun he => hja he.symm),
                show fullGetEdge v0 ch0 j = ch0.getD j none from by
                  simp only [fullGetEdge]; rw [if_neg hj16],
                if_neg (by intro hcon; injection hcon with h1 h2; exact hja h1)]

end ITrie

namespace ITrie

/-- Run a list of `Txn.Insert` calls left to right. -/
def buildT (st : Storage) (f : Nat) : List (List Nat × List Nat) → Txn → Res Txn
  | [], t => .ok t
  | (k, v) :: rest, t => (Txn.insertK st f t k v).bind (buildT st f rest)

/-- The finite map denoted by a key/value list (first binding wins; with
distinct keys, the set `M` of the specification). -/
def assocKV : List (List Nat × List Nat) → List Nat → Option (List Nat)
  | [], _ => none
  | (k, v) :: rest, q => if q = k then some v else assocKV rest q

/-- Pointwise update semantics of a left-to-right insertion sequence. -/
def lookupNib : List (List Nat × List Nat) → (List Nat → Option (List Nat)) →
    List Nat → Option (List Nat)
  | [], d, s => d s
  | (k, v) :: rest, d, s =>
    lookupNib rest (fun s' => if s' = keybytesToHex k then some v else d s') s

theorem bytesToNibbles_all_lt {k : List Nat} (hk : ∀ b ∈ k, b < 256) :
    ∀ x ∈ bytesToNibbles k, x < 16 := by
  induction k with
  | nil => simp [bytesToNibbles]
  | cons b bs ih =>
    intro x hx
    simp only [bytesToNibbles, List.mem_cons] at hx
    have hb : b < 256 := hk b (by simp)
    rcases hx with rfl | rfl | hx
    · omega
    · omega
    · exact ih (fun y hy => hk y (by simp [hy])) x hx

theorem isTerm_keybytes {k : List Nat} (hk : ∀ b ∈ k, b < 256) :
    isTerm (keybytesToHex k) = true := by
  rw [keybytesToHex, isTerm_iff]
  exact ⟨bytesToNibbles k, rfl, bytesToNibbles_all_lt hk⟩

theorem bytesToNibbles_inj : ∀ k1 k2 : List Nat,
    bytesToNibbles k1 = bytesToNibbles k2 → k1 = k2 := by
  intro k1
  induction k1 with
  | nil => intro k2 h; cases k2 <;> simp [bytesToNibbles] at h ⊢
  | cons b bs ih =>
    intro k2 h
    cases k2 with
    | nil => simp [bytesToNibbles] at h
    | cons c cs =>
      simp only [bytesToNibbles, List.cons.injEq] at h
      obtain ⟨h1, h2, h3⟩ := h
      have hbc : b = c := by omega
      rw [hbc, ih cs h3]

theorem keybytesToHex_inj {k1 k2 : List Nat} (h : keybytesToHex k1 = keybytesToHex k2) :
    k1 = k2 := by
  rw [keybytesToHex, keybytesToHex] at h
  exact bytesToNibbles_inj k1 k2 (by simpa using h)

theorem lookupNib_notmem : ∀ (kvs : List (List Nat × List Nat)) d s,
    (∀ p ∈ kvs, keybytesToHex p.1 ≠ s) → lookupNib kvs d s = d s := by
  intro kvs
  induction kvs with
  | nil => intro d s _; rfl
  | cons p rest ih =>
    intro d s hmem
    match p with
    | (k, v) =>
      rw [lookupNib, ih _ s (fun q hq => hmem q (by simp [hq]))]
      rw [if_neg]
      intro hcon
      exact hmem (k, v) (by simp) (by rw [hcon])

theorem lookupNib_assoc : ∀ (kvs : List (List Nat × List Nat)) d (q : List Nat),
    (kvs.map (fun p => keybytesToHex p.1)).Nodup →
    lookupNib kvs d (keybytesToHex q) =
      match assocKV kvs q with
      | some v => some v
      | none => d (keybytesToHex q) := by
  intro kvs
  induction kvs with
  | nil => intro d q _; rfl
  | cons p rest ih =>
    intro d q hnd
    match p with
    | (k, v) =>
      simp only [List.map_cons, List.nodup_cons] at hnd
      rw [lookupNib, assocKV]
      by_cases hq : q = k
      · subst hq
        rw [if_pos rfl]
        rw [lookupNib_notmem rest _ _ (fun p2 hp2 hcon => hnd.1 (by
          rw [← hcon]; exact List.mem_map_of_mem _ hp2))]
        rw [if_pos rfl]
      · rw [if_neg hq, ih _ q hnd.2]
        have hne : ¬ keybytesToHex q = keybytesToHex k :=
          fun hcon => hq (keybytesToHex_inj hcon)
        cases assocKV rest q <;> simp [hne]

/-- Invariant of the insertion fold: roots stay well-formed and the
denotation accumulates the pointwise updates. -/
theorem buildT_den (st : Storage) (f : Nat) :
    ∀ (kvs : List (List Nat × List Nat)) (t0 t : Txn), wfc t0.root = true →
      (∀ p ∈ kvs, ∀ b ∈ p.1, b < 256) →
      buildT st f kvs t0 = .ok t →
      wfc t.root = true ∧ ∀ s, isTerm s = true →
        den t.root s = lookupNib kvs (den t0.root) s := by
  intro kvs
  induction kvs with
  | nil =>
    intro t0 t hw _ hb
    simp only [buildT, Res.ok.injEq] at hb
    subst hb
    exact ⟨hw, fun s _ => rfl⟩
  | cons p rest ih =>
    intro t0 t hw hbytes hb
    match p with
    | (k, v) =>
      rw [buildT] at hb
      obtain ⟨t1, ht1, hrest⟩ := Res.bind_eq_ok hb
      rw [Txn.insertK] at ht1
      obtain ⟨root1, hroot1, hok⟩ := Res.bind_eq_ok ht1
      have hterm : isTerm (keybytesToHex k) = true :=
        isTerm_keybytes (hbytes (k, v) (by simp))
      obtain ⟨n, rfl, hwn, _, hden⟩ :=
        insert_den st t0.epoch f t0.root (keybytesToHex k) v root1 hw hterm hroot1
      simp only [Option.isSome_some, if_true, Res.ok.injEq] at hok
      subst hok
      obtain ⟨hwt, hdent⟩ :=
        ih _ t hwn (fun p2 hp2 => hbytes p2 (by simp [hp2])) hrest
      refine ⟨hwt, ?_⟩
      intro s hsx
      rw [hdent s hsx, lookupNib]
      have : ∀ s', isTerm s' = true →
          den (some n) s' = if s' = keybytesToHex k then some v else den t0.root s' :=
        hden
      clear hden
      -- both sides are lookupNib over `rest` of functions that agree on
      -- terminated strings; prove agreement by a nested induction
      have agree : ∀ (rest2 : List (List Nat × List Nat))
          (d1 d2 : List Nat → Option (List Nat)),
          (∀ s', isTerm s' = true → d1 s' = d2 s') →
          (∀ p2 ∈ rest2, ∀ b ∈ p2.1, b < 256) →
          ∀ s', isTerm s' = true → lookupNib rest2 d1 s' = lookupNib rest2 d2 s' := by
        intro rest2
        induction rest2 with
        | nil => intro d1 d2 hag _ s' hs'; exact hag s' hs'
        | cons p2 rest3 ih3 =>
          intro d1 d2 hag hbytes2 s' hs'
          match p2 with
          | (k2, v2) =>
            rw [lookupNib, lookupNib]
            refine ih3 _ _ ?_ (fun p3 hp3 => hbytes2 p3 (by simp [hp3])) s' hs'
            intro s2 hs2
            by_cases he : s2 = keybytesToHex k2
            · simp [he]
            · simp only [if_neg he]
              exact hag s2 hs2
      exact agree rest _ _ this (fun p2 hp2 => hbytes p2 (by simp [hp2])) s hsx

end ITrie

namespace ITrie

/-- C1: For every key/value set `M` (a list of pairs with distinct byte
keys) inserted in any order into an initially empty trie via `Txn.Insert`,
a subsequent `Txn.Lookup k` returns `M[k]` for every key in `M` and nil for
every absent key: whenever the insertion sequence completes, a lookup
completes for sufficient fuel with result `assocKV kvs k`, and every
completed lookup returns exactly that. -/
theorem C1_insert_lookup_roundtrip (st : Storage) (f : Nat)
    (kvs : List (List Nat × List Nat)) (t : Txn) (k : List Nat)
    (hnd : (kvs.map Prod.fst).Nodup)
    (hbytes : ∀ p ∈ kvs, ∀ b ∈ p.1, b < 256)
    (hk : ∀ b ∈ k, b < 256)
    (hb : buildT st f kvs (Trie.txn newTrie) = .ok t) :
    (∃ g, Txn.lookupK st g t k = .ok (assocKV kvs k)) ∧
    (∀ g r, Txn.lookupK st g t k = .ok r → r = assocKV kvs k) := by
  have hw0 : wfc (Trie.txn newTrie).root = true := by simp [Trie.txn, newTrie, wfc]
  obtain ⟨hwt, hden⟩ := buildT_den st f kvs (Trie.txn newTrie) t hw0 hbytes hb
  have hterm : isTerm (keybytesToHex k) = true := isTerm_keybytes hk
  have hndn : (kvs.map (fun p => keybytesToHex p.1)).Nodup := by
    have : kvs.map (fun p => keybytesToHex p.1) =
        (kvs.map Prod.fst).map keybytesToHex := by
      rw [List.map_map]
      rfl
    rw [this]
    exact hnd.map (fun a b hab => keybytesToHex_inj hab)
  have hden2 : den t.root (keybytesToHex k) = assocKV kvs k := by
    rw [hden _ hterm]
    have h0 : den (Trie.txn newTrie).root = fun _ => none := by
      funext s; simp [Trie.txn, newTrie, den]
    rw [h0, lookupNib_assoc kvs _ k hndn]
    cases assocKV kvs k <;> rfl
  have hhf : hashFree t.root = true := wfc_hashFree _ hwt
  constructor
  · obtain ⟨g, hg⟩ := lookup_total st t.root (keybytesToHex k) hhf
      (fun x hx => isTerm_le16 hterm x hx)
    exact ⟨g, by rw [Txn.lookupK, hg, hden2]⟩
  · intro g r hr
    have := lookup_den st g t.root (keybytesToHex k) r hhf hr
    rw [this, hden2]

/-- Witness for C1 at a concrete two-key map. -/
theorem C1_insert_lookup_roundtrip_witness :
    ∃ t, buildT emptyStore 20 [([18, 53], [170]), ([18, 55], [187])]
        (Trie.txn newTrie) = .ok t ∧
      ∃ g r, Txn.lookupK emptyStore g t [18, 53] = .ok r ∧ r = some [170] := by
  refine ⟨_, rfl, ?_⟩
  have h := C1_insert_lookup_roundtrip emptyStore 20
    [([18, 53], [170]), ([18, 55], [187])] _ [18, 53]
    (by decide) (by decide) (by decide) rfl
  obtain ⟨g, hg⟩ := h.1
  exact ⟨g, _, hg, rfl⟩

end ITrie

namespace ITrie

/-- C3 (failing input): on the trie {0x1235 ↦ [170], 0x1237 ↦ [187]},
deleting the absent byte key 0x15 reaches the root Short (key nibbles
[1,2,3]) with remainder [1,5,16]: the common prefix has length 1, a true
divergence, yet `Txn.delete` recurses past the whole Short key, reports
"changed", and removes the stored key 0x1235. -/
theorem C3_delete_absent_key_removes_stored_value :
    ∃ t t', buildT emptyStore 20 [([18, 53], [170]), ([18, 55], [187])]
        (Trie.txn newTrie) = .ok t ∧
      (Txn.lookupK emptyStore 20 t [21] = .ok none ∧
        Txn.lookupK emptyStore 20 t [18, 53] = .ok (some [170])) ∧
      Txn.deleteK emptyStore 20 t [21] = .ok t' ∧
      t'.root = some (.short [] [1, 2, 3, 7, 16] (some (.value false [187]))) ∧
      Txn.lookupK emptyStore 20 t' [18, 53] = .ok none := by
  exact ⟨_, _, rfl, ⟨rfl, rfl⟩, rfl, rfl, rfl⟩

/-- The 17-slot occupancy count of the specification's delete rules. -/
def slotCount (v : Option Node) (ch : List (Option Node)) : Nat :=
  ch.countP (·.isSome) + (if v.isSome then 1 else 0)

theorem findIdx?_isSome_iff (l : List (Option Node)) :
    (l.findIdx? (·.isSome)).isSome = true ↔ 0 < l.countP (·.isSome) := by
  induction l with
  | nil => simp [List.findIdx?]
  | cons c cs ih =>
    cases c with
    | none =>
      simp only [List.findIdx?_cons, List.countP_cons]
      simpa using ih
    | some x =>
      simp [List.findIdx?_cons, List.countP_cons]

end ITrie

namespace ITrie

/-- C5 (amended): after a delete through a Full node updates the selected
slot, the node is kept as a Full when at least two of the 17 slots remain
occupied, becomes empty when none remain, and with exactly one survivor
collapses to: a Short `[terminator]` over the value slot; the surviving
(in-memory or resolved) Short child with its slot nibble prepended and its
cached hash cleared; or a fresh Short `[i]` over any other surviving
(resolved) child.  However, a sole surviving hash reference whose hash the
store reports absent makes the delete return no-change instead of
collapsing, and a store I/O fault there is fatal. -/
theorem C5_full_delete_collapse (st : Storage) (f : Nat) (fh : List Nat) (fep : Nat)
    (v : Option Node) (ch : List (Option Node)) (kk : Nat) (rest : List Nat)
    (nc : Option Node) (hk : kk ≤ 16)
    (hrec : del st f (fullGetEdge v ch kk) rest = .ok (nc, true)) :
    (2 ≤ slotCount (fullSetEdge v ch kk nc).1 (fullSetEdge v ch kk nc).2 →
      del st (f + 1) (some (.full fh fep v ch)) (kk :: rest) =
        .ok (some (.full [] fep (fullSetEdge v ch kk nc).1 (fullSetEdge v ch kk nc).2),
          true)) ∧
    (slotCount (fullSetEdge v ch kk nc).1 (fullSetEdge v ch kk nc).2 = 0 →
      del st (f + 1) (some (.full fh fep v ch)) (kk :: rest) = .ok (none, true)) ∧
    (∀ nv, slotCount (fullSetEdge v ch kk nc).1 (fullSetEdge v ch kk nc).2 = 1 →
      (fullSetEdge v ch kk nc).1 = some nv →
      del st (f + 1) (some (.full fh fep v ch)) (kk :: rest) =
        .ok (some (.short [] [16] (some nv)), true)) ∧
    (∀ i sh2 skey sc,
      slotCount (fullSetEdge v ch kk nc).1 (fullSetEdge v ch kk nc).2 = 1 →
      (fullSetEdge v ch kk nc).1 = none →
      ((fullSetEdge v ch kk nc).2.findIdx? (·.isSome)) = some i →
      (fullSetEdge v ch kk nc).2.getD i none = some (.short sh2 skey sc) →
      del st (f + 1) (some (.full fh fep v ch)) (kk :: rest) =
        .ok (some (.short [] (i :: skey) sc), true)) ∧
    (∀ i nn,
      slotCount (fullSetEdge v ch kk nc).1 (fullSetEdge v ch kk nc).2 = 1 →
      (fullSetEdge v ch kk nc).1 = none →
      ((fullSetEdge v ch kk nc).2.findIdx? (·.isSome)) = some i →
      (fullSetEdge v ch kk nc).2.getD i none = some nn →
      (∀ sh2 skey sc, nn ≠ .short sh2 skey sc) →
      (∀ hb, nn ≠ .value true hb) →
      del st (f + 1) (some (.full fh fep v ch)) (kk :: rest) =
        .ok (some (.short [] [i] (some nn)), true)) ∧
    (∀ i hbuf sh3 skey sc,
      slotCount (fullSetEdge v ch kk nc).1 (fullSetEdge v ch kk nc).2 = 1 →
      (fullSetEdge v ch kk nc).1 = none →
      ((fullSetEdge v ch kk nc).2.findIdx? (·.isSome)) = some i →
      (fullSetEdge v ch kk nc).2.getD i none = some (.value true hbuf) →
      st hbuf = .found (.short sh3 skey sc) →
      del st (f + 1) (some (.full fh fep v ch)) (kk :: rest) =
        .ok (some (.short [] (i :: skey) sc), true)) ∧
    (∀ i hbuf aux,
      slotCount (fullSetEdge v ch kk nc).1 (fullSetEdge v ch kk nc).2 = 1 →
      (fullSetEdge v ch kk nc).1 = none →
      ((fullSetEdge v ch kk nc).2.findIdx? (·.isSome)) = some i →
      (fullSetEdge v ch kk nc).2.getD i none = some (.value true hbuf) →
      st hbuf = .found aux → (∀ sh3 skey sc, ¬ aux = .short sh3 skey sc) →
      del st (f + 1) (some (.full fh fep v ch)) (kk :: rest) =
        .ok (some (.short [] [i] (some aux)), true)) ∧
    (∀ i hbuf,
      slotCount (fullSetEdge v ch kk nc).1 (fullSetEdge v ch kk nc).2 = 1 →
      (fullSetEdge v ch kk nc).1 = none →
      ((fullSetEdge v ch kk nc).2.findIdx? (·.isSome)) = some i →
      (fullSetEdge v ch kk nc).2.getD i none = some (.value true hbuf) →
      st hbuf = .absent →
      del st (f + 1) (some (.full fh fep v ch)) (kk :: rest) = .ok (none, false)) ∧
    (∀ i hbuf,
      slotCount (fullSetEdge v ch kk nc).1 (fullSetEdge v ch kk nc).2 = 1 →
      (fullSetEdge v ch kk nc).1 = none →
      ((fullSetEdge v ch kk nc).2.findIdx? (·.isSome)) = some i →
      (fullSetEdge v ch kk nc).2.getD i none = some (.value true hbuf) →
      st hbuf = .ioErr →
      del st (f + 1) (some (.full fh fep v ch)) (kk :: rest) = .err) := by
  have hbase : del st (f + 1) (some (.full fh fep v ch)) (kk :: rest) =
      (del st f (fullGetEdge v ch kk) rest).bind fun co =>
      if co.2 then
        let s := fullSetEdge v ch kk co.1
        let v' := s.1
        let ch' := s.2
        let indx := ch'.findIdx? (·.isSome)
        let notEmpty :=
          2 ≤ ch'.countP (·.isSome) ∨ (indx.isSome ∧ v'.isSome)
        if notEmpty then .ok (some (.full [] fep v' ch'), true)
        else
          match indx with
          | none =>
            match v' with
            | none => .ok (none, true)
            | some nv => .ok (some (.short [] [16] (some nv)), true)
          | some i =>
            let nc2 := ch'.getD i none
            match nc2 with
            | some (.value true hbuf) =>
              match st hbuf with
              | .ioErr => .err
              | .absent => .ok (none, false)
              | .found aux =>
                match aux with
                | .short _ skey schild =>
                  .ok (some (.short [] (concat [i] skey) schild), true)
                | aux2 => .ok (some (.short [] [i] (some aux2)), true)
            | some (.short _ skey schild) =>
              .ok (some (.short [] (concat [i] skey) schild), true)
            | _ => .ok (some (.short [] [i] nc2), true)
      else .ok (none, false) := by
    simp only [del]
    rw [if_neg (by omega)]
  rw [hbase, hrec, Res.bind_ok]
  simp only [if_pos rfl]
  rw [if_pos (show True from trivial)]
  refine ⟨?_, ?_, ?_, ?_, ?_, ?_, ?_, ?_, ?_⟩
  · intro hcount
    have hcond : 2 ≤ (fullSetEdge v ch kk nc).2.countP (·.isSome) ∨
        (((fullSetEdge v ch kk nc).2.findIdx? (·.isSome)).isSome = true ∧
          (fullSetEdge v ch kk nc).1.isSome = true) := by
      rw [slotCount] at hcount
      by_cases h2 : 2 ≤ (fullSetEdge v ch kk nc).2.countP (·.isSome)
      · exact Or.inl h2
      · have hv : (fullSetEdge v ch kk nc).1.isSome = true := by
          cases hx : (fullSetEdge v ch kk nc).1
          · rw [hx] at hcount
            rw [if_neg (by simp)] at hcount
            omega
          · simp
        refine Or.inr ⟨?_, hv⟩
        rw [findIdx?_isSome_iff]
        rw [hv, if_pos rfl] at hcount
        omega
    rw [if_pos hcond]
  · intro hcount
    rw [slotCount] at hcount
    have hv : (fullSetEdge v ch kk nc).1 = none := by
      cases hx : (fullSetEdge v ch kk nc).1
      · rfl
      · rw [hx] at hcount; simp at hcount
    have hcp : (fullSetEdge v ch kk nc).2.countP (·.isSome) = 0 := by
      rw [hv] at hcount; simpa using hcount
    have hidx : (fullSetEdge v ch kk nc).2.findIdx? (·.isSome) = none := by
      cases hx : (fullSetEdge v ch kk nc).2.findIdx? (·.isSome) with
      | none => rfl
      | some i =>
        exfalso
        have h1 : ((fullSetEdge v ch kk nc).2.findIdx? (·.isSome)).isSome = true := by
          rw [hx]; rfl
        rw [findIdx?_isSome_iff] at h1
        omega
    have hcond : ¬ (2 ≤ (fullSetEdge v ch kk nc).2.countP (·.isSome) ∨
        (((fullSetEdge v ch kk nc).2.findIdx? (·.isSome)).isSome = true ∧
          (fullSetEdge v ch kk nc).1.isSome = true)) := by
      rw [hidx, hcp]
      simp
    rw [if_neg hcond, hidx, hv]
  · intro nv hcount hv
    rw [slotCount, hv] at hcount
    simp only [Option.isSome_some, if_true] at hcount
    have hcp : (fullSetEdge v ch kk nc).2.countP (·.isSome) = 0 := by omega
    have hidx : (fullSetEdge v ch kk nc).2.findIdx? (·.isSome) = none := by
      cases hx : (fullSetEdge v ch kk nc).2.findIdx? (·.isSome) with
      | none => rfl
      | some i =>
        exfalso
        have h1 : ((fullSetEdge v ch kk nc).2.findIdx? (·.isSome)).isSome = true := by
          rw [hx]; rfl
        rw [findIdx?_isSome_iff] at h1
        omega
    have hcond : ¬ (2 ≤ (fullSetEdge v ch kk nc).2.countP (·.isSome) ∨
        (((fullSetEdge v ch kk nc).2.findIdx? (·.isSome)).isSome = true ∧
          (fullSetEdge v ch kk nc).1.isSome = true)) := by
      rw [hidx, hcp]
      simp
    rw [if_neg hcond, hidx, hv]
  · intro i sh2 skey sc hcount hv hidx hslot
    rw [slotCount, hv] at hcount
    simp only [Option.isSome_none, if_false] at hcount
    have hcond : ¬ (2 ≤ (fullSetEdge v ch kk nc).2.countP (·.isSome) ∨
        (((fullSetEdge v ch kk nc).2.findIdx? (·.isSome)).isSome = true ∧
          (fullSetEdge v ch kk nc).1.isSome = true)) := by
      rw [hv]
      simp
      omega
    rw [if_neg hcond, hidx]
    simp only []
    rw [hslot]
    rfl
  · intro i nn hcount hv hidx hslot hnshort hnhash
    rw [slotCount, hv] at hcount
    simp only [Option.isSome_none, if_false] at hcount
    have hcond : ¬ (2 ≤ (fullSetEdge v ch kk nc).2.countP (·.isSome) ∨
        (((fullSetEdge v ch kk nc).2.findIdx? (·.isSome)).isSome = true ∧
          (fullSetEdge v ch kk nc).1.isSome = true)) := by
      rw [hv]
      simp
      omega
    rw [if_neg hcond, hidx]
    simp only []
    rw [hslot]
    match nn, hnshort, hnhash with
    | .value false b, _, _ => rfl
    | .value true b, _, hnhash => exact absurd rfl (hnhash b)
    | .short x y z, hnshort, _ => exact absurd rfl (hnshort x y z)
    | .full x y z u, _, _ => rfl
  · intro i hbuf sh3 skey sc hcount hv hidx hslot hst
    rw [slotCount, hv] at hcount
    simp only [Option.isSome_none, if_false] at hcount
    have hcond : ¬ (2 ≤ (fullSetEdge v ch kk nc).2.countP (·.isSome) ∨
        (((fullSetEdge v ch kk nc).2.findIdx? (·.isSome)).isSome = true ∧
          (fullSetEdge v ch kk nc).1.isSome = true)) := by
      rw [hv]
      simp
      omega
    rw [if_neg hcond, hidx]
    simp only []
    rw [hslot]
    show (match st hbuf with
      | StoreRes.ioErr => (Res.err : Res (Option Node × Bool))
      | StoreRes.absent => Res.ok (none, false)
      | StoreRes.found aux =>
        match aux with
        | Node.short a3 skey2 schild =>
          Res.ok (some (Node.short [] (concat [i] skey2) schild), true)
        | aux2 => Res.ok (some (Node.short [] [i] (some aux2)), true)) =
      Res.ok (some (Node.short [] (i :: skey) sc), true)
    rw [hst]
    rfl
  · intro i hbuf aux hcount hv hidx hslot hst haux
    rw [slotCount, hv] at hcount
    simp only [Option.isSome_none, if_false] at hcount
    have hcond : ¬ (2 ≤ (fullSetEdge v ch kk nc).2.countP (·.isSome) ∨
        (((fullSetEdge v ch kk nc).2.findIdx? (·.isSome)).isSome = true ∧
          (fullSetEdge v ch kk nc).1.isSome = true)) := by
      rw [hv]
      simp
      omega
    rw [if_neg hcond, hidx]
    simp only []
    rw [hslot]
    show (match st hbuf with
      | StoreRes.ioErr => (Res.err : Res (Option Node × Bool))
      | StoreRes.absent => Res.ok (none, false)
      | StoreRes.found aux =>
        match aux with
        | Node.short a3 skey2 schild =>
          Res.ok (some (Node.short [] (concat [i] skey2) schild), true)
        | aux2 => Res.ok (some (Node.short [] [i] (some aux2)), true)) =
      Res.ok (some (Node.short [] [i] (some aux)), true)
    rw [hst]
    match aux, haux with
    | .value false b, _ => rfl
    | .value true b, _ => rfl
    | .full x y z u, _ => rfl
    | .short x y z, haux => exact absurd rfl (haux x y z)
  · intro i hbuf hcount hv hidx hslot hst
    rw [slotCount, hv] at hcount
    simp only [Option.isSome_none, if_false] at hcount
    have hcond : ¬ (2 ≤ (fullSetEdge v ch kk nc).2.countP (·.isSome) ∨
        (((fullSetEdge v ch kk nc).2.findIdx? (·.isSome)).isSome = true ∧
          (fullSetEdge v ch kk nc).1.isSome = true)) := by
      rw [hv]
      simp
      omega
    rw [if_neg hcond, hidx]
    simp only []
    rw [hslot]
    show (match st hbuf with
      | StoreRes.ioErr => (Res.err : Res (Option Node × Bool))
      | StoreRes.absent => Res.ok (none, false)
      | StoreRes.found aux =>
        match aux with
        | Node.short a3 skey2 schild =>
          Res.ok (some (Node.short [] (concat [i] skey2) schild), true)
        | aux2 => Res.ok (some (Node.short [] [i] (some aux2)), true)) =
      Res.ok (none, false)
    rw [hst]
  · intro i hbuf hcount hv hidx hslot hst
    rw [slotCount, hv] at hcount
    simp only [Option.isSome_none, if_false] at hcount
    have hcond : ¬ (2 ≤ (fullSetEdge v ch kk nc).2.countP (·.isSome) ∨
        (((fullSetEdge v ch kk nc).2.findIdx? (·.isSome)).isSome = true ∧
          (fullSetEdge v ch kk nc).1.isSome = true)) := by
      rw [hv]
      simp
      omega
    rw [if_neg hcond, hidx]
    simp only []
    rw [hslot]
    show (match st hbuf with
      | StoreRes.ioErr => (Res.err : Res (Option Node × Bool))
      | StoreRes.absent => Res.ok (none, false)
      | StoreRes.found aux =>
        match aux with
        | Node.short a3 skey2 schild =>
          Res.ok (some (Node.short [] (concat [i] skey2) schild), true)
        | aux2 => Res.ok (some (Node.short [] [i] (some aux2)), true)) =
      Res.err
    rw [hst]

/-- A slot list whose sole survivor after deleting edge 5 is a
hash-reference Value at index 2. -/
def chC5 : List (Option Node) :=
  (empty16.set 2 (some (.value true [99]))).set 5
    (some (.short [] [16] (some (.value false [7]))))

/-- C5 counterexample: when the sole surviving child is a hash reference
whose hash the store reports absent, the delete returns no-change instead
of producing the Short-over-survivor collapse the claim requires. -/
theorem C5_absent_survivor_counterexample :
    del emptyStore 3 (some (.full [] 0 none chC5)) [5, 16] = .ok (none, false) ∧
    ¬ del emptyStore 3 (some (.full [] 0 none chC5)) [5, 16] =
        .ok (some (.short [] [2] (some (.value true [99]))), true) := by
  constructor
  · rfl
  · intro hcon
    rw [show del emptyStore 3 (some (.full [] 0 none chC5)) [5, 16] =
        .ok (none, false) from rfl] at hcon
    simp at hcon

/-- A storage oracle holding one decodable node: hash `[99]` resolves to a
Short leaf. -/
def store99 : Storage := fun b =>
  if b = [99] then .found (.short [] [16] (some (.value false [42]))) else .absent

/-- Witness for C5: deleting edge 5 of a two-child branch leaves one
surviving Short child, which is collapsed with its nibble prepended; and
with a hash-reference survivor that resolves to a Short, the resolved
Short is collapsed the same way. -/
theorem C5_full_delete_collapse_witness :
    del emptyStore 3
        (fullGetEdge none
          (((empty16.set 5 (some (.short [] [16] (some (.value false [170]))))).set 7
            (some (.short [] [16] (some (.value false [187])))))) 5) [16] =
      .ok (none, true) ∧
    del emptyStore 4
        (some (.full [] 1 none
          ((empty16.set 5 (some (.short [] [16] (some (.value false [170]))))).set 7
            (some (.short [] [16] (some (.value false [187])))))))
        [5, 16] =
      .ok (some (.short [] [7, 16] (some (.value false [187]))), true) ∧
    del store99 3 (some (.full [] 0 none chC5)) [5, 16] =
      .ok (some (.short [] [2, 16] (some (.value false [42]))), true) := by
  refine ⟨rfl, ?_, ?_⟩
  · have h := C5_full_delete_collapse emptyStore 3 [] 1 none
      ((empty16.set 5 (some (.short [] [16] (some (.value false [170]))))).set 7
        (some (.short [] [16] (some (.value false [187])))))
      5 [16] none (by omega) rfl
    have h4 := h.2.2.2.1 7 [] [16] (some (.value false [187])) rfl rfl rfl rfl
    exact h4
  · have h2 := C5_full_delete_collapse store99 2 [] 0 none chC5 5 [16] none
      (by omega) rfl
    exact h2.2.2.2.2.2.1 2 [99] [] [16] (some (.value false [42])) rfl rfl rfl rfl rfl

end ITrie

namespace ITrie

/-- C7 counterexample: epochs are uint32, so a transaction opened on a trie
with epoch 2^32 − 1 gets epoch 0, which is not strictly greater. -/
theorem C7_epoch_wraparound_counterexample :
    (Trie.txn { root := none, epoch := 4294967295 }).epoch = 0 ∧
    ¬ 4294967295 < (Trie.txn { root := none, epoch := 4294967295 }).epoch := by
  have h1 : (Trie.txn { root := none, epoch := 4294967295 }).epoch = 0 := by
    simp [Trie.txn, U32]
  exact ⟨h1, by rw [h1]; omega⟩

/-- C7 (amended): a transaction's epoch is `(trie.epoch + 1) mod 2^32`,
hence strictly greater than the trie's whenever the latter is below
2^32 − 1; `writeNode` returns the very node when its epoch equals the
transaction's, else a shallow clone with the same value slot and children,
the transaction epoch, and an empty hash cache. -/
theorem C7_epoch_writeNode (t : Trie) :
    (Trie.txn t).epoch = (t.epoch + 1) % U32 ∧
    (t.epoch < U32 - 1 → t.epoch < (Trie.txn t).epoch) ∧
    (∀ h ep v ch, (Trie.txn t).epoch = ep →
      writeNode (Trie.txn t).epoch (.full h ep v ch) = .full h ep v ch) ∧
    (∀ h ep v ch, ¬ (Trie.txn t).epoch = ep →
      writeNode (Trie.txn t).epoch (.full h ep v ch) = .full [] (Trie.txn t).epoch v ch) := by
  refine ⟨rfl, ?_, ?_, ?_⟩
  · intro hlt
    show t.epoch < (t.epoch + 1) % U32
    rw [Nat.mod_eq_of_lt (by rw [U32] at hlt ⊢; omega)]
    omega
  · intro h ep v ch hep
    rw [writeNode, if_pos hep]
  · intro h ep v ch hep
    rw [writeNode, if_neg hep]

/-- Witness for C7 at a concrete trie of epoch 5. -/
theorem C7_epoch_writeNode_witness :
    (Trie.txn { root := none, epoch := 5 }).epoch = 6 ∧
    (5 : Nat) < (Trie.txn { root := none, epoch := 5 }).epoch ∧
    writeNode 6 (.full [9] 6 none empty16) = .full [9] 6 none empty16 ∧
    writeNode 6 (.full [9] 3 none empty16) = .full [] 6 none empty16 := by
  have h := C7_epoch_writeNode { root := none, epoch := 5 }
  refine ⟨by simp [Trie.txn, U32], ?_, ?_, ?_⟩
  · have h2 := h.2.1 (show (5 : Nat) < U32 - 1 by rw [U32]; omega)
    exact h2
  · have h3 := h.2.2.1 [9] 6 none empty16 (by simp [Trie.txn, U32])
    simpa [Trie.txn, U32] using h3
  · have h4 := h.2.2.2 [9] 3 none empty16 (by simp [Trie.txn, U32])
    simpa [Trie.txn, U32] using h4

/-- C10: `Trie.Get` reports exactly a fresh transaction's lookup with
presence `res != nil`; on a nil root it is `(nil, false)` for every key;
and a key inserted with an empty byte string is reported present. -/
theorem C10_get_presence (st : Storage) (t : Trie) (k : List Nat) :
    (∀ f r, Txn.lookupK st f (Trie.txn t) k = .ok r →
      Trie.get st f t k = .ok (r, r.isSome)) ∧
    (t.root = none → ∀ f, Trie.get st (f + 1) t k = .ok (none, false)) ∧
    (∀ f t1, wfc t.root = true → (∀ b ∈ k, b < 256) →
      Txn.insertK st f (Trie.txn t) k [] = .ok t1 →
      ∃ g, Trie.get st g (Txn.commit t1) k = .ok (some [], true)) := by
  refine ⟨?_, ?_, ?_⟩
  · intro f r hr
    rw [Trie.get, hr, Res.bind_ok]
  · intro hroot f
    rw [Trie.get, Txn.lookupK]
    have : (Trie.txn t).root = none := by rw [Trie.txn, hroot]
    rw [this]
    rfl
  · intro f t1 hw hk hins
    rw [Txn.insertK] at hins
    obtain ⟨root1, hroot1, hok⟩ := Res.bind_eq_ok hins
    have hterm : isTerm (keybytesToHex k) = true := isTerm_keybytes hk
    obtain ⟨n, rfl, hwn, _, hden⟩ :=
      insert_den st (Trie.txn t).epoch f (Trie.txn t).root (keybytesToHex k) [] root1
        hw hterm hroot1
    simp only [Option.isSome_some, if_true, Res.ok.injEq] at hok
    subst hok
    have hd : den (some n) (keybytesToHex k) = some [] := by
      rw [hden _ hterm, if_pos rfl]
    obtain ⟨g, hg⟩ := lookup_total st (some n) (keybytesToHex k)
      (wfc_hashFree _ hwn) (fun x hx => isTerm_le16 hterm x hx)
    refine ⟨g, ?_⟩
    rw [Trie.get, Txn.lookupK]
    have hr : (Trie.txn (Txn.commit { root := some n, epoch := (Trie.txn t).epoch })).root
        = some n := rfl
    rw [hr, hg, hd, Res.bind_ok]
    rfl

/-- Witness for C10: inserting the empty byte string under key 0x01. -/
theorem C10_get_presence_witness :
    ∃ t1, Txn.insertK emptyStore 5 (Trie.txn newTrie) [1] [] = .ok t1 ∧
      ∃ g, Trie.get emptyStore g (Txn.commit t1) [1] = .ok (some [], true) := by
  refine ⟨_, rfl, ?_⟩
  exact (C10_get_presence emptyStore newTrie [1]).2.2 5 _ (by simp [newTrie, wfc])
    (by decide) rfl

/-- C4 counterexample: with the root a hash reference whose hash the store
reports absent, `Txn.Insert` is not fatal: it completes normally and leaves
the transaction unchanged (the insert is silently dropped). -/
theorem C4_insert_absent_not_fatal :
    Txn.insertK emptyStore 10 { root := some (.value true [9]), epoch := 1 } [0] [5] =
      .ok { root := some (.value true [9]), epoch := 1 } ∧
    Txn.insertK emptyStore 10 { root := some (.value true [9]), epoch := 1 } [0] [5] ≠
      .err := by
  exact ⟨rfl, by intro hcon; cases hcon⟩

/-- C4 (amended): resolving an absent hash makes lookup report the key as
not present and delete report no change, completing cleanly; insert also
completes cleanly rather than aborting, but it is only a no-op when the
hash reference is the root itself — an absent reference met below the root
is replaced by `nil` in the rebuilt node (a Short keeps its key over a nil
child, a Full has the slot cleared), silently dropping the unresolvable
subtree, whose keys then look up to nothing.  A lower-level I/O fault from
the store is fatal for all three operations. -/
theorem C4_resolution_errors (st : Storage) (h : List Nat) (tx : Txn) (k v : List Nat)
    (hroot : tx.root = some (.value true h)) :
    (st h = .absent →
      ∀ f, Txn.lookupK st (f + 1) tx k = .ok none ∧
        Txn.deleteK st (f + 1) tx k = .ok tx ∧
        Txn.insertK st (f + 1) tx k v = .ok tx) ∧
    (st h = .ioErr →
      ∀ f, Txn.lookupK st (f + 1) tx k = .err ∧
        Txn.deleteK st (f + 1) tx k = .err ∧
        Txn.insertK st (f + 1) tx k v = .err) ∧
    (∀ ep sh key s val f, st h = .absent → prefixLen s key = key.length →
      insert st ep (f + 2) (some (.short sh key (some (.value true h)))) s val =
        .ok (some (.short [] key none)) ∧
      ∀ s2 g, lookup st (g + 2) (some (.short [] key none)) s2 = .ok none) ∧
    (∀ ep fh fep v2 ch kk rest val f, st h = .absent → kk ≤ 16 → ¬ ep = fep →
      fullGetEdge v2 ch kk = some (.value true h) →
      insert st ep (f + 2) (some (.full fh fep v2 ch)) (kk :: rest) val =
        .ok (some (.full [] ep (fullReplaceEdge v2 ch kk none).1
          (fullReplaceEdge v2 ch kk none).2))) := by
  refine ⟨?_, ?_, ?_, ?_⟩
  rotate_left 2
  · intro ep sh key s val f habs hpl
    constructor
    · simp only [insert]
      rw [if_pos hpl]
      rw [if_pos (show True from trivial), habs]
      rfl
    · intro s2 g
      rw [lookup]
      by_cases hc : key.length > s2.length ∨ ¬ s2.take key.length = key
      · rw [if_pos hc]
      · rw [if_neg hc]
        rw [lookup]
  · intro ep fh fep v2 ch kk rest val f habs hk16 hne hedge
    have hwb : writeNode ep (.full fh fep v2 ch) = .full [] ep v2 ch := by
      rw [writeNode, if_neg hne]
    simp only [insert, hwb]
    rw [if_neg (show ¬ 16 < kk by omega)]
    rw [hedge]
    rw [show insert st ep (f + 1) (some (.value true h)) rest val = .ok none from by
      simp [insert, habs]]
    rw [Res.bind_ok]
    rw [if_neg (by simp)]
  · intro habs f
    refine ⟨?_, ?_, ?_⟩
    · rw [Txn.lookupK, hroot]
      simp [lookup, habs]
    · rw [Txn.deleteK, hroot]
      simp [del, habs, Res.bind]
    · rw [Txn.insertK, hroot]
      simp [insert, habs, Res.bind]
  · intro hio f
    refine ⟨?_, ?_, ?_⟩
    · rw [Txn.lookupK, hroot]
      simp [lookup, hio]
    · rw [Txn.deleteK, hroot]
      simp [del, hio, Res.bind]
    · rw [Txn.insertK, hroot]
      simp [insert, hio, Res.bind]

/-- Witness for C4's amended statement at a concrete transaction. -/
theorem C4_resolution_errors_witness :
    (Txn.lookupK emptyStore 7 { root := some (.value true [9]), epoch := 1 } [2] = .ok none ∧
      Txn.deleteK emptyStore 7 { root := some (.value true [9]), epoch := 1 } [2] =
        .ok { root := some (.value true [9]), epoch := 1 } ∧
      Txn.insertK emptyStore 7 { root := some (.value true [9]), epoch := 1 } [2] [3] =
        .ok { root := some (.value true [9]), epoch := 1 }) ∧
    (Txn.lookupK (fun _ => .ioErr) 7 { root := some (.value true [9]), epoch := 1 } [2] =
      .err) ∧
    insert emptyStore 1 7 (some (.short [] [2] (some (.value true [9])))) [2, 16] [5] =
      .ok (some (.short [] [2] none)) ∧
    insert emptyStore 1 7
        (some (.full [] 0 none (empty16.set 3 (some (.value true [9]))))) [3, 16] [5] =
      .ok (some (.full [] 1
        (fullReplaceEdge none (empty16.set 3 (some (.value true [9]))) 3 none).1
        (fullReplaceEdge none (empty16.set 3 (some (.value true [9]))) 3 none).2)) := by
  refine ⟨?_, ?_, ?_, ?_⟩
  · exact (C4_resolution_errors emptyStore [9]
      { root := some (.value true [9]), epoch := 1 } [2] [3] rfl).1 rfl 6
  · exact (((C4_resolution_errors (fun _ => .ioErr) [9]
      { root := some (.value true [9]), epoch := 1 } [2] [3] rfl).2.1) rfl 6).1
  · exact ((C4_resolution_errors emptyStore [9]
      { root := some (.value true [9]), epoch := 1 } [2] [3] rfl).2.2.1
      1 [] [2] [2, 16] [5] 5 rfl (by decide)).1
  · exact (C4_resolution_errors emptyStore [9]
      { root := some (.value true [9]), epoch := 1 } [2] [3] rfl).2.2.2
      1 [] 0 none (empty16.set 3 (some (.value true [9]))) 3 [16] [5] 5
      rfl (by omega) (by omega) rfl

end ITrie

namespace ITrie

/-! ## Delete preserves the structural invariants -/

theorem findIdx?_some_getD (l : List (Option Node)) :
    ∀ i, l.findIdx? (·.isSome) = some i →
      i < l.length ∧ (l.getD i none).isSome = true := by
  induction l with
  | nil => intro i h; simp [List.findIdx?] at h
  | cons c cs ih =>
    intro i h
    cases c with
    | some x =>
      simp [List.findIdx?_cons] at h
      subst h
      exact ⟨by simp, by simp [List.getD]⟩
    | none =>
      simp [List.findIdx?_cons] at h
      obtain ⟨j, hj, hji⟩ := h
      obtain ⟨h1, h2⟩ := ih j hj
      subst hji
      exact ⟨by simpa using h1, by simpa [List.getD] using h2⟩

/-- Prepending nibbles below 16 to a well-formed Short keeps it well-formed
(the key-merge step of delete). -/
theorem wfc_merge (sh2 : List Nat) (pre skey : List Nat) (sc : Option Node)
    (hw : wfc (some (.short sh2 skey sc)) = true)
    (hp1 : pre ≠ []) (hp2 : ∀ x ∈ pre, x < 16) :
    wfc (some (.short [] (pre ++ skey) sc)) = true := by
  rcases wfc_short_shape sh2 skey sc hw with ⟨w, rfl, hkt⟩ | ⟨a, b, c, d, rfl, hk1, hk2, hwf⟩
  · simp only [wfc]
    exact isTerm_append hp2 hkt
  · simp only [wfc, Bool.and_eq_true, decide_eq_true_eq, List.all_eq_true]
    refine ⟨⟨by simp [hp1], ?_⟩, hwf⟩
    intro x hx
    rcases List.mem_append.mp hx with hx | hx
    · exact hp2 x hx
    · exact hk2 x hx

/-- A single nibble over a well-formed Full child is a well-formed Short. -/
theorem wfc_short_over_full (i : Nat) (hi : i < 16) (a : List Nat) (b : Nat)
    (c : Option Node) (d : List (Option Node)) (hwf : wff (.full a b c d) = true) :
    wfc (some (.short [] [i] (some (.full a b c d)))) = true := by
  simp only [wfc, Bool.and_eq_true, decide_eq_true_eq, List.all_eq_true]
  refine ⟨⟨by simp, ?_⟩, hwf⟩
  intro x hx
  simp only [List.mem_singleton] at hx
  subst hx
  exact hi

/-- Node-level delete on a well-formed trie with a terminated search string
returns a well-formed node. -/
theorem del_wf (st : Storage) :
    ∀ f t s r b, wfc t = true → isTerm s = true →
      del st f t s = .ok (r, b) → wfc r = true := by
  intro f
  induction f with
  | zero => intro t s r b _ _ h; simp [del] at h
  | succ f ih =>
    intro t s r b hw hs h
    match t with
    | none =>
      simp only [del, Res.ok.injEq, Prod.mk.injEq] at h
      rw [← h.1]
      simp [wfc]
    | some (.value hh buf) => simp [wfc] at hw
    | some (.short sh key child) =>
      rw [del] at h
      by_cases h1 : prefixLen s key = s.length
      · rw [if_pos h1] at h
        cases h
        simp [wfc]
      · rw [if_neg h1] at h
        by_cases h0 : prefixLen s key = 0
        · rw [if_pos h0] at h
          cases h
          simp [wfc]
        · rw [if_neg h0] at h
          obtain ⟨co, hrec, hcont⟩ := Res.bind_eq_ok h
          have hplt : prefixLen s key < s.length :=
            lt_of_le_of_ne (prefixLen_le_left s key) h1
          have hs' : isTerm (s.drop (prefixLen s key)) = true := isTerm_drop hs hplt
          rcases wfc_short_shape sh key child hw with ⟨w, hcw, hkt⟩ |
            ⟨a2, b2, c2, d2, hcw, hk1, hk2, hwf⟩
          · subst hcw
            match f, hrec with
            | 0, hrec => simp [del] at hrec
            | f' + 1, hrec =>
              rw [del] at hrec
              rw [if_neg (by simp)] at hrec
              rw [if_neg (isTerm_ne_nil hs')] at hrec
              cases hrec
              rw [if_neg (by simp)] at hcont
              cases hcont
              simp [wfc]
          · subst hcw
            have hwc : wfc (some (.full a2 b2 c2 d2)) = true := by
              simpa [wfc] using hwf
            have hco : wfc co.1 = true := ih _ _ co.1 co.2 hwc hs' hrec
            by_cases hb2 : co.2 = true
            · rw [if_pos hb2] at hcont
              match hc1 : co.1, hco, hcont with
              | none, _, hcont =>
                cases hcont
                simp [wfc]
              | some (.value hv bv), hco, _ => simp [wfc] at hco
              | some (.short sh2 skey sc), hco, hcont =>
                cases hcont
                exact wfc_merge sh2 key skey sc hco hk1 hk2
              | some (.full e1 e2 e3 e4), hco, hcont =>
                cases hcont
                simp only [wfc, Bool.and_eq_true, decide_eq_true_eq, List.all_eq_true]
                refine ⟨⟨hk1, fun x hx => hk2 x hx⟩, by simpa [wfc] using hco⟩
            · rw [if_neg hb2] at hcont
              cases hcont
              simp [wfc]
    | some (.full fh fep v ch) =>
      have hwf : wff (.full fh fep v ch) = true := by simpa [wfc] using hw
      obtain ⟨hlen, hwl, hwv, hcnt⟩ := wff_elim hwf
      match s, hs with
      | k :: rest, hs =>
        rw [del] at h
        have hk16 : k ≤ 16 := isTerm_le16 hs k (by simp)
        rw [if_neg (by omega)] at h
        obtain ⟨co, hrec, hcont⟩ := Res.bind_eq_ok h
        by_cases hk : k = 16
        · subst hk
          have hrest : rest = [] := by
            rcases isTerm_cons_elim hs with ⟨_, hr⟩ | ⟨hlt, _⟩
            · exact hr
            · omega
          subst hrest
          have hget : fullGetEdge v ch 16 = v := by simp [fullGetEdge]
          rw [hget] at hrec
          have hco1 : co.1 = none ∧ (co.2 = true → v.isSome = true) := by
            match hv : v, hwv, hrec with
            | none, _, hrec =>
              match f, hrec with
              | 0, hrec => simp [del] at hrec
              | f' + 1, hrec =>
                simp only [del, Res.ok.injEq] at hrec
                rw [← hrec]
                exact ⟨rfl, by intro hcon; simp at hcon⟩
            | some (.value false w), _, hrec =>
              match f, hrec with
              | 0, hrec => simp [del] at hrec
              | f' + 1, hrec =>
                rw [del] at hrec
                rw [if_neg (by simp), if_pos rfl] at hrec
                cases hrec
                exact ⟨rfl, fun _ => rfl⟩
            | some (.value true w), hwv, _ => simp [wfv] at hwv
            | some (.short x y z), hwv, _ => simp [wfv] at hwv
            | some (.full x y z u), hwv, _ => simp [wfv] at hwv
          by_cases hb2 : co.2 = true
          · rw [if_pos hb2] at hcont
            have hfse : fullSetEdge v ch 16 (none : Option Node) = (none, ch) := by
              simp [fullSetEdge]
            simp only [hco1.1, hfse] at hcont
            by_cases h2 : 2 ≤ ch.countP (·.isSome)
            · rw [if_pos (Or.inl h2)] at hcont
              cases hcont
              simp only [wfc]
              exact wff_intro [] fep none ch hlen hwl (by simp [wfv]) (by simpa using h2)
            · rw [if_neg (by simp [h2])] at hcont
              split at hcont
              · cases hcont
                simp [wfc]
              · next i hidx =>
                obtain ⟨hilt, hisome⟩ := findIdx?_some_getD ch i hidx
                have hi16 : i < 16 := by omega
                obtain ⟨nn, hslot⟩ : ∃ nn, ch.getD i none = some nn := by
                  cases hx : ch.getD i none
                  · rw [hx] at hisome
                    simp at hisome
                  · exact ⟨_, rfl⟩
                have hwi : wfc (some nn) = true := by
                  rw [← hslot]
                  exact wfl_getD hwl i
                rw [hslot] at hcont
                cases nn with
                | value hv bv => simp [wfc] at hwi
                | short sh2 skey sc =>
                  cases hcont
                  exact wfc_merge sh2 [i] skey sc hwi (by simp)
                    (by intro x hx; simp at hx; omega)
                | full e1 e2 e3 e4 =>
                  cases hcont
                  exact wfc_short_over_full i (by omega) e1 e2 e3 e4
                    (by simpa [wfc] using hwi)
          · rw [if_neg hb2] at hcont
            cases hcont
            simp [wfc]
        · have hkrest : k < 16 ∧ isTerm rest = true := by
            rcases isTerm_cons_elim hs with ⟨h16, _⟩ | ⟨hlt, ht⟩
            · exact absurd h16 hk
            · exact ⟨hlt, ht⟩
          have hget : fullGetEdge v ch k = ch.getD k none := by
            simp [fullGetEdge, if_neg hk]
          rw [hget] at hrec
          have hco : wfc co.1 = true :=
            ih _ _ co.1 co.2 (wfl_getD hwl k) hkrest.2 hrec
          by_cases hb2 : co.2 = true
          · rw [if_pos hb2] at hcont
            have hfse : fullSetEdge v ch k co.1 = (v, ch.set k co.1) := by
              simp [fullSetEdge, hk]
            simp only [hfse] at hcont
            have hlen' : (ch.set k co.1).length = 16 := by simpa using hlen
            have hwl' : wfl (ch.set k co.1) = true := wfl_set hwl hco k
            by_cases h2 : 2 ≤ (ch.set k co.1).countP (·.isSome)
            · rw [if_pos (Or.inl h2)] at hcont
              cases hcont
              simp only [wfc]
              exact wff_intro [] fep v (ch.set k co.1) hlen' hwl' hwv (by omega)
            · by_cases hvs : v.isSome = true
              · cases hidx : (ch.set k co.1).findIdx? (·.isSome) with
                | some i =>
                  rw [if_pos (Or.inr ⟨by rw [hidx]; rfl, hvs⟩)] at hcont
                  cases hcont
                  simp only [wfc]
                  refine wff_intro [] fep v (ch.set k co.1) hlen' hwl' hwv ?_
                  have hpos : 0 < (ch.set k co.1).countP (·.isSome) := by
                    rw [← findIdx?_isSome_iff, hidx]
                    rfl
                  rw [if_pos hvs]
                  omega
                | none =>
                  rw [if_neg (by rw [hidx]; simp [h2])] at hcont
                  rw [hidx] at hcont
                  match hv : v, hwv, hvs, hcont with
                  | some (.value false w), _, _, hcont =>
                    cases hcont
                    simp [wfc]
                  | none, _, hvs, _ => simp at hvs
                  | some (.value true w), hwv, _, _ => simp [wfv] at hwv
                  | some (.short x y z), hwv, _, _ => simp [wfv] at hwv
                  | some (.full x y z u), hwv, _, _ => simp [wfv] at hwv
              · rw [if_neg (by simp [h2, hvs])] at hcont
                split at hcont
                · match hv : v, hwv, hvs, hcont with
                  | none, _, _, hcont =>
                    cases hcont
                    simp [wfc]
                  | some nv, _, hvs, _ => simp at hvs
                · next i hidx =>
                  obtain ⟨hilt, hisome⟩ := findIdx?_some_getD (ch.set k co.1) i hidx
                  have hi16 : i < 16 := by
                    have hl2 := hlen'
                    omega
                  obtain ⟨nn, hslot⟩ : ∃ nn, (ch.set k co.1).getD i none = some nn := by
                    cases hx : (ch.set k co.1).getD i none
                    · rw [hx] at hisome
                      simp at hisome
                    · exact ⟨_, rfl⟩
                  have hwi : wfc (some nn) = true := by
                    rw [← hslot]
                    exact wfl_getD hwl' i
                  rw [hslot] at hcont
                  cases nn with
                  | value hv bv => simp [wfc] at hwi
                  | short sh2 skey sc =>
                    cases hcont
                    exact wfc_merge sh2 [i] skey sc hwi (by simp)
                      (by intro x hx; simp at hx; omega)
                  | full e1 e2 e3 e4 =>
                    cases hcont
                    exact wfc_short_over_full i (by omega) e1 e2 e3 e4
                      (by simpa [wfc] using hwi)
          · rw [if_neg hb2] at hcont
            cases hcont
            simp [wfc]

end ITrie

namespace ITrie

/-- Child is not a Short node (claim-level side condition). -/
def notShort : Option Node → Bool
  | some (.short _ _ _) => false
  | _ => true

mutual

/-- The structural invariants exactly as the claim states them: no Short
node with an empty nibble key, every Full node with at least 2 non-empty
slots among its 17 positions, and no Short node whose child is a Short. -/
def invOK : Option Node → Bool
  | none => true
  | some (.value _ _) => true
  | some (.short _ key child) =>
    (decide (key ≠ []) && notShort child) && invOK child
  | some (.full _ _ v ch) =>
    (decide (2 ≤ ch.countP (·.isSome) + (if v.isSome then 1 else 0)) && invOK v) && invl ch

/-- All slots of a list satisfy the invariants. -/
def invl : List (Option Node) → Bool
  | [] => true
  | c :: cs => invOK c && invl cs

end

/-- The development's well-formedness predicate implies the claim's
structural invariants. -/
theorem wfc_invOK (n : Option Node) (hw : wfc n = true) : invOK n = true := by
  refine wfc.induct (fun n => wfc n = true → invOK n = true)
    (fun nd => wff nd = true → invOK (some nd) = true)
    (fun ch => wfl ch = true → invl ch = true) ?_ ?_ ?_ ?_ ?_ ?_ ?_ ?_ ?_ ?_ n hw
  · intro h ep v ch ih hw
    obtain ⟨hlen, hwl, hwv, hcnt⟩ := wff_elim hw
    simp only [invOK, Bool.and_eq_true, decide_eq_true_eq]
    refine ⟨⟨hcnt, ?_⟩, ih hwl⟩
    match v, hwv with
    | none, _ => simp [invOK]
    | some (.value false b), _ => simp [invOK]
    | some (.value true b), hwv => simp [wfv] at hwv
    | some (.short a b c), hwv => simp [wfv] at hwv
    | some (.full a b c d), hwv => simp [wfv] at hwv
  · intro nd hnot hw
    match nd, hw with
    | .full h ep v ch, hw => exact absurd rfl (hnot h ep v ch)
    | .value _ _, hw => simp [wff] at hw
    | .short _ _ _, hw => simp [wff] at hw
  · intro _
    simp [invOK]
  · intro hsh buf hw
    simp [wfc] at hw
  · intro hash key buf hw
    have hkey : isTerm key = true := by simpa [wfc] using hw
    simp [invOK, notShort, isTerm_ne_nil hkey]
  · intro hash key h ep v ch ih hw
    simp only [wfc, Bool.and_eq_true, decide_eq_true_eq] at hw
    simp [invOK, notShort, ih hw.2, hw.1.1]
  · intro hash key child h1 h2 hw
    match child, hw with
    | none, hw => simp [wfc] at hw
    | some (.value false b), hw => exact absurd rfl (h1 b)
    | some (.value true b), hw => simp [wfc] at hw
    | some (.short a b c), hw => simp [wfc] at hw
    | some (.full a b c d), hw => exact absurd rfl (h2 a b c d)
  · intro h ep v ch ih hw
    simp only [wfc] at hw
    exact ih hw
  · intro _
    simp [invl]
  · intro c cs ih1 ih2 hw
    simp only [wfl, Bool.and_eq_true] at hw
    simp only [invl, Bool.and_eq_true]
    exact ⟨ih1 hw.1, ih2 hw.2⟩

/-- A transaction operation: `Txn.Insert` or `Txn.Delete` with byte keys. -/
inductive Op where
  | insert (k v : List Nat)
  | delete (k : List Nat)

/-- The byte key an operation touches. -/
def Op.key : Op → List Nat
  | .insert k _ => k
  | .delete k => k

/-- Run a sequence of operations on a transaction. -/
def applyOps (st : Storage) (f : Nat) : List Op → Txn → Res Txn
  | [], t => .ok t
  | .insert k v :: ops, t => (Txn.insertK st f t k v).bind (applyOps st f ops)
  | .delete k :: ops, t => (Txn.deleteK st f t k).bind (applyOps st f ops)

/-- `Txn.Insert` preserves well-formedness of the root. -/
theorem insertK_wf (st : Storage) (f : Nat) (t : Txn) (k v : List Nat) (t1 : Txn)
    (hw : wfc t.root = true) (hk : ∀ b ∈ k, b < 256)
    (h : Txn.insertK st f t k v = .ok t1) : wfc t1.root = true := by
  rw [Txn.insertK] at h
  obtain ⟨root, hroot, hok⟩ := Res.bind_eq_ok h
  obtain ⟨n, rfl, hwn, _, _⟩ :=
    insert_den st t.epoch f t.root (keybytesToHex k) v root hw (isTerm_keybytes hk) hroot
  simp only [Option.isSome_some, if_true, Res.ok.injEq] at hok
  subst hok
  exact hwn

/-- `Txn.Delete` preserves well-formedness of the root. -/
theorem deleteK_wf (st : Storage) (f : Nat) (t : Txn) (k : List Nat) (t1 : Txn)
    (hw : wfc t.root = true) (hk : ∀ b ∈ k, b < 256)
    (h : Txn.deleteK st f t k = .ok t1) : wfc t1.root = true := by
  rw [Txn.deleteK] at h
  obtain ⟨co, hrec, hok⟩ := Res.bind_eq_ok h
  have hwr : wfc co.1 = true :=
    del_wf st f t.root (keybytesToHex k) co.1 co.2 hw (isTerm_keybytes hk) hrec
  simp only [Res.ok.injEq] at hok
  by_cases hb : co.2 = true
  · rw [if_pos hb] at hok
    subst hok
    exact hwr
  · rw [if_neg hb] at hok
    subst hok
    exact hw

/-- Any operation sequence keeps the root well-formed. -/
theorem applyOps_wf (st : Storage) (f : Nat) :
    ∀ ops (t t1 : Txn), wfc t.root = true →
      (∀ op ∈ ops, ∀ b ∈ Op.key op, b < 256) →
      applyOps st f ops t = .ok t1 → wfc t1.root = true := by
  intro ops
  induction ops with
  | nil =>
    intro t t1 hw _ h
    simp only [applyOps, Res.ok.injEq] at h
    rw [← h]
    exact hw
  | cons op ops ih =>
    intro t t1 hw hk h
    match op, hk, h with
    | .insert k v, hk, h =>
      simp only [applyOps] at h
      obtain ⟨t2, h1, h2⟩ := Res.bind_eq_ok h
      have hkk : ∀ b ∈ k, b < 256 := by
        simpa [Op.key] using hk (.insert k v) (by simp)
      exact ih t2 t1 (insertK_wf st f t k v t2 hw hkk h1)
        (fun op hop => hk op (by simp [hop])) h2
    | .delete k, hk, h =>
      simp only [applyOps] at h
      obtain ⟨t2, h1, h2⟩ := Res.bind_eq_ok h
      have hkk : ∀ b ∈ k, b < 256 := by
        simpa [Op.key] using hk (.delete k) (by simp)
      exact ih t2 t1 (deleteK_wf st f t k t2 hw hkk h1)
        (fun op hop => hk op (by simp [hop])) h2

end ITrie

namespace ITrie

/-- C6: every trie reachable from the empty trie by sequences of
`Txn.Insert` and `Txn.Delete` (byte keys) satisfies the structural
invariants: no Short node has an empty nibble key, no Full node has fewer
than 2 non-empty slots among its 17 positions, and no Short node's child
is another Short node. -/
theorem C6_structural_invariants (st : Storage) (f : Nat) (ops : List Op) (t1 : Txn)
    (hk : ∀ op ∈ ops, ∀ b ∈ Op.key op, b < 256)
    (h : applyOps st f ops (Trie.txn newTrie) = .ok t1) :
    invOK t1.root = true :=
  wfc_invOK _ (applyOps_wf st f ops (Trie.txn newTrie) t1
    (by simp [Trie.txn, newTrie, wfc]) hk h)

/-- Witness for C6: two inserts and a delete from the empty trie. -/
theorem C6_structural_invariants_witness :
    ∃ t1, applyOps emptyStore 10
        [Op.insert [18] [5], Op.insert [35] [7], Op.delete [18]]
        (Trie.txn newTrie) = .ok t1 ∧ invOK t1.root = true := by
  refine ⟨_, rfl, ?_⟩
  exact C6_structural_invariants emptyStore 10
    [Op.insert [18] [5], Op.insert [35] [7], Op.delete [18]] _ (by decide) rfl

end ITrie

namespace ITrie

/-! ## Heap model

The Go nodes are pointer-linked mutable objects.  To settle the claims
about mutation of committed nodes (snapshot isolation) and about lookup's
freedom from side effects, the same functions are translated again over an
explicit heap: a cell is a node whose children are heap addresses, the
heap is the list of all allocated cells, allocation appends, and the Go
field assignments (`n.hash = n.hash[:0]`, `n.child = child`,
`n.setEdge(k, c)`, `obj.key = concat(...)`) become `List.set` at the
node's address.  Hash-resolution decodes fresh objects outside the node
graph; the decoded tree is run through the functional code and its result
materialised by allocation, which mirrors Go's freshly decoded objects. -/

/-- A heap cell: a node whose links are heap addresses. -/
inductive Cell where
  | value (hash : Bool) (buf : List Nat)
  | short (hash : List Nat) (key : List Nat) (child : Option Nat)
  | full (hash : List Nat) (epoch : Nat) (value : Option Nat)
      (children : List (Option Nat))
deriving DecidableEq

/-- The heap: all allocated cells, addressed by position. -/
abbrev Heap := List Cell

/-- Dereference an address. -/
def getCell (h : Heap) (a : Nat) : Option Cell := h[a]?

/-- Allocate a fresh cell at the end of the heap. -/
def alloc (h : Heap) (c : Cell) : Heap × Nat := (List.append h [c], List.length h)

/-- Overwrite the cell at an address (a Go field assignment). -/
def setCell (h : Heap) (a : Nat) (c : Cell) : Heap := List.set h a c

/-- `FullNode.getEdge` over addresses. -/
def fullGetEdgeP (v : Option Nat) (ch : List (Option Nat)) (i : Nat) : Option Nat :=
  if i = 16 then v else ch.getD i none

/-- `FullNode.setEdge`/`replaceEdge` over addresses. -/
def fullSetEdgeP (v : Option Nat) (ch : List (Option Nat)) (i : Nat) (e : Option Nat) :
    Option Nat × List (Option Nat) :=
  if i = 16 then (e, ch) else (v, ch.set i e)

/-- Sixteen empty child slots. -/
def empty16P : List (Option Nat) := List.replicate 16 none

mutual

/-- Materialise a freshly decoded functional node into the heap (Go's
decoded objects are fresh allocations). -/
def allocN : Heap → Option Node → Heap × Option Nat
  | h, none => (h, none)
  | h, some (.value hb buf) =>
    let p := alloc h (.value hb buf)
    (p.1, some p.2)
  | h, some (.short sh key c) =>
    let p := allocN h c
    let q := alloc p.1 (.short sh key p.2)
    (q.1, some q.2)
  | h, some (.full sh ep v ch) =>
    let p := allocN h v
    let q := allocL p.1 ch
    let w := alloc q.1 (.full sh ep p.2 q.2)
    (w.1, some w.2)

/-- Materialise a list of decoded children. -/
def allocL : Heap → List (Option Node) → Heap × List (Option Nat)
  | h, [] => (h, [])
  | h, c :: cs =>
    let p := allocN h c
    let q := allocL p.1 cs
    (q.1, p.2 :: q.2)

end

/-- `Txn.lookup` over the heap.  The heap is threaded and returned exactly
as the Go code does with its receiver; no branch writes to it. -/
def lookupH (st : Storage) : Nat → Heap → Option Nat → List Nat →
    Res (Heap × Option (List Nat))
  | 0, _, _, _ => .oom
  | _ + 1, h, none, _ => .ok (h, none)
  | f + 1, h, some a, key =>
    match getCell h a with
    | none => .err
    | some (.value hb buf) =>
      if hb then
        match st buf with
        | .ioErr => .err
        | .absent => .ok (h, none)
        | .found nc => (lookup st f (some nc) key).bind fun r => .ok (h, r)
      else if key = [] then .ok (h, some buf) else .ok (h, none)
    | some (.short _ skey child) =>
      if skey.length > key.length ∨ ¬ key.take skey.length = skey then .ok (h, none)
      else lookupH st f h child (key.drop skey.length)
    | some (.full _ _ v ch) =>
      match key with
      | [] => lookupH st f h v []
      | k :: rest =>
        if 16 < k then .err else lookupH st f h (fullGetEdgeP v ch k) rest

/-- `Txn.insert` over the heap.  `writeNode` keeps the same address when
the epochs agree (the node is then mutated in place) and otherwise
allocates a shallow clone; all other node constructions are fresh
allocations, exactly as in the Go code. -/
def insertH (st : Storage) (ep : Nat) : Nat → Heap → Option Nat → List Nat → List Nat →
    Res (Heap × Option Nat)
  | 0, _, _, _, _ => .oom
  | f + 1, h, none, search, value =>
    match search with
    | [] =>
      let p := alloc h (.value false value)
      .ok (p.1, some p.2)
    | _ :: _ =>
      (insertH st ep f h none [] value).bind fun pr =>
      let q := alloc pr.1 (.short [] search pr.2)
      .ok (q.1, some q.2)
  | f + 1, h, some a, search, value =>
    match getCell h a with
    | none => .err
    | some (.value hb buf) =>
      if hb then
        match st buf with
        | .ioErr => .err
        | .absent => .ok (h, none)
        | .found nc =>
          (insert st ep f (some nc) search value).bind fun r =>
          let p := allocN h r
          .ok (p.1, p.2)
      else
        match search with
        | [] =>
          let p := alloc h (.value false value)
          .ok (p.1, some p.2)
        | _ :: _ =>
          let p := alloc h (.full [] ep (some a) empty16P)
          insertH st ep f p.1 (some p.2) search value
    | some (.short _ key child) =>
      let plen := prefixLen search key
      if plen = key.length then
        (insertH st ep f h child (search.drop plen) value).bind fun pr =>
        let q := alloc pr.1 (.short [] key pr.2)
        .ok (q.1, some q.2)
      else
        (if key.length > plen + 1 then
          let e := alloc h (.short [] (key.drop (plen + 1)) child)
          .ok (e.1, some e.2)
        else (.ok (h, child) : Res (Heap × Option Nat))).bind fun pe =>
        let b := fullSetEdgeP none empty16P (key.getD plen 0) pe.2
        let q := alloc pe.1 (.full [] ep b.1 b.2)
        (insertH st ep f q.1 (some q.2) (search.drop plen) value).bind fun pr =>
        if plen = 0 then .ok (pr.1, pr.2)
        else
          let w := alloc pr.1 (.short [] (search.take plen) pr.2)
          .ok (w.1, some w.2)
    | some (.full _ fep v ch) =>
      (if ep = fep then (.ok (h, a) : Res (Heap × Nat))
       else
        let c := alloc h (.full [] ep v ch)
        .ok (c.1, c.2)).bind fun wb =>
      match search with
      | [] =>
        (insertH st ep f wb.1 v [] value).bind fun pr =>
        match getCell pr.1 wb.2 with
        | some (.full sh2 ep2 _ ch2) =>
          .ok (setCell pr.1 wb.2 (.full sh2 ep2 pr.2 ch2), some wb.2)
        | _ => .err
      | k :: rest =>
        if 16 < k then .err else
        (insertH st ep f wb.1 (fullGetEdgeP v ch k) rest value).bind fun pr =>
        match getCell pr.1 wb.2 with
        | some (.full sh2 ep2 v2 ch2) =>
          let s := fullSetEdgeP v2 ch2 k pr.2
          .ok (setCell pr.1 wb.2 (.full sh2 ep2 s.1 s.2), some wb.2)
        | _ => .err

/-- `Txn.delete` over the heap.  The Go code clears the cached hash of
every Short and Full node it enters, rewrites the child field of a kept
Short, rewrites the touched slot of a Full in place with no epoch check,
and rewrites the key of a surviving Short child when collapsing — all
mutations of the existing cells, translated as `setCell` at the node's
own address. -/
def deleteH (st : Storage) : Nat → Heap → Option Nat → List Nat →
    Res (Heap × Option Nat × Bool)
  | 0, _, _, _ => .oom
  | _ + 1, h, none, _ => .ok (h, none, false)
  | f + 1, h, some a, search =>
    match getCell h a with
    | none => .err
    | some (.short _ key child) =>
      let h1 := setCell h a (.short [] key child)
      let plen := prefixLen search key
      if plen = search.length then .ok (h1, none, true)
      else if plen = 0 then .ok (h1, none, false)
      else
        (deleteH st f h1 child (search.drop plen)).bind fun pr =>
        let h2 := pr.1
        if pr.2.2 then
          match pr.2.1 with
          | none => .ok (h2, none, true)
          | some ca =>
            match getCell h2 ca with
            | none => .err
            | some (.short _ skey schild) =>
              match getCell h2 a with
              | some (.short _ key2 _) =>
                let q := alloc h2 (.short [] (concat key2 skey) schild)
                .ok (q.1, some q.2, true)
              | _ => .err
            | some _ =>
              match getCell h2 a with
              | some (.short sh2 key2 _) =>
                .ok (setCell h2 a (.short sh2 key2 (some ca)), some a, true)
              | _ => .err
        else .ok (h2, none, false)
    | some (.value hb buf) =>
      if hb then
        match st buf with
        | .ioErr => .err
        | .absent => .ok (h, none, false)
        | .found nc =>
          (del st f (some nc) search).bind fun co =>
          let p := allocN h co.1
          .ok (p.1, p.2, co.2)
      else if search ≠ [] then .ok (h, none, false) else .ok (h, none, true)
    | some (.full _ fep v ch) =>
      let h1 := setCell h a (.full [] fep v ch)
      match search with
      | [] => .err
      | k :: rest =>
        if 16 < k then .err else
        (deleteH st f h1 (fullGetEdgeP v ch k) rest).bind fun pr =>
        let h2 := pr.1
        if pr.2.2 then
          match getCell h2 a with
          | some (.full sh2 ep2 v2 ch2) =>
            let s := fullSetEdgeP v2 ch2 k pr.2.1
            let h3 := setCell h2 a (.full sh2 ep2 s.1 s.2)
            let indx := s.2.findIdx? (·.isSome)
            let notEmpty :=
              2 ≤ s.2.countP (·.isSome) ∨ (indx.isSome ∧ s.1.isSome)
            if notEmpty then .ok (h3, some a, true)
            else
              match indx with
              | none =>
                match s.1 with
                | none => .ok (h3, none, true)
                | some va =>
                  let q := alloc h3 (.short [] [16] (some va))
                  .ok (q.1, some q.2, true)
              | some i =>
                match s.2.getD i none with
                | none =>
                  let q := alloc h3 (.short [] [i] none)
                  .ok (q.1, some q.2, true)
                | some nca =>
                  match getCell h3 nca with
                  | none => .err
                  | some (.value true hbuf) =>
                    match st hbuf with
                    | .ioErr => .err
                    | .absent => .ok (h3, none, false)
                    | .found aux =>
                      match aux with
                      | .short _ skey schild =>
                        let pa := allocN h3 schild
                        let q := alloc pa.1 (.short [] (concat [i] skey) pa.2)
                        .ok (q.1, some q.2, true)
                      | aux2 =>
                        let pa := allocN h3 (some aux2)
                        let q := alloc pa.1 (.short [] [i] pa.2)
                        .ok (q.1, some q.2, true)
                  | some (.short _ skey schild) =>
                    let h4 := setCell h3 nca (.short [] (concat [i] skey) schild)
                    .ok (h4, some nca, true)
                  | some _ =>
                    let q := alloc h3 (.short [] [i] (some nca))
                    .ok (q.1, some q.2, true)
          | _ => .err
        else .ok (h2, none, false)

/-- A transaction over the heap model: root address and epoch. -/
structure TxnH where
  root : Option Nat
  epoch : Nat
deriving DecidableEq

/-- `Txn.Lookup` over the heap. -/
def TxnH.lookupKH (st : Storage) (f : Nat) (h : Heap) (t : TxnH) (k : List Nat) :
    Res (Heap × Option (List Nat)) :=
  lookupH st f h t.root (keybytesToHex k)

/-- `Txn.Insert` over the heap. -/
def TxnH.insertKH (st : Storage) (f : Nat) (h : Heap) (t : TxnH) (k v : List Nat) :
    Res (Heap × TxnH) :=
  (insertH st t.epoch f h t.root (keybytesToHex k) v).bind fun pr =>
  .ok (pr.1, if pr.2.isSome then { t with root := pr.2 } else t)

/-- `Txn.Delete` over the heap. -/
def TxnH.deleteKH (st : Storage) (f : Nat) (h : Heap) (t : TxnH) (k : List Nat) :
    Res (Heap × TxnH) :=
  (deleteH st f h t.root (keybytesToHex k)).bind fun pr =>
  .ok (pr.1, if pr.2.2 then { t with root := pr.2.1 } else t)

end ITrie

namespace ITrie

/-- The heap-level lookup never changes the heap: every completed lookup
returns exactly the heap it was given. -/
theorem lookupH_heap (st : Storage) :
    ∀ f h a key h' r, lookupH st f h a key = .ok (h', r) → h' = h := by
  intro f
  induction f with
  | zero =>
    intro h a key h' r hk
    simp [lookupH] at hk
  | succ f ih =>
    intro h a key h' r hk
    match a with
    | none =>
      rw [lookupH] at hk
      cases hk
      rfl
    | some a0 =>
      rw [lookupH] at hk
      split at hk
      · cases hk
      · split at hk
        · split at hk
          · cases hk
          · cases hk
            rfl
          · obtain ⟨r0, _, h2⟩ := Res.bind_eq_ok hk
            cases h2
            rfl
        · split at hk
          · cases hk
            rfl
          · cases hk
            rfl
      · split at hk
        · cases hk
          rfl
        · exact ih _ _ _ _ _ hk
      · split at hk
        · exact ih _ _ _ _ _ hk
        · split at hk
          · cases hk
          · exact ih _ _ _ _ _ hk

end ITrie

namespace ITrie

/-- C9: `Txn.Lookup` never modifies the trie: a completed lookup returns
the heap unchanged, and after any interleaved lookup of another key,
repeating the original lookup yields the same heap and the same result. -/
theorem C9_lookup_pure (st : Storage) (f : Nat) (h : Heap) (t : TxnH) (k : List Nat) :
    (∀ h' r, TxnH.lookupKH st f h t k = .ok (h', r) → h' = h) ∧
    (∀ h' r k2 h2 r2 h3 r3, TxnH.lookupKH st f h t k = .ok (h', r) →
      TxnH.lookupKH st f h' t k2 = .ok (h2, r2) →
      TxnH.lookupKH st f h2 t k = .ok (h3, r3) → h3 = h ∧ r3 = r) := by
  constructor
  · intro h' r hk
    exact lookupH_heap st f h t.root (keybytesToHex k) h' r hk
  · intro h' r k2 h2 r2 h3 r3 hk1 hk2 hk3
    have e1 : h' = h := lookupH_heap st f h t.root (keybytesToHex k) h' r hk1
    subst e1
    have e2 : h2 = h' := lookupH_heap st f h' t.root (keybytesToHex k2) h2 r2 hk2
    subst e2
    have e3 : h3 = h2 := lookupH_heap st f h2 t.root (keybytesToHex k) h3 r3 hk3
    subst e3
    rw [hk1] at hk3
    cases hk3
    exact ⟨rfl, rfl⟩

/-- A concrete committed two-key trie in the heap model: byte key 0x12 maps
to 0xAA through the Full root's edge 1, byte key 0x34 to 0xBB through
edge 3. -/
def demoHeap : Heap :=
  [ .value false [170],
    .short [] [2, 16] (some 0),
    .value false [187],
    .short [] [4, 16] (some 2),
    .full [] 1 none
      [none, some 1, none, some 3, none, none, none, none,
       none, none, none, none, none, none, none, none] ]

/-- Witness for C9 on the concrete heap: a lookup of 0x34, an interleaved
lookup of 0x12, and the repeated lookup of 0x34 all complete as stated. -/
theorem C9_lookup_pure_witness :
    TxnH.lookupKH emptyStore 10 demoHeap { root := some 4, epoch := 2 } [52] =
      .ok (demoHeap, some [187]) ∧
    TxnH.lookupKH emptyStore 10 demoHeap { root := some 4, epoch := 2 } [18] =
      .ok (demoHeap, some [170]) ∧
    ((demoHeap : Heap) = demoHeap ∧ (some [187] : Option (List Nat)) = some [187]) := by
  refine ⟨rfl, rfl, ?_⟩
  exact (C9_lookup_pure emptyStore 10 demoHeap { root := some 4, epoch := 2 } [52]).2
    demoHeap (some [187]) [18] demoHeap (some [170]) demoHeap (some [187]) rfl rfl rfl

end ITrie

namespace ITrie

/-- C2 counterexample: `Txn.Delete` on a transaction derived from the
committed trie `demoHeap` mutates nodes reachable from the committed
root in place — the Full root's slot 1 is cleared and the surviving Short
child's key is rewritten — so a lookup of byte key 0x34 through the old
committed root changes from 0xBB to nil. -/
theorem C2_delete_mutates_committed_nodes :
    TxnH.lookupKH emptyStore 10 demoHeap { root := some 4, epoch := 2 } [52] =
      .ok (demoHeap, some [187]) ∧
    (∃ h2 t2, TxnH.deleteKH emptyStore 10 demoHeap { root := some 4, epoch := 2 } [18] =
        .ok (h2, t2) ∧
      t2 = { root := some 3, epoch := 2 } ∧
      getCell h2 3 = some (.short [] [3, 4, 16] (some 2)) ∧
      ¬ getCell h2 3 = getCell demoHeap 3 ∧
      ¬ getCell h2 4 = getCell demoHeap 4 ∧
      TxnH.lookupKH emptyStore 10 h2 { root := some 4, epoch := 2 } [52] =
        .ok (h2, none) ∧
      TxnH.lookupKH emptyStore 10 h2 { root := some 4, epoch := 2 } [18] =
        .ok (h2, none)) := by
  refine ⟨rfl, _, _, rfl, rfl, rfl, by decide, by decide, rfl, rfl⟩

end ITrie

namespace ITrie

/-! ## Frame property of the heap-level insert

Old cells below a cut `N` survive an insert when no Full cell below `N`
carries the transaction's epoch (the epoch discipline: committed nodes
were written by older transactions). -/

theorem getElem?_append_lt {α : Type} :
    ∀ (l1 l2 : List α) (i : Nat), i < l1.length → (l1 ++ l2)[i]? = l1[i]? := by
  intro l1
  induction l1 with
  | nil =>
    intro l2 i hi
    simp at hi
  | cons x xs ih =>
    intro l2 i hi
    cases i with
    | zero => simp
    | succ j => simpa using ih l2 j (by simpa using hi)

theorem getElem?_set_ne {α : Type} :
    ∀ (l : List α) (a : Nat) (c : α) (i : Nat), ¬ i = a → (l.set a c)[i]? = l[i]? := by
  intro l
  induction l with
  | nil =>
    intro a c i h
    simp
  | cons x xs ih =>
    intro a c i h
    cases a with
    | zero =>
      cases i with
      | zero => exact absurd rfl h
      | succ j => simp [List.set]
    | succ b =>
      cases i with
      | zero => simp [List.set]
      | succ j =>
        simp only [List.set]
        simpa using ih b c j (fun hh => h (by rw [hh]))

/-- Cells below `N` unchanged and the heap still at least `N` long. -/
def framed (N : Nat) (h h' : Heap) : Prop :=
  (∀ i, i < N → getCell h' i = getCell h i) ∧ N ≤ List.length h'

/-- No Full cell below `N` carries epoch `ep`. -/
def epOK (N ep : Nat) (h : Heap) : Prop :=
  ∀ i, i < N → ∀ sh fe fv fch, getCell h i = some (.full sh fe fv fch) → ¬ fe = ep

theorem framed_refl (N : Nat) (h : Heap) (hN : N ≤ List.length h) : framed N h h :=
  ⟨fun _ _ => rfl, hN⟩

theorem framed_trans {N : Nat} {h1 h2 h3 : Heap}
    (f1 : framed N h1 h2) (f2 : framed N h2 h3) : framed N h1 h3 :=
  ⟨fun i hi => (f2.1 i hi).trans (f1.1 i hi), f2.2⟩

theorem framed_alloc (N : Nat) (h : Heap) (c : Cell) (hN : N ≤ List.length h) :
    framed N h (alloc h c).1 := by
  constructor
  · intro i hi
    exact getElem?_append_lt h [c] i (by omega)
  · simp [alloc]
    omega

theorem framed_set_ge {N : Nat} (h : Heap) (a : Nat) (c : Cell)
    (hN : N ≤ List.length h) (ha : N ≤ a) : framed N h (setCell h a c) := by
  constructor
  · intro i hi
    exact getElem?_set_ne h a c i (by omega)
  · simp [setCell]
    omega

theorem epOK_framed {N ep : Nat} {h h' : Heap} (he : epOK N ep h)
    (hf : framed N h h') : epOK N ep h' := by
  intro i hi sh fe fv fch hg
  exact he i hi sh fe fv fch ((hf.1 i hi).symm.trans hg)

/-- Materialising a decoded node only appends to the heap. -/
theorem allocN_ext (n : Option Node) (h : Heap) :
    ∃ ext, (allocN h n).1 = h ++ ext := by
  refine allocN.induct (fun h n => ∃ ext, (allocN h n).1 = h ++ ext)
    (fun h cs => ∃ ext, (allocL h cs).1 = h ++ ext) ?_ ?_ ?_ ?_ ?_ ?_ h n
  · intro h
    exact ⟨[], by simp [allocN]⟩
  · intro h hb buf
    exact ⟨[.value hb buf], by simp [allocN, alloc]⟩
  · intro h sh key c ih
    obtain ⟨e1, he1⟩ := ih
    refine ⟨e1 ++ [.short sh key (allocN h c).2], ?_⟩
    simp [allocN, alloc, he1]
  · intro h sh ep v ch p ih1 ih2
    obtain ⟨e1, he1⟩ := ih1
    obtain ⟨e2, he2⟩ := ih2
    have he2p : (allocL (allocN h v).1 ch).1 = (allocN h v).1 ++ e2 := he2
    rw [he1] at he2p
    have he2x : (allocL (h ++ e1) ch).1 = (h ++ e1) ++ e2 := he2p
    refine ⟨e1 ++ (e2 ++ [.full sh ep (allocN h v).2 (allocL (allocN h v).1 ch).2]), ?_⟩
    simp [allocN, alloc, he1, he2x]
  · intro h
    exact ⟨[], by simp [allocL]⟩
  · intro h c cs p ih1 ih2
    obtain ⟨e1, he1⟩ := ih1
    obtain ⟨e2, he2⟩ := ih2
    have he2p : (allocL (allocN h c).1 cs).1 = (allocN h c).1 ++ e2 := he2
    rw [he1] at he2p
    have he2x : (allocL (h ++ e1) cs).1 = (h ++ e1) ++ e2 := he2p
    refine ⟨e1 ++ e2, ?_⟩
    simp [allocL, he1, he2x]

theorem framed_allocN (N : Nat) (h : Heap) (n : Option Node)
    (hN : N ≤ List.length h) : framed N h (allocN h n).1 := by
  obtain ⟨ext, hext⟩ := allocN_ext n h
  rw [hext]
  constructor
  · intro i hi
    exact getElem?_append_lt h ext i (by omega)
  · simp
    omega

end ITrie

namespace ITrie

/-- One-step unfolding of `insertH` at a non-nil root (definitional). -/
theorem insertH_some_eq (st : Storage) (ep : Nat) (f : Nat) (h : Heap) (a : Nat)
    (search value : List Nat) :
    insertH st ep (f + 1) h (some a) search value =
      (match getCell h a with
      | none => .err
      | some (.value hb buf) =>
        if hb then
          match st buf with
          | .ioErr => .err
          | .absent => .ok (h, none)
          | .found nc =>
            (insert st ep f (some nc) search value).bind fun r =>
            let p := allocN h r
            .ok (p.1, p.2)
        else
          match search with
          | [] =>
            let p := alloc h (.value false value)
            .ok (p.1, some p.2)
          | _ :: _ =>
            let p := alloc h (.full [] ep (some a) empty16P)
            insertH st ep f p.1 (some p.2) search value
      | some (.short _ key child) =>
        let plen := prefixLen search key
        if plen = key.length then
          (insertH st ep f h child (search.drop plen) value).bind fun pr =>
          let q := alloc pr.1 (.short [] key pr.2)
          .ok (q.1, some q.2)
        else
          (if key.length > plen + 1 then
            let e := alloc h (.short [] (key.drop (plen + 1)) child)
            .ok (e.1, some e.2)
          else (.ok (h, child) : Res (Heap × Option Nat))).bind fun pe =>
          let b := fullSetEdgeP none empty16P (key.getD plen 0) pe.2
          let q := alloc pe.1 (.full [] ep b.1 b.2)
          (insertH st ep f q.1 (some q.2) (search.drop plen) value).bind fun pr =>
          if plen = 0 then .ok (pr.1, pr.2)
          else
            let w := alloc pr.1 (.short [] (search.take plen) pr.2)
            .ok (w.1, some w.2)
      | some (.full _ fep v ch) =>
        (if ep = fep then (.ok (h, a) : Res (Heap × Nat))
         else
          let c := alloc h (.full [] ep v ch)
          .ok (c.1, c.2)).bind fun wb =>
        match search with
        | [] =>
          (insertH st ep f wb.1 v [] value).bind fun pr =>
          match getCell pr.1 wb.2 with
          | some (.full sh2 ep2 _ ch2) =>
            .ok (setCell pr.1 wb.2 (.full sh2 ep2 pr.2 ch2), some wb.2)
          | _ => .err
        | k :: rest =>
          if 16 < k then .err else
          (insertH st ep f wb.1 (fullGetEdgeP v ch k) rest value).bind fun pr =>
          match getCell pr.1 wb.2 with
          | some (.full sh2 ep2 v2 ch2) =>
            let s := fullSetEdgeP v2 ch2 k pr.2
            .ok (setCell pr.1 wb.2 (.full sh2 ep2 s.1 s.2), some wb.2)
          | _ => .err : Res (Heap × Option Nat)) := rfl

/-- Completed heap-level inserts never touch a cell below `N` when no Full
cell below `N` carries the transaction epoch: old (committed) nodes are
only cloned, never mutated. -/
theorem insertH_frame (st : Storage) (ep : Nat) (N : Nat) :
    ∀ f h a s v,
      N ≤ List.length h → epOK N ep h →
      ∀ h' r, insertH st ep f h a s v = .ok (h', r) → framed N h h' := by
  intro f0 h0 a0 s0 v0
  induction f0, h0, a0, s0, v0 using insertH.induct st ep
  · intro _ _ h' r hins
    simp [insertH] at hins
  · intro hN hep h' r hins
    rw [insertH] at hins
    cases hins
    exact framed_alloc N _ _ hN
  · rename_i f h value b bs ih
    intro hN hep h' r hins
    rw [insertH] at hins
    obtain ⟨pr, h1, h2⟩ := Res.bind_eq_ok hins
    have f1 : framed N h pr.1 := ih hN hep pr.1 pr.2 h1
    cases h2
    exact framed_trans f1 (framed_alloc N pr.1 _ f1.2)
  · rename_i f h a search value hget
    intro hN hep h' r hins
    rw [insertH_some_eq] at hins
    simp only [hget] at hins
    cases hins
  · rename_i f h a search value buf hst hget
    intro hN hep h' r hins
    rw [insertH_some_eq] at hins
    simp only [hget, hst] at hins
    cases hins
  · rename_i f h a search value buf hst hget
    intro hN hep h' r hins
    rw [insertH_some_eq] at hins
    simp only [hget, hst] at hins
    cases hins
    exact framed_refl N _ hN
  · rename_i f h a search value buf nc hst hget
    intro hN hep h' r hins
    rw [insertH_some_eq] at hins
    simp only [hget, hst] at hins
    obtain ⟨r0, _, h2⟩ := Res.bind_eq_ok hins
    cases h2
    exact framed_allocN N h r0 hN
  · rename_i f h a value hb buf hget hnb
    intro hN hep h' r hins
    rw [insertH] at hins
    simp only [hget] at hins
    rw [if_neg hnb] at hins
    cases hins
    exact framed_alloc N h _ hN
  · rename_i f h a value hb buf hget hnb b bs p ih
    intro hN hep h' r hins
    rw [insertH] at hins
    simp only [hget] at hins
    rw [if_neg hnb] at hins
    have fp : framed N h p.1 := framed_alloc N h _ hN
    exact framed_trans fp (ih fp.2 (epOK_framed hep fp) h' r hins)
  · rename_i f h a search value hash skey child hget plen hpl ih
    intro hN hep h' r hins
    rw [insertH_some_eq] at hins
    simp only [hget] at hins
    rw [if_pos hpl] at hins
    obtain ⟨pr, h1, h2⟩ := Res.bind_eq_ok hins
    have f1 : framed N h pr.1 := ih hN hep pr.1 pr.2 h1
    cases h2
    exact framed_trans f1 (framed_alloc N pr.1 _ f1.2)
  · rename_i f h a search value hash skey child hget plen hplne ih
    intro hN hep h' r hins
    rw [insertH_some_eq] at hins
    simp only [hget] at hins
    rw [if_neg hplne] at hins
    obtain ⟨pe, hpe, h2⟩ := Res.bind_eq_ok hins
    have f0 : framed N h pe.1 := by
      by_cases hgt : skey.length > plen + 1
      · rw [if_pos hgt] at hpe
        cases hpe
        exact framed_alloc N h _ hN
      · rw [if_neg hgt] at hpe
        cases hpe
        exact framed_refl N h hN
    obtain ⟨pr, hrec, h3⟩ := Res.bind_eq_ok h2
    have f1 : framed N h (alloc pe.1
        (.full [] ep (fullSetEdgeP none empty16P (skey.getD plen 0) pe.2).1
          (fullSetEdgeP none empty16P (skey.getD plen 0) pe.2).2)).1 :=
      framed_trans f0 (framed_alloc N pe.1 _ f0.2)
    have f2 : framed N h pr.1 :=
      framed_trans f1 (ih pe f1.2 (epOK_framed hep f1) pr.1 pr.2 hrec)
    by_cases hz : plen = 0
    · rw [if_pos hz] at h3
      cases h3
      exact f2
    · rw [if_neg hz] at h3
      cases h3
      exact framed_trans f2 (framed_alloc N pr.1 _ f2.2)
  · rename_i f h a search value hash epoch v ch hget ih1 ih2
    intro hN hep h' r hins
    rw [insertH_some_eq] at hins
    simp only [hget] at hins
    obtain ⟨wb, hwb, h2⟩ := Res.bind_eq_ok hins
    have hwf : framed N h wb.1 ∧ N ≤ wb.2 := by
      by_cases heq : ep = epoch
      · rw [if_pos heq] at hwb
        cases hwb
        refine ⟨framed_refl N h hN, ?_⟩
        by_contra hlt
        push_neg at hlt
        exact hep a hlt hash epoch v ch hget heq.symm
      · rw [if_neg heq] at hwb
        cases hwb
        refine ⟨framed_alloc N h _ hN, ?_⟩
        simp [alloc]
        omega
    cases search with
    | nil =>
      obtain ⟨pr, hrec, h3⟩ := Res.bind_eq_ok h2
      have f1 : framed N h pr.1 :=
        framed_trans hwf.1 (ih1 wb hwf.1.2 (epOK_framed hep hwf.1) pr.1 pr.2 hrec)
      split at h3
      · cases h3
        exact framed_trans f1 (framed_set_ge pr.1 wb.2 _ f1.2 hwf.2)
      · cases h3
    | cons k rest =>
      replace h2 : (if 16 < k then (.err : Res (Heap × Option Nat)) else
          (insertH st ep f wb.1 (fullGetEdgeP v ch k) rest value).bind fun pr =>
          match getCell pr.1 wb.2 with
          | some (.full sh2 ep2 v2 ch2) =>
            let s := fullSetEdgeP v2 ch2 k pr.2
            .ok (setCell pr.1 wb.2 (.full sh2 ep2 s.1 s.2), some wb.2)
          | _ => .err) = .ok (h', r) := h2
      by_cases h16 : 16 < k
      · rw [if_pos h16] at h2
        cases h2
      · rw [if_neg h16] at h2
        obtain ⟨pr, hrec, h3⟩ := Res.bind_eq_ok h2
        have f1 : framed N h pr.1 :=
          framed_trans hwf.1 (ih2 wb k rest hwf.1.2 (epOK_framed hep hwf.1) pr.1 pr.2 hrec)
        split at h3
        · cases h3
          exact framed_trans f1 (framed_set_ge pr.1 wb.2 _ f1.2 hwf.2)
        · cases h3

end ITrie

namespace ITrie

/-- A link stays below the cut `N`. -/
def ptrOK (N : Nat) : Option Nat → Bool
  | none => true
  | some a => decide (a < N)

/-- All links of a cell stay below `N`. -/
def cellPtrs (N : Nat) : Cell → Bool
  | .value _ _ => true
  | .short _ _ c => ptrOK N c
  | .full _ _ v ch => ptrOK N v && ch.all (ptrOK N)

/-- The first `N` cells only link below `N` (committed node graphs are
closed). -/
def closedBelow (N : Nat) (h : Heap) : Bool :=
  (List.take N h).all (cellPtrs N)

theorem closedBelow_getCell {N : Nat} {h : Heap} (hcl : closedBelow N h = true)
    {i : Nat} (hi : i < N) {c : Cell} (hg : getCell h i = some c) :
    cellPtrs N c = true := by
  rw [closedBelow, List.all_eq_true] at hcl
  apply hcl
  have ht : (List.take N h)[i]? = some c := by
    rw [List.getElem?_take, if_pos hi]
    exact hg
  exact List.getElem?_mem ht

theorem all_ptrOK_getD {N : Nat} :
    ∀ (ch : List (Option Nat)) (k : Nat), ch.all (ptrOK N) = true →
      ptrOK N (ch.getD k none) = true := by
  intro ch
  induction ch with
  | nil =>
    intro k _
    simp [List.getD, ptrOK]
  | cons c cs ih =>
    intro k hall
    simp only [List.all_cons, Bool.and_eq_true] at hall
    cases k with
    | zero => simpa [List.getD] using hall.1
    | succ j => simpa [List.getD] using ih j hall.2

/-- A lookup from a root below the cut returns the same value on any heap
that agrees below the cut (old snapshots read the same values as long as
their cells survive). -/
theorem lookupH_agree (st : Storage) (N : Nat) :
    ∀ f h1 h2 a key hx r,
      closedBelow N h1 = true →
      (∀ i, i < N → getCell h2 i = getCell h1 i) →
      ptrOK N a = true →
      lookupH st f h1 a key = .ok (hx, r) →
      lookupH st f h2 a key = .ok (h2, r) := by
  intro f
  induction f with
  | zero =>
    intro h1 h2 a key hx r _ _ _ hk
    simp [lookupH] at hk
  | succ f ih =>
    intro h1 h2 a key hx r hcl hag hptr hk
    match a with
    | none =>
      rw [lookupH] at hk ⊢
      cases hk
      rfl
    | some a0 =>
      have ha0 : a0 < N := by simpa [ptrOK] using hptr
      rw [lookupH] at hk ⊢
      rw [hag a0 ha0]
      split at hk
      · cases hk
      · rename_i hb buf heq
        by_cases hhb : hb = true
        · rw [if_pos hhb] at hk ⊢
          cases hst : st buf with
          | ioErr =>
            rw [hst] at hk
            cases hk
          | absent =>
            rw [hst] at hk
            cases hk
            rfl
          | found nc =>
            rw [hst] at hk
            obtain ⟨r0, hl, h2eq⟩ := Res.bind_eq_ok hk
            cases h2eq
            show (lookup st f (some nc) key).bind (fun z => Res.ok (h2, z)) =
              Res.ok (h2, r)
            rw [hl, Res.bind_ok]
        · rw [if_neg hhb] at hk ⊢
          by_cases hke : key = []
          · rw [if_pos hke] at hk ⊢
            cases hk
            rfl
          · rw [if_neg hke] at hk ⊢
            cases hk
            rfl
      · rename_i sh skey child heq
        have hcp : cellPtrs N (.short sh skey child) = true :=
          closedBelow_getCell hcl ha0 heq
        have hpc : ptrOK N child = true := by simpa [cellPtrs] using hcp
        by_cases hcond : skey.length > key.length ∨ ¬ key.take skey.length = skey
        · rw [if_pos hcond] at hk ⊢
          cases hk
          rfl
        · rw [if_neg hcond] at hk ⊢
          exact ih h1 h2 child (key.drop skey.length) hx r hcl hag hpc hk
      · rename_i sh fep v ch heq
        have hcp : cellPtrs N (.full sh fep v ch) = true :=
          closedBelow_getCell hcl ha0 heq
        have hpv : ptrOK N v = true := by
          simp only [cellPtrs, Bool.and_eq_true] at hcp
          exact hcp.1
        have hpch : ch.all (ptrOK N) = true := by
          simp only [cellPtrs, Bool.and_eq_true] at hcp
          exact hcp.2
        match key, hk with
        | [], hk => exact ih h1 h2 v [] hx r hcl hag hpv hk
        | k :: rest, hk =>
          have hpe : ptrOK N (fullGetEdgeP v ch k) = true := by
            rw [fullGetEdgeP]
            by_cases hk16 : k = 16
            · rw [if_pos hk16]
              exact hpv
            · rw [if_neg hk16]
              exact all_ptrOK_getD ch k hpch
          by_cases h16 : 16 < k
          · replace hk : (if 16 < k then (.err : Res (Heap × Option (List Nat))) else
                lookupH st f h1 (fullGetEdgeP v ch k) rest) = .ok (hx, r) := hk
            rw [if_pos h16] at hk
            cases hk
          · replace hk : (if 16 < k then (.err : Res (Heap × Option (List Nat))) else
                lookupH st f h1 (fullGetEdgeP v ch k) rest) = .ok (hx, r) := hk
            rw [if_neg h16] at hk
            show (if 16 < k then (.err : Res (Heap × Option (List Nat))) else
              lookupH st f h2 (fullGetEdgeP v ch k) rest) = .ok (h2, r)
            rw [if_neg h16]
            exact ih h1 h2 (fullGetEdgeP v ch k) rest hx r hcl hag hpe hk

end ITrie

namespace ITrie

/-- C2 (amended): snapshot isolation holds for the insert path.  When no
Full cell of the committed region carries the new transaction's epoch (the
epoch discipline) and the committed node graph is closed, a completed
`Txn.Insert` leaves every committed cell unchanged, and every lookup from
any committed root still returns its pre-change value.  (`Txn.Delete`
violates this: it rewrites committed Short and Full cells in place.) -/
theorem C2_insert_preserves_snapshots (st : Storage) (f : Nat) (h : Heap) (t : TxnH)
    (k v : List Nat) (N : Nat) (h' : Heap) (t' : TxnH)
    (hN : N ≤ List.length h)
    (hep : epOK N t.epoch h)
    (hcl : closedBelow N h = true)
    (hins : TxnH.insertKH st f h t k v = .ok (h', t')) :
    (∀ i, i < N → getCell h' i = getCell h i) ∧
    (∀ a0 key r0 hx, ptrOK N a0 = true →
      lookupH st f h a0 key = .ok (hx, r0) →
      lookupH st f h' a0 key = .ok (h', r0)) := by
  rw [TxnH.insertKH] at hins
  obtain ⟨pr, hpr, hok⟩ := Res.bind_eq_ok hins
  have hfr : framed N h pr.1 :=
    insertH_frame st t.epoch N f h t.root (keybytesToHex k) v hN hep pr.1 pr.2 hpr
  cases hok
  exact ⟨hfr.1, fun a0 key r0 hx hp hl =>
    lookupH_agree st N f h pr.1 a0 key hx r0 hcl hfr.1 hp hl⟩

/-- Witness for C2's amended statement: inserting byte key 0x56 into a
transaction over the committed two-key trie leaves all five committed
cells unchanged and the committed root still reads 0xBB at byte key 0x34. -/
theorem C2_insert_preserves_snapshots_witness :
    ∃ h' t', TxnH.insertKH emptyStore 10 demoHeap { root := some 4, epoch := 2 }
        [86] [204] = .ok (h', t') ∧
      (∀ i, i < 5 → getCell h' i = getCell demoHeap i) ∧
      lookupH emptyStore 10 h' (some 4) [3, 4, 16] = .ok (h', some [187]) := by
  have hep : epOK 5 2 demoHeap := by
    intro i hi sh fe fv fch hgc
    match i, hi with
    | 0, _ =>
      rw [show getCell demoHeap 0 = some (.value false [170]) from rfl] at hgc
      simp at hgc
    | 1, _ =>
      rw [show getCell demoHeap 1 = some (.short [] [2, 16] (some 0)) from rfl] at hgc
      simp at hgc
    | 2, _ =>
      rw [show getCell demoHeap 2 = some (.value false [187]) from rfl] at hgc
      simp at hgc
    | 3, _ =>
      rw [show getCell demoHeap 3 = some (.short [] [4, 16] (some 2)) from rfl] at hgc
      simp at hgc
    | 4, _ =>
      rw [show getCell demoHeap 4 = some (.full [] 1 none
        [none, some 1, none, some 3, none, none, none, none,
         none, none, none, none, none, none, none, none]) from rfl] at hgc
      simp only [Option.some.injEq, Cell.full.injEq] at hgc
      omega
  have hmain := C2_insert_preserves_snapshots emptyStore 10 demoHeap
    { root := some 4, epoch := 2 } [86] [204] 5 _ _ (by decide) hep (by decide) rfl
  refine ⟨_, _, rfl, hmain.1, ?_⟩
  exact hmain.2 (some 4) [3, 4, 16] (some [187]) demoHeap (by decide) rfl

end ITrie

namespace ITrie

/-! ## Two-level commit driver

`Trie.Commit` walks a change-set: per entry it either deletes the hashed
address from the outer transaction (deleted account), or applies the
pending storage changes to the account's own sub-trie transaction sharing
the one write-batch, hashes that sub-trie to obtain the storage root, and
inserts the canonically encoded record into the outer transaction at the
hashed address; afterwards the outer root is hashed and the batch written
once.  Keccak-256 (`hashit`), the RLP byte encoder, the account-record
encoder and the hasher/committer (`Txn.Hash`, not under src/) are external
collaborators, taken as abstract functions: `hashFn`, `rlpEnc`,
`encodeAcct`, and `hashRoot`/`emitFn` (root hash of a node graph, and the
`(hash, encoding)` pairs its commit emits into the batch). -/

/-- The calls the commit driver issues, in order. -/
inductive COp where
  | outerDelete (k : List Nat)
  | outerInsert (k v : List Nat)
  | subDelete (addr k : List Nat)
  | subInsert (addr k v : List Nat)
  | subRoot (addr root : List Nat)
  | outerRootOp (root : List Nat)
  | flushOp
deriving DecidableEq

/-- An account entry of the change-set: deletion mark, its storage
sub-trie (root and epoch), the pending storage changes (`none` = no
storage transaction), and the record fields. -/
structure AcctEntry where
  deleted : Bool
  strie : Option Node
  sepoch : Nat
  dirty : Option (List (List Nat × Option (List Nat)))
  root0 : List Nat
  nonce : Nat
  balance : Nat
  codeHash : List Nat

/-- A walked value: a log entry (skipped) or an account. -/
inductive ChangeVal where
  | logEntry
  | acct (a : AcctEntry)

/-- Apply the pending storage changes to the local transaction: a nil
value is a delete, a non-nil value is RLP-encoded after stripping leading
zero bytes and inserted. -/
def applyStorageChanges (st : Storage) (f : Nat) (rlpEnc : List Nat → List Nat)
    (addr : List Nat) :
    List (List Nat × Option (List Nat)) → Txn → List COp → Res (Txn × List COp)
  | [], ltx, evs => .ok (ltx, evs)
  | (k2, none) :: rest, ltx, evs =>
    (Txn.deleteK st f ltx k2).bind fun ltx2 =>
    applyStorageChanges st f rlpEnc addr rest ltx2 (evs ++ [.subDelete addr k2])
  | (k2, some v2) :: rest, ltx, evs =>
    (Txn.insertK st f ltx k2 (rlpEnc (v2.dropWhile (· = 0)))).bind fun ltx2 =>
    applyStorageChanges st f rlpEnc addr rest ltx2
      (evs ++ [.subInsert addr k2 (rlpEnc (v2.dropWhile (· = 0)))])

/-- One step of the commit walk (the body of `Trie.Commit`'s callback). -/
def commitEntry (st : Storage) (f : Nat) (hashFn rlpEnc : List Nat → List Nat)
    (encodeAcct : Nat → Nat → List Nat → List Nat → List Nat)
    (hashRoot : Option Node → List Nat)
    (emitFn : Option Node → List (List Nat × List Nat))
    (e : List Nat × ChangeVal)
    (s : Txn × List (List Nat × List Nat) × List COp) :
    Res (Txn × List (List Nat × List Nat) × List COp) :=
  match e with
  | (_, .logEntry) => .ok s
  | (k, .acct a) =>
    if a.deleted then
      (Txn.deleteK st f s.1 (hashFn k)).bind fun tt2 =>
      .ok (tt2, s.2.1, s.2.2 ++ [.outerDelete (hashFn k)])
    else
      (match a.dirty with
       | none => .ok (a.root0, s.2.1, s.2.2)
       | some chs =>
         (applyStorageChanges st f rlpEnc k chs
             (Trie.txn { root := a.strie, epoch := a.sepoch }) s.2.2).bind fun pr =>
         let newRoot := hashRoot pr.1.root
         .ok (newRoot, s.2.1 ++ emitFn pr.1.root, pr.2 ++ [.subRoot k newRoot])
        : Res (List Nat × List (List Nat × List Nat) × List COp)).bind fun rb =>
      let data := encodeAcct a.nonce a.balance rb.1 a.codeHash
      (Txn.insertK st f s.1 (hashFn k) data).bind fun tt2 =>
      .ok (tt2, rb.2.1, rb.2.2 ++ [.outerInsert (hashFn k) data])

/-- The walk: fold the entries in order. -/
def commitFold (st : Storage) (f : Nat) (hashFn rlpEnc : List Nat → List Nat)
    (encodeAcct : Nat → Nat → List Nat → List Nat → List Nat)
    (hashRoot : Option Node → List Nat)
    (emitFn : Option Node → List (List Nat × List Nat)) :
    List (List Nat × ChangeVal) → Txn × List (List Nat × List Nat) × List COp →
      Res (Txn × List (List Nat × List Nat) × List COp)
  | [], s => .ok s
  | e :: es, s =>
    (commitEntry st f hashFn rlpEnc encodeAcct hashRoot emitFn e s).bind
      (commitFold st f hashFn rlpEnc encodeAcct hashRoot emitFn es)

/-- `Trie.Commit`: open the outer transaction with the shared batch, walk
the change-set, hash the outer root (emitting its dirty nodes into the
same batch), commit, and flush the batch once at the end. -/
def commitTr (st : Storage) (f : Nat) (hashFn rlpEnc : List Nat → List Nat)
    (encodeAcct : Nat → Nat → List Nat → List Nat → List Nat)
    (hashRoot : Option Node → List Nat)
    (emitFn : Option Node → List (List Nat × List Nat))
    (t : Trie) (entries : List (List Nat × ChangeVal)) :
    Res (Trie × List Nat × List (List Nat × List Nat) × List COp) :=
  (commitFold st f hashFn rlpEnc encodeAcct hashRoot emitFn entries
      (Trie.txn t, [], [])).bind fun s =>
  let root := hashRoot s.1.root
  .ok (Txn.commit s.1, root, s.2.1 ++ emitFn s.1.root,
    s.2.2 ++ [.outerRootOp root, .flushOp])

end ITrie

namespace ITrie

/-- The claim's per-account discipline, as a predicate on the operation
block and batch contribution of one walked entry: a non-account entry
contributes nothing; a deleted account only the deletion of its hashed
address; a live account its storage changes (nil = delete, non-nil
inserted RLP-encoded with leading zeros stripped), the storage root
computed on the shared batch and written back into the record, and the
encoded record inserted at the hashed address. -/
def entryShape (hashFn rlpEnc : List Nat → List Nat)
    (encodeAcct : Nat → Nat → List Nat → List Nat → List Nat)
    (hashRoot : Option Node → List Nat)
    (emitFn : Option Node → List (List Nat × List Nat))
    (e : List Nat × ChangeVal)
    (blk : List COp × List (List Nat × List Nat)) : Prop :=
  match e with
  | (_, .logEntry) => blk = ([], [])
  | (k, .acct a) =>
    if a.deleted = true then blk = ([.outerDelete (hashFn k)], [])
    else
      match a.dirty with
      | none =>
        blk = ([.outerInsert (hashFn k)
          (encodeAcct a.nonce a.balance a.root0 a.codeHash)], [])
      | some chs => ∃ nroot,
          blk = ((chs.map fun kv =>
              match kv.2 with
              | none => COp.subDelete k kv.1
              | some v => COp.subInsert k kv.1 (rlpEnc (v.dropWhile (· = 0)))) ++
            [.subRoot k (hashRoot nroot),
             .outerInsert (hashFn k)
               (encodeAcct a.nonce a.balance (hashRoot nroot) a.codeHash)],
            emitFn nroot)

theorem applyStorage_events (st : Storage) (f : Nat) (rlpEnc : List Nat → List Nat)
    (addr : List Nat) :
    ∀ chs ltx evs pr, applyStorageChanges st f rlpEnc addr chs ltx evs = .ok pr →
      pr.2 = evs ++ chs.map (fun kv =>
        match kv.2 with
        | none => COp.subDelete addr kv.1
        | some v => COp.subInsert addr kv.1 (rlpEnc (v.dropWhile (· = 0)))) := by
  intro chs
  induction chs with
  | nil =>
    intro ltx evs pr h
    rw [applyStorageChanges] at h
    cases h
    simp
  | cons kv rest ih =>
    intro ltx evs pr h
    match kv with
    | (k2, none) =>
      rw [applyStorageChanges] at h
      obtain ⟨ltx2, _, h2⟩ := Res.bind_eq_ok h
      have := ih ltx2 (evs ++ [.subDelete addr k2]) pr h2
      simpa [List.append_assoc] using this
    | (k2, some v2) =>
      rw [applyStorageChanges] at h
      obtain ⟨ltx2, _, h2⟩ := Res.bind_eq_ok h
      have := ih ltx2 (evs ++ [.subInsert addr k2 (rlpEnc (v2.dropWhile (· = 0)))]) pr h2
      simpa [List.append_assoc] using this

theorem commitEntry_shape (st : Storage) (f : Nat) (hashFn rlpEnc : List Nat → List Nat)
    (encodeAcct : Nat → Nat → List Nat → List Nat → List Nat)
    (hashRoot : Option Node → List Nat)
    (emitFn : Option Node → List (List Nat × List Nat))
    (e : List Nat × ChangeVal) (s s' : Txn × List (List Nat × List Nat) × List COp)
    (h : commitEntry st f hashFn rlpEnc encodeAcct hashRoot emitFn e s = .ok s') :
    ∃ blk, entryShape hashFn rlpEnc encodeAcct hashRoot emitFn e blk ∧
      s'.2.2 = s.2.2 ++ blk.1 ∧ s'.2.1 = s.2.1 ++ blk.2 := by
  match e with
  | (k, .logEntry) =>
    rw [commitEntry] at h
    cases h
    exact ⟨([], []), rfl, by simp, by simp⟩
  | (k, .acct a) =>
    rw [commitEntry] at h
    by_cases hd : a.deleted = true
    · rw [if_pos hd] at h
      obtain ⟨tt2, _, h2⟩ := Res.bind_eq_ok h
      cases h2
      refine ⟨([.outerDelete (hashFn k)], []), ?_, by simp, by simp⟩
      rw [entryShape, if_pos hd]
    · rw [if_neg hd] at h
      obtain ⟨rb, hrb, h2⟩ := Res.bind_eq_ok h
      obtain ⟨tt2, _, h3⟩ := Res.bind_eq_ok h2
      cases h3
      match ha : a.dirty with
      | none =>
        rw [ha] at hrb
        cases hrb
        refine ⟨([.outerInsert (hashFn k)
          (encodeAcct a.nonce a.balance a.root0 a.codeHash)], []), ?_, by simp, by simp⟩
        rw [entryShape, if_neg hd, ha]
      | some chs =>
        rw [ha] at hrb
        obtain ⟨pr, hap, h4⟩ := Res.bind_eq_ok hrb
        cases h4
        have hev := applyStorage_events st f rlpEnc k chs
          (Trie.txn { root := a.strie, epoch := a.sepoch }) s.2.2 pr hap
        refine ⟨((chs.map fun kv =>
            match kv.2 with
            | none => COp.subDelete k kv.1
            | some v => COp.subInsert k kv.1 (rlpEnc (v.dropWhile (· = 0)))) ++
          [.subRoot k (hashRoot pr.1.root),
           .outerInsert (hashFn k)
             (encodeAcct a.nonce a.balance (hashRoot pr.1.root) a.codeHash)],
          emitFn pr.1.root), ?_, ?_, by simp⟩
        · rw [entryShape, if_neg hd, ha]
          exact ⟨pr.1.root, rfl⟩
        · simp only [hev]
          simp [List.append_assoc]

theorem commitFold_shape (st : Storage) (f : Nat) (hashFn rlpEnc : List Nat → List Nat)
    (encodeAcct : Nat → Nat → List Nat → List Nat → List Nat)
    (hashRoot : Option Node → List Nat)
    (emitFn : Option Node → List (List Nat × List Nat)) :
    ∀ entries s s',
      commitFold st f hashFn rlpEnc encodeAcct hashRoot emitFn entries s = .ok s' →
      ∃ blocks, List.Forall₂
          (entryShape hashFn rlpEnc encodeAcct hashRoot emitFn) entries blocks ∧
        s'.2.2 = s.2.2 ++ (blocks.map Prod.fst).flatten ∧
        s'.2.1 = s.2.1 ++ (blocks.map Prod.snd).flatten := by
  intro entries
  induction entries with
  | nil =>
    intro s s' h
    rw [commitFold] at h
    cases h
    exact ⟨[], List.Forall₂.nil, by simp, by simp⟩
  | cons e es ih =>
    intro s s' h
    rw [commitFold] at h
    obtain ⟨s1, h1, h2⟩ := Res.bind_eq_ok h
    obtain ⟨blk, hshape, he1, hb1⟩ :=
      commitEntry_shape st f hashFn rlpEnc encodeAcct hashRoot emitFn e s s1 h1
    obtain ⟨blocks, hall, he2, hb2⟩ := ih s1 s' h2
    refine ⟨blk :: blocks, List.Forall₂.cons hshape hall, ?_, ?_⟩
    · rw [he2, he1]
      simp [List.append_assoc]
    · rw [hb2, hb1]
      simp [List.append_assoc]

theorem entryShape_no_flush (hashFn rlpEnc : List Nat → List Nat)
    (encodeAcct : Nat → Nat → List Nat → List Nat → List Nat)
    (hashRoot : Option Node → List Nat)
    (emitFn : Option Node → List (List Nat × List Nat))
    (e : List Nat × ChangeVal) (blk : List COp × List (List Nat × List Nat))
    (h : entryShape hashFn rlpEnc encodeAcct hashRoot emitFn e blk) :
    COp.flushOp ∉ blk.1 := by
  match e with
  | (k, .logEntry) =>
    rw [entryShape] at h
    rw [h]
    simp
  | (k, .acct a) =>
    rw [entryShape] at h
    by_cases hd : a.deleted = true
    · rw [if_pos hd] at h
      rw [h]
      simp
    · rw [if_neg hd] at h
      match ha : a.dirty with
      | none =>
        rw [ha] at h
        rw [h]
        simp
      | some chs =>
        rw [ha] at h
        obtain ⟨nroot, hb⟩ := h
        rw [hb]
        intro hmem
        simp only [List.mem_append, List.mem_map, List.mem_cons] at hmem
        rcases hmem with ⟨kv, _, hkv⟩ | hkv
        · match kv with
          | (k2, none) => simp at hkv
          | (k2, some v2) => simp at hkv
        · simp at hkv

theorem flatten_no_flush (blocks : List (List COp × List (List Nat × List Nat)))
    (h : ∀ blk ∈ blocks, COp.flushOp ∉ blk.1) :
    COp.flushOp ∉ (blocks.map Prod.fst).flatten := by
  intro hmem
  rw [List.mem_flatten] at hmem
  obtain ⟨l, hl, hin⟩ := hmem
  rw [List.mem_map] at hl
  obtain ⟨blk, hblk, rfl⟩ := hl
  exact h blk hblk hin

end ITrie

namespace ITrie

theorem forall₂_mem_right {α β : Type} {R : α → β → Prop} :
    ∀ {as : List α} {bs : List β}, List.Forall₂ R as bs → ∀ b ∈ bs, ∃ a ∈ as, R a b := by
  intro as bs h
  induction h with
  | nil =>
    intro b hb
    simp at hb
  | cons hR hrest ih =>
    intro b hb
    rcases List.mem_cons.mp hb with rfl | hb
    · exact ⟨_, by simp, hR⟩
    · obtain ⟨a, ha, hr⟩ := ih b hb
      exact ⟨a, by simp [ha], hr⟩

/-- C8: a completed two-level commit issues, per walked entry, exactly the
claim's operations — a deleted account contributes only the deletion of
its hashed address; a live account its storage-sub-trie changes (nil
value deleted, non-nil RLP-encoded after stripping leading zeros)
followed by the storage root computation whose result is written into the
account record, and the record's insertion at the hashed address — with
every sub-trie emission going into the one shared batch, and the single
batch flush as the last action, after the outer root is computed. -/
theorem C8_two_level_commit (st : Storage) (f : Nat) (hashFn rlpEnc : List Nat → List Nat)
    (encodeAcct : Nat → Nat → List Nat → List Nat → List Nat)
    (hashRoot : Option Node → List Nat)
    (emitFn : Option Node → List (List Nat × List Nat))
    (t : Trie) (entries : List (List Nat × ChangeVal))
    (res : Trie × List Nat × List (List Nat × List Nat) × List COp)
    (h : commitTr st f hashFn rlpEnc encodeAcct hashRoot emitFn t entries = .ok res) :
    ∃ blocks,
      List.Forall₂ (entryShape hashFn rlpEnc encodeAcct hashRoot emitFn) entries blocks ∧
      (∃ nroot, res.2.2.2 = (blocks.map Prod.fst).flatten ++
          [.outerRootOp (hashRoot nroot), .flushOp] ∧
        res.2.1 = hashRoot nroot ∧
        res.2.2.1 = (blocks.map Prod.snd).flatten ++ emitFn nroot) ∧
      res.2.2.2.count .flushOp = 1 ∧
      res.2.2.2.getLast? = some .flushOp := by
  rw [commitTr] at h
  obtain ⟨s, hs, h2⟩ := Res.bind_eq_ok h
  obtain ⟨blocks, hall, hev, hb⟩ := commitFold_shape st f hashFn rlpEnc encodeAcct
    hashRoot emitFn entries (Trie.txn t, [], []) s hs
  cases h2
  have hnf : COp.flushOp ∉ (blocks.map Prod.fst).flatten := by
    refine flatten_no_flush blocks ?_
    intro blk hblk
    obtain ⟨e, _, hsh⟩ := forall₂_mem_right hall blk hblk
    exact entryShape_no_flush hashFn rlpEnc encodeAcct hashRoot emitFn e blk hsh
  have hevf : s.2.2 = (blocks.map Prod.fst).flatten := by
    simpa using hev
  have hbf : s.2.1 = (blocks.map Prod.snd).flatten := by
    simpa using hb
  refine ⟨blocks, hall, ⟨s.1.root, ?_, rfl, ?_⟩, ?_, ?_⟩
  · rw [hevf]
  · rw [hbf]
  · show (s.2.2 ++ [COp.outerRootOp (hashRoot s.1.root), COp.flushOp]).count
      COp.flushOp = 1
    rw [hevf, List.count_append]
    rw [List.count_eq_zero.mpr hnf]
    rfl
  · show (s.2.2 ++ [COp.outerRootOp (hashRoot s.1.root), COp.flushOp]).getLast? =
      some COp.flushOp
    have hsplit : s.2.2 ++ [COp.outerRootOp (hashRoot s.1.root), COp.flushOp] =
        (s.2.2 ++ [COp.outerRootOp (hashRoot s.1.root)]) ++ [COp.flushOp] := by
      simp
    rw [hsplit, List.getLast?_concat]

/-- A three-entry change-set: a log entry, a deleted account, and a live
account with one storage delete and one storage write. -/
def c8acct1 : AcctEntry :=
  { deleted := true, strie := none, sepoch := 0, dirty := none,
    root0 := [], nonce := 0, balance := 0, codeHash := [] }

def c8acct2 : AcctEntry :=
  { deleted := false, strie := none, sepoch := 0,
    dirty := some [([3], none), ([4], some [0, 9])],
    root0 := [], nonce := 1, balance := 2, codeHash := [8] }

def c8entries : List (List Nat × ChangeVal) :=
  [([5], ChangeVal.logEntry), ([6], ChangeVal.acct c8acct1),
   ([7], ChangeVal.acct c8acct2)]

/-- Witness for C8: the three-entry change-set commits with the stated
operation trace. -/
theorem C8_two_level_commit_witness :
    ∃ res, commitTr emptyStore 10 (fun k => 90 :: k) (fun v => 82 :: v)
        (fun n b r c => [n, b] ++ r ++ c) (fun _ => [7]) (fun _ => [([1], [2])])
        newTrie c8entries = .ok res ∧
      ∃ blocks, List.Forall₂
          (entryShape (fun k => 90 :: k) (fun v => 82 :: v)
            (fun n b r c => [n, b] ++ r ++ c) (fun _ => [7]) (fun _ => [([1], [2])]))
          c8entries blocks ∧
        res.2.2.2.count .flushOp = 1 ∧ res.2.2.2.getLast? = some .flushOp := by
  obtain ⟨res, hres⟩ : ∃ res, commitTr emptyStore 10 (fun k => 90 :: k)
      (fun v => 82 :: v) (fun n b r c => [n, b] ++ r ++ c) (fun _ => [7])
      (fun _ => [([1], [2])]) newTrie c8entries = .ok res := ⟨_, rfl⟩
  obtain ⟨blocks, hall, _, hcount, hlast⟩ :=
    C8_two_level_commit emptyStore 10 (fun k => 90 :: k) (fun v => 82 :: v)
      (fun n b r c => [n, b] ++ r ++ c) (fun _ => [7]) (fun _ => [([1], [2])])
      newTrie c8entries res hres
  exact ⟨res, hres, blocks, hall, hcount, hlast⟩

end ITrie
